import Mathlib

/-!
# Merkle tree (kelvinator07/merkle-tree): shallow embedding and verified properties

The Go program keeps its tree in heap-allocated `MerkleNode` objects linked by
`Parent`, `Left` and `Right` pointers, and `NewMerkleNode` writes the `Parent` field of
the children it is given.  The embedding therefore passes an explicit heap around:

* a heap is a list of node records, an address is an index into it, and a pointer
  is `Option Nat` (`none` is Go's `nil`);
* every function that allocates or writes returns the new heap;
* dereferencing `nil` is the fault `Fault.nilDeref` (a Go panic);
* the recursion of `buildMerkleTree` and the `for node != tree.Root` loop take a
  fuel argument, and running out of it is the fault `Fault.outOfFuel`.

The `Hash` slices of the nodes are embedded by their contents (`List Byte`): each
of them shows the first 16 bytes of an array that `HashFunction128` allocated, and
the `append` calls of the builder only write behind those 16 bytes, where no slice
reads.  `VerifyMerkleProof` is different, because it appends to a slice that its
caller owns: it is embedded twice, on contents (`VerifyMerkleProof`) and on slices
in a byte memory with lengths, capacities and shared backing arrays
(`InMemory.VerifyMerkleProof`), and the two are shown to agree whenever the first
`append` leaves the bytes of the root hash and of the later proof entries untouched.
The external collaborator `sha3.Sum256` is a parameter returning exactly 32 bytes.
-/

namespace Merkle

/-! ## Data model -/

/-- One byte of a Go byte slice. -/
abbrev Byte := Fin 256

/-- The type of the external collaborator `sha3.Sum256`, whose result is a `[32]byte`. -/
abbrev Sum256 := List Byte → { l : List Byte // l.length = 32 }

/-- Embedding of `utility.HashFunction128`: the first 16 bytes (`hash[:16]`) of the
256-bit digest. -/
def HashFunction128 (sum256 : Sum256) (data : List Byte) : List Byte :=
  (sum256 data).val.take 16

/-- A Go pointer `*MerkleNode`: `none` is `nil`, `some a` is the address `a`. -/
abbrev Ptr := Option Nat

/-- Embedding of the struct `MerkleNode`. -/
structure MerkleNode where
  Parent : Ptr
  Left : Ptr
  Right : Ptr
  Hash : List Byte
  deriving DecidableEq, Repr

/-- The heap of allocated nodes; the node at address `a` is entry `a`. -/
abbrev Heap := List MerkleNode

/-- Embedding of the struct `MerkleTree`. -/
structure MerkleTree where
  Root : Ptr
  LeafNodes : List Ptr
  deriving DecidableEq, Repr

/-- Abnormal outcomes: a Go panic on a `nil` (or unallocated) pointer, and
exhaustion of the fuel that bounds recursion depth and loop iterations. -/
inductive Fault where
  | nilDeref
  | outOfFuel
  deriving DecidableEq, Repr

/-- Read the node a pointer refers to (`p.Field` in Go panics when `p` is `nil`). -/
def load (h : Heap) : Ptr → Except Fault MerkleNode
  | none => .error .nilDeref
  | some a =>
    match h[a]? with
    | some n => .ok n
    | none => .error .nilDeref

/-- The assignment `child.Parent = node`, guarded by `child != nil` as in
`NewMerkleNode`. -/
def setParent (h : Heap) (child : Ptr) (node : Nat) : Heap :=
  match child with
  | none => h
  | some a =>
    match h[a]? with
    | some n => h.set a { n with Parent := some node }
    | none => h

/-- Embedding of `NewMerkleNode`: allocate the node at the next free address, then
make it the parent of each non-nil child. Returns the new heap and the address. -/
def NewMerkleNode (h : Heap) (left right : Ptr) (hash : List Byte) : Heap × Nat :=
  let node := h.length
  let h0 := h ++ [{ Parent := none, Left := left, Right := right, Hash := hash }]
  let h1 := setParent h0 left node
  let h2 := setParent h1 right node
  (h2, node)

/-! ## Tree builder -/

/-- The loop `for i := 0; i < len(nodes); i += 2` of `buildMerkleTree`. The second
argument is the part of `nodes` not yet consumed (`nodes[i:]`), the third is
`parentNodes`. -/
def pairLoop (sum256 : Sum256) :
    Heap → List Ptr → List Ptr → Except Fault (Heap × List Ptr)
  | h, [], parentNodes => .ok (h, parentNodes)
  | h, [left], parentNodes => do
    let l ← load h left
    let (h1, right) := NewMerkleNode h none none l.Hash
    let r ← load h1 (some right)
    let combinedHash := l.Hash ++ r.Hash
    let parentHash := HashFunction128 sum256 combinedHash
    let (h2, parentNode) := NewMerkleNode h1 left (some right) parentHash
    .ok (h2, parentNodes ++ [some parentNode])
  | h, left :: right :: rest, parentNodes => do
    let l ← load h left
    let r ← load h right
    let combinedHash := l.Hash ++ r.Hash
    let parentHash := HashFunction128 sum256 combinedHash
    let (h1, parentNode) := NewMerkleNode h left right parentHash
    pairLoop sum256 h1 rest (parentNodes ++ [some parentNode])

/-- Embedding of `buildMerkleTree`; the first argument bounds the recursion depth. -/
def buildMerkleTree (sum256 : Sum256) :
    Nat → Heap → List Ptr → Except Fault (Heap × Ptr)
  | 0, _, _ => .error .outOfFuel
  | fuel + 1, h, nodes =>
    if hlen : nodes.length = 1 then
      .ok (h, nodes[0])
    else do
      let (h1, parentNodes) ← pairLoop sum256 h nodes []
      buildMerkleTree sum256 fuel h1 parentNodes

/-- The loop `for _, datum := range data` of `NewMerkleTree`; the last argument is
`leafNodes`. -/
def leafLoop (sum256 : Sum256) :
    Heap → List (List Byte) → List Ptr → Heap × List Ptr
  | h, [], leafNodes => (h, leafNodes)
  | h, datum :: rest, leafNodes =>
    let hash := HashFunction128 sum256 datum
    let (h1, node) := NewMerkleNode h none none hash
    leafLoop sum256 h1 rest (leafNodes ++ [some node])

/-- Embedding of `NewMerkleTree`, run in heap `h`. -/
def NewMerkleTree (sum256 : Sum256) (fuel : Nat) (h : Heap)
    (data : List (List Byte)) : Except Fault (Heap × MerkleTree) :=
  let (h1, leafNodes) := leafLoop sum256 h data []
  do
    let (h2, root) ← buildMerkleTree sum256 fuel h1 leafNodes
    .ok (h2, { Root := root, LeafNodes := leafNodes })

/-! ## Proof generation and verification -/

/-- The loop `for node != tree.Root` of `GenerateMerkleProof`; the first argument
bounds the number of iterations, the last is `proof`. -/
def proofLoop : Nat → Heap → Ptr → Ptr → List (List Byte) → Except Fault (List (List Byte))
  | 0, _, _, _, _ => .error .outOfFuel
  | fuel + 1, h, root, node, proof =>
    if node = root then
      .ok proof
    else do
      let n ← load h node
      let p ← load h n.Parent
      let sibling := if node = p.Left then p.Right else p.Left
      let proof1 ←
        if sibling ≠ none then do
          let s ← load h sibling
          pure (proof ++ [s.Hash])
        else
          pure (proof ++ [n.Hash])
      proofLoop fuel h root n.Parent proof1

/-- Embedding of `GenerateMerkleProof`. The result pairs the returned slice (Go's
`nil` slice is the empty list) with the returned error (`none` is `nil`). -/
def GenerateMerkleProof (fuel : Nat) (h : Heap) (tree : MerkleTree) (index : Int) :
    Except Fault (List (List Byte) × Option String) :=
  if hb : index < 0 ∨ index ≥ tree.LeafNodes.length then
    .ok ([], some "index out of bounds")
  else do
    let node := tree.LeafNodes.get ⟨index.toNat, by omega⟩
    let proof ← proofLoop fuel h tree.Root node []
    .ok (proof, none)

/-- The digit table `hextable` of Go's `encoding/hex`. -/
def hextable : List Char := "0123456789abcdef".toList

/-- Go's `hex.EncodeToString`: each byte `v` becomes `hextable[v>>4]` followed by
`hextable[v&0x0f]`. -/
def EncodeToString (src : List Byte) : String :=
  String.mk (src.flatMap fun v =>
    [hextable.getD (v.val >>> 4) '0', hextable.getD (v.val &&& 0x0f) '0'])

/-- Embedding of `VerifyMerkleProof` on the contents of its arguments. It leaves out
that `append(currentHash, hash...)` stores into the spare capacity of the caller's
`leafHash`; `InMemory.VerifyMerkleProof` below embeds the function with that store,
and agrees with this one when the store does not reach the bytes of `rootHash` or
of a later proof entry, as for the slices a tree hands out. -/
def VerifyMerkleProof (sum256 : Sum256) (rootHash leafHash : List Byte)
    (proof : List (List Byte)) : Bool :=
  let currentHash :=
    proof.foldl (fun currentHash hash => HashFunction128 sum256 (currentHash ++ hash)) leafHash
  EncodeToString currentHash == EncodeToString rootHash

/-! ## Mutation -/

/-- Embedding of `InsertLeaf`: the state is the heap together with the tree
record. -/
def InsertLeaf (sum256 : Sum256) (fuel : Nat) (h : Heap) (tree : MerkleTree)
    (data : List Byte) : Except Fault (Heap × MerkleTree) :=
  let hash := HashFunction128 sum256 data
  let (h1, newNode) := NewMerkleNode h none none hash
  let leafNodes := tree.LeafNodes ++ [some newNode]
  do
    let (h2, root) ← buildMerkleTree sum256 fuel h1 leafNodes
    .ok (h2, { Root := root, LeafNodes := leafNodes })

/-- The assignment `p.Hash = hash` (a panic when `p` is `nil`). -/
def setHash (h : Heap) (p : Ptr) (hash : List Byte) : Except Fault Heap :=
  match p with
  | none => .error .nilDeref
  | some a =>
    match h[a]? with
    | some n => .ok (h.set a { n with Hash := hash })
    | none => .error .nilDeref

/-- Embedding of `UpdateLeaf`: returns the new heap, the new tree record and the
returned error (`none` is `nil`). -/
def UpdateLeaf (sum256 : Sum256) (fuel : Nat) (h : Heap) (tree : MerkleTree)
    (index : Int) (data : List Byte) : Except Fault (Heap × MerkleTree × Option String) :=
  if hb : index < 0 ∨ index ≥ tree.LeafNodes.length then
    .ok (h, tree, some "index out of bounds")
  else do
    let hash := HashFunction128 sum256 data
    let h1 ← setHash h (tree.LeafNodes.get ⟨index.toNat, by omega⟩) hash
    let (h2, root) ← buildMerkleTree sum256 fuel h1 tree.LeafNodes
    .ok (h2, { tree with Root := root }, none)

/-! ## Concrete hash collaborators used to evaluate the program -/

/-- A stand-in for `sha3.Sum256` that keeps the first 32 bytes of its input, padded
with zeros. -/
def paddedSum256 : Sum256 := fun data =>
  ⟨(data ++ List.replicate 32 0).take 32, by simp⟩


/-! ## Reference functions on digest lists -/

/-- The node fields that `NewMerkleNode` never overwrites in an existing node. -/
def core (n : MerkleNode) : Ptr × Ptr × List Byte := (n.Left, n.Right, n.Hash)

/-- The digest stored at an address (empty when the address is unallocated). -/
def hashAt (h : Heap) (a : Nat) : List Byte := ((h[a]?).map (·.Hash)).getD []

/-- The digest a pointer leads to: `p.Hash`. -/
def hashOf (h : Heap) : Ptr → Option (List Byte)
  | none => none
  | some a => (h[a]?).map (·.Hash)

/-- One level up: consecutive pairs are hashed, an unpaired last digest is paired
with itself. -/
def nextLevel (H : List Byte → List Byte) : List (List Byte) → List (List Byte)
  | [] => []
  | [x] => [H (x ++ x)]
  | x :: y :: rest => H (x ++ y) :: nextLevel H rest

/-- The digest `GenerateMerkleProof` appends for position `k` of a level: the right
neighbour of an even position (the digest itself when there is none), the left
neighbour of an odd position. -/
def sibHash (l : List (List Byte)) (k : Nat) : List Byte :=
  if k % 2 = 0 then l.getD (k + 1) (l.getD k []) else l.getD (k - 1) []

/-- One iteration of the proof loop at address `a` moves to address `q` and appends
the digest `sib`. -/
def StepOK (h : Heap) (a q : Nat) (sib : List Byte) : Prop :=
  ∃ n pn c s, h[a]? = some n ∧ n.Parent = some q ∧ h[q]? = some pn ∧
    (if some a = pn.Left then pn.Right else pn.Left) = some c ∧
    h[c]? = some s ∧ s.Hash = sib

/-- What one run of the pairing loop over the addresses `ps` in heap `h` establishes
about the resulting heap `h1` and the addresses `qs` of the new parents. -/
structure PairPost (H : List Byte → List Byte) (h : Heap) (ps : List Nat) (h1 : Heap)
    (qs : List Nat) : Prop where
  len_le : h.length ≤ h1.length
  qs_len : qs.length = (ps.length + 1) / 2
  fresh : ∀ q ∈ qs, h.length ≤ q ∧ q < h1.length
  nodup : qs.Nodup
  core_eq : ∀ a, a < h.length → (h1[a]?).map core = (h[a]?).map core
  frame : ∀ a, a < h.length → a ∉ ps → h1[a]? = h[a]?
  hashes : qs.map (hashAt h1) = nextLevel H (ps.map (hashAt h))
  step : ∀ k, k < ps.length →
    ∃ q, qs[k / 2]? = some q ∧ StepOK h1 (ps.getD k 0) q (sibHash (ps.map (hashAt h)) k)

/-- The root digest of a digest list, by repeated `nextLevel`; the first argument
bounds the number of levels. -/
def refRootAux (H : List Byte → List Byte) : Nat → List (List Byte) → List Byte
  | 0, l => l.headD []
  | f + 1, l => if l.length ≤ 1 then l.headD [] else refRootAux H f (nextLevel H l)

/-- The root digest of a digest list: what the root hash of the built tree should
be. -/
def refRoot (H : List Byte → List Byte) (l : List (List Byte)) : List Byte :=
  refRootAux H l.length l

/-- The sibling digests from position `k` of a digest list up to the root; the first
argument bounds the number of levels. -/
def refProofAux (H : List Byte → List Byte) : Nat → List (List Byte) → Nat → List (List Byte)
  | 0, _, _ => []
  | f + 1, l, k =>
    if l.length ≤ 1 then [] else sibHash l k :: refProofAux H f (nextLevel H l) (k / 2)

/-- The sibling digests from position `k` of a digest list up to the root. -/
def refProof (H : List Byte → List Byte) (l : List (List Byte)) (k : Nat) : List (List Byte) :=
  refProofAux H l.length l k

/-- What `buildMerkleTree` on the addresses `ps` in heap `h` establishes about the
resulting heap `h2` and the root address `r`. -/
structure BuildPost (H : List Byte → List Byte) (h : Heap) (ps : List Nat) (h2 : Heap)
    (r : Nat) : Prop where
  len_le : h.length ≤ h2.length
  root_lt : r < h2.length
  single : ps.length = 1 → h2 = h ∧ ps = [r]
  root_fresh : 2 ≤ ps.length → h.length ≤ r
  core_eq : ∀ a, a < h.length → (h2[a]?).map core = (h[a]?).map core
  frame : ∀ a, a < h.length → a ∉ ps → h2[a]? = h[a]?
  root_hash : hashAt h2 r = refRoot H (ps.map (hashAt h))
  proof : ∀ k, k < ps.length → ∀ fuel, ps.length ≤ fuel → ∀ acc,
    proofLoop fuel h2 (some r) (some (ps.getD k 0)) acc =
      .ok (acc ++ refProof H (ps.map (hashAt h)) k)

/-! ## Observations and invariants -/

/-- The digest of the root node, `tree.Root.Hash`. -/
def rootHash (h : Heap) (tree : MerkleTree) : Option (List Byte) := hashOf h tree.Root

/-- The digests of the leaves in order, `tree.LeafNodes[i].Hash`. -/
def leafHashes (h : Heap) (tree : MerkleTree) : List (Option (List Byte)) :=
  tree.LeafNodes.map (hashOf h)

/-- The node `NewMerkleTree` and `InsertLeaf` allocate for a digest. -/
def leafNode (hash : List Byte) : MerkleNode :=
  { Parent := none, Left := none, Right := none, Hash := hash }

/-- The invariant of a tree in its heap: the leaves are distinct allocated nodes,
the root carries the reference root digest of the leaf digests, and from every leaf
the proof loop reaches the root collecting the reference sibling path. -/
def WellFormed (H : List Byte → List Byte) (h : Heap) (t : MerkleTree) : Prop :=
  ∃ (ps : List Nat) (r : Nat),
    t.LeafNodes = ps.map some ∧ t.Root = some r ∧ ps ≠ [] ∧ ps.Nodup ∧
    (∀ a ∈ ps, a < h.length) ∧ r < h.length ∧
    hashAt h r = refRoot H (ps.map (hashAt h)) ∧
    ∀ k, k < ps.length → ∀ fuel, ps.length ≤ fuel → ∀ acc,
      proofLoop fuel h (some r) (some (ps.getD k 0)) acc =
        .ok (acc ++ refProof H (ps.map (hashAt h)) k)

/-- The states (heap and tree record) the program can be in: after `NewMerkleTree`
on non-empty data, and after any further `InsertLeaf` and successful `UpdateLeaf`. -/
inductive Reachable (sum256 : Sum256) : Heap → MerkleTree → Prop where
  | new (fuel : Nat) (h : Heap) (data : List (List Byte)) (h2 : Heap) (t : MerkleTree) :
      data ≠ [] → NewMerkleTree sum256 fuel h data = .ok (h2, t) → Reachable sum256 h2 t
  | insert (fuel : Nat) (h : Heap) (t : MerkleTree) (d : List Byte) (h2 : Heap)
      (t2 : MerkleTree) :
      Reachable sum256 h t → InsertLeaf sum256 fuel h t d = .ok (h2, t2) →
      Reachable sum256 h2 t2
  | update (fuel : Nat) (h : Heap) (t : MerkleTree) (i : Int) (d : List Byte) (h2 : Heap)
      (t2 : MerkleTree) :
      Reachable sum256 h t → UpdateLeaf sum256 fuel h t i d = .ok (h2, t2, none) →
      Reachable sum256 h2 t2

/-- The inputs handed to the hash function while a proof is folded from
`leafHash`. -/
def foldInputs (H : List Byte → List Byte) : List Byte → List (List Byte) → List (List Byte)
  | _, [] => []
  | cur, s :: rest => (cur ++ s) :: foldInputs H (H (cur ++ s)) rest

/-- No two different inputs of the list `inputs` have the same digest. -/
def CollisionFreeOn (H : List Byte → List Byte) (inputs : List (List Byte)) : Prop :=
  ∀ x ∈ inputs, ∀ y ∈ inputs, H x = H y → x = y

/-- The digests of the leaves in order, with the empty digest for a leaf pointer that
leads nowhere. -/
def leafDigests (h : Heap) (tree : MerkleTree) : List (List Byte) :=
  tree.LeafNodes.map fun p => (hashOf h p).getD []

/-- Position-aware reconstruction of the root from a proof for leaf index `i`: step
`k` hashes `acc || proof[k]` when `i >> k` is even and `proof[k] || acc` when it is
odd. The second argument is the number `k` of the next step. -/
def positionFold (H : List Byte → List Byte) (i : Nat) :
    Nat → List Byte → List (List Byte) → List Byte
  | _, acc, [] => acc
  | k, acc, s :: rest =>
    positionFold H i (k + 1) (if (i >>> k) % 2 = 0 then H (acc ++ s) else H (s ++ acc)) rest

/-- Level `k` of the digests: level 0 is the list of leaf digests, and level `k + 1`
is obtained from level `k` by hashing consecutive pairs, an unpaired last digest
being hashed with itself. -/
def level (H : List Byte → List Byte) (l : List (List Byte)) : Nat → List (List Byte)
  | 0 => l
  | k + 1 => nextLevel H (level H l k)

/-- The inputs hashed to form the next level: each consecutive pair of digests
concatenated, an unpaired last digest concatenated with itself. -/
def pairInputs : List (List Byte) → List (List Byte)
  | [] => []
  | [x] => [x ++ x]
  | x :: y :: rest => (x ++ y) :: pairInputs rest

/-- The inputs hashed by the builder on all levels above the digests `l`; the first
argument bounds the number of levels. -/
def treeInputsAux (H : List Byte → List Byte) : Nat → List (List Byte) → List (List Byte)
  | 0, _ => []
  | f + 1, l =>
    if l.length ≤ 1 then [] else pairInputs l ++ treeInputsAux H f (nextLevel H l)

/-- The inputs hashed by the builder on all levels above the leaf digests `l`. -/
def treeInputs (H : List Byte → List Byte) (l : List (List Byte)) : List (List Byte) :=
  treeInputsAux H l.length l

/-- A second stand-in for `sha3.Sum256`, which keeps the length of its input, the sum
of its bytes and a position-weighted sum of its bytes (all modulo 256) and pads
with zeros; unlike `paddedSum256` it separates the inputs of small examples. -/
def mixSum256 : Sum256 := fun data =>
  ⟨[Fin.ofNat data.length, data.sum,
      (data.enum.map fun p => (Fin.ofNat (p.1 + 1) : Byte) * p.2).sum] ++
    List.replicate 29 0, by simp⟩

/-- The subtree below address `a` satisfies the node-hash invariant: every node in it
either has no children, or has two allocated children and carries the digest of the
concatenation of their digests. -/
inductive GoodTree (H : List Byte → List Byte) (h : Heap) : Nat → Prop where
  | leaf (a : Nat) (n : MerkleNode) :
      h[a]? = some n → n.Left = none → n.Right = none → GoodTree H h a
  | node (a : Nat) (n : MerkleNode) (l r : Nat) (ln rn : MerkleNode) :
      h[a]? = some n → n.Left = some l → n.Right = some r →
      h[l]? = some ln → h[r]? = some rn → n.Hash = H (ln.Hash ++ rn.Hash) →
      GoodTree H h l → GoodTree H h r → GoodTree H h a

/-- The nodes reachable from address `a` by following `Left` and `Right` pointers. -/
inductive Descendant (h : Heap) : Nat → Nat → Prop where
  | self (a : Nat) : Descendant h a a
  | left (a b l : Nat) (n : MerkleNode) :
      h[a]? = some n → n.Left = some l → Descendant h l b → Descendant h a b
  | right (a b r : Nat) (n : MerkleNode) :
      h[a]? = some n → n.Right = some r → Descendant h r b → Descendant h a b

/-- The node-hash invariant at one node: it has no children, or both children are
present and its hash is `H(left.hash || right.hash)`. -/
def NodeInvariant (H : List Byte → List Byte) (h : Heap) (a : Nat) : Prop :=
  ∃ n, h[a]? = some n ∧
    ((n.Left = none ∧ n.Right = none) ∨
      ∃ l r ln rn, n.Left = some l ∧ n.Right = some r ∧ h[l]? = some ln ∧ h[r]? = some rn ∧
        n.Hash = H (ln.Hash ++ rn.Hash))

/-- What the pairing loop establishes about a new parent `q`: its left child is one
of the paired nodes, its right child is another of them or a childless duplicate,
and it carries the digest of the two child digests. -/
def ParentShape (H : List Byte → List Byte) (h1 : Heap) (ps : List Nat) (q : Nat) : Prop :=
  ∃ pn l c ln cn, h1[q]? = some pn ∧ pn.Left = some l ∧ pn.Right = some c ∧
    h1[l]? = some ln ∧ h1[c]? = some cn ∧ pn.Hash = H (ln.Hash ++ cn.Hash) ∧
    l ∈ ps ∧ (c ∈ ps ∨ (cn.Left = none ∧ cn.Right = none))

/-- From address `a` the proof loop reaches the root `r`, and on every node on the
way other than the root it finds an allocated parent and an allocated sibling. -/
inductive Climb (h : Heap) (r : Nat) : Nat → Prop where
  | root : Climb h r r
  | step (a q : Nat) (sib : List Byte) :
      a ≠ r → StepOK h a q sib → Climb h r q → Climb h r a

/-- The structural invariant of a tree in its heap: the leaves are distinct childless
nodes, the tree below the root satisfies the node-hash invariant, and from every
leaf the proof loop climbs to the root through present parents and siblings. -/
def Shaped (H : List Byte → List Byte) (h : Heap) (t : MerkleTree) : Prop :=
  ∃ (ps : List Nat) (r : Nat),
    t.LeafNodes = ps.map some ∧ t.Root = some r ∧ ps ≠ [] ∧ ps.Nodup ∧
    (∀ a ∈ ps, ∃ n, h[a]? = some n ∧ n.Left = none ∧ n.Right = none) ∧
    GoodTree H h r ∧ (∀ a ∈ ps, Climb h r a)

/-- The loop of `GenerateMerkleProof` with a ghost record: next to `proof` it
collects, for every iteration, whether the defensive branch taken when `sibling` is
nil (appending the node's own hash) was executed. -/
def proofLoopTrace :
    Nat → Heap → Ptr → Ptr → List (List Byte) → List Bool →
      Except Fault (List (List Byte) × List Bool)
  | 0, _, _, _, _, _ => .error .outOfFuel
  | fuel + 1, h, root, node, proof, fallback =>
    if node = root then
      .ok (proof, fallback)
    else do
      let n ← load h node
      let p ← load h n.Parent
      let sibling := if node = p.Left then p.Right else p.Left
      let next ←
        if sibling ≠ none then do
          let s ← load h sibling
          pure (proof ++ [s.Hash], fallback ++ [false])
        else
          pure (proof ++ [n.Hash], fallback ++ [true])
      proofLoopTrace fuel h root n.Parent next.1 next.2

/-- The successive values of `node` on which the body of the proof loop runs. -/
def visited : Nat → Heap → Ptr → Ptr → List Ptr
  | 0, _, _, _ => []
  | fuel + 1, h, root, node =>
    if node = root then []
    else
      node ::
        match load h node with
        | .ok n => visited fuel h root n.Parent
        | .error _ => []

/-- The node `v` has an allocated parent, and the sibling the proof loop selects for
it is non-nil and allocated. -/
def SiblingPresent (h : Heap) (v : Ptr) : Prop :=
  ∃ n p sibling s, load h v = .ok n ∧ load h n.Parent = .ok p ∧
    (if v = p.Left then p.Right else p.Left) = some sibling ∧
    load h (some sibling) = .ok s


/-! ## The walk of the proof generator -/

/-- The walk `GenerateMerkleProof` takes from `node` up to `root`: `Walk h root node k`
says that `k` iterations of its loop end at `root`, each of them finding the node
and its parent allocated and the sibling it selects `nil` or allocated. -/
inductive Walk (h : Heap) (root : Ptr) : Ptr → Nat → Prop where
  | stop : Walk h root root 0
  | step (node : Ptr) (n p : MerkleNode) (k : Nat) : node ≠ root →
      load h node = .ok n → load h n.Parent = .ok p →
      ((if node = p.Left then p.Right else p.Left) ≠ none →
        ∃ s, load h (if node = p.Left then p.Right else p.Left) = .ok s) →
      Walk h root n.Parent k → Walk h root node (k + 1)

/-! ## Appending a leaf -/

/-- The digest a new last leaf with digest `x` has grown into after `j` levels on
which it had no neighbour: it is paired with itself on each of them. -/
def selfPaired (H : List Byte → List Byte) : Nat → List Byte → List Byte
  | 0, x => x
  | j + 1, x => H (selfPaired H j x ++ selfPaired H j x)

/-- The digest list `l` ends in a duplicated tail of `x`: for some `j` its last `2^j`
digests are all `x` and they follow a positive multiple of `2^(j+1)` digests, so
that the length of `l` is `2^j * m` with `m` odd and at least 3. -/
def DuplicatedTail (l : List (List Byte)) (x : List Byte) : Prop :=
  ∃ j k init, 1 ≤ k ∧ init.length = 2 ^ (j + 1) * k ∧ l = init ++ List.replicate (2 ^ j) x

/-! ## Byte slices in memory

`VerifyMerkleProof` receives its slices from the caller and appends to the first of
them, so for this function the embedding also represents where the bytes live. -/

/-- Byte memory: the backing arrays of all byte slices, laid out in one address
space. -/
abbrev Memory := List Byte

/-- A Go `[]byte` value: the address of its first byte, its length and its capacity
(its backing array ends at address `ptr + cap`). -/
structure Slice where
  ptr : Nat
  len : Nat
  cap : Nat
  deriving DecidableEq, Repr

/-- The bytes a slice shows, `s[0:len(s)]`. -/
def Slice.bytes (s : Slice) (m : Memory) : List Byte := (m.drop s.ptr).take s.len

/-- Memory after the bytes `xs` have been stored from address `a` on. -/
def store (m : Memory) (a : Nat) (xs : List Byte) : Memory :=
  m.take a ++ xs ++ m.drop (a + xs.length)

namespace InMemory

/-- Go's built-in `append(s, t...)` on byte slices. When the bytes of `t` fit into
the capacity of `s` they are stored behind `s` in its backing array, which changes
every slice that shows those addresses, and the result is `s` made longer; otherwise
a new array is allocated and receives the bytes of both. The capacity of a new array
is chosen by the Go runtime; it is the length here, and `VerifyMerkleProof` only
reads such a result. -/
def append (m : Memory) (s t : Slice) : Memory × Slice :=
  if s.len + t.len ≤ s.cap then
    (store m (s.ptr + s.len) (t.bytes m), { ptr := s.ptr, len := s.len + t.len, cap := s.cap })
  else
    (m ++ (s.bytes m ++ t.bytes m),
      { ptr := m.length, len := s.len + t.len, cap := s.len + t.len })

/-- Embedding of `utility.HashFunction128` on slices: `sha3.Sum256` returns a fresh
32-byte array `hash`, and the result `hash[:16]` is a slice of length 16 and
capacity 32 over it. -/
def HashFunction128 (sum256 : Sum256) (m : Memory) (data : Slice) : Memory × Slice :=
  (m ++ (sum256 (data.bytes m)).val, { ptr := m.length, len := 16, cap := 32 })

/-- The loop `for _, hash := range proof` of `VerifyMerkleProof`, from memory `m` and
the slice `currentHash`. -/
def verifyLoop (sum256 : Sum256) : Memory → Slice → List Slice → Memory × Slice
  | m, currentHash, [] => (m, currentHash)
  | m, currentHash, hash :: rest =>
    let combined := append m currentHash hash
    let hashed := HashFunction128 sum256 combined.1 combined.2
    verifyLoop sum256 hashed.1 hashed.2 rest

/-- Embedding of `VerifyMerkleProof` on slices in memory: the returned boolean and
the memory it leaves behind. -/
def VerifyMerkleProof (sum256 : Sum256) (m : Memory) (rootHash leafHash : Slice)
    (proof : List Slice) : Bool × Memory :=
  let final := verifyLoop sum256 m leafHash proof
  (EncodeToString (final.2.bytes final.1) == EncodeToString (rootHash.bytes final.1), final.1)

end InMemory

/-- The first `append` of `VerifyMerkleProof`, which stores the first proof entry `p0`
behind `leafHash` when it fits into its capacity, leaves the bytes the slice `s`
shows untouched: the entry does not fit, or `s` ends before the end of `leafHash`,
or `s` starts behind the bytes stored. -/
def Untouched (leafHash p0 s : Slice) : Prop :=
  leafHash.cap < leafHash.len + p0.len ∨ s.ptr + s.len ≤ leafHash.ptr + leafHash.len ∨
    leafHash.ptr + leafHash.len + p0.len ≤ s.ptr

/-- Example memory: a 32-byte array that holds a leaf digest (16 bytes of value 1)
followed by the digest of that leaf digest and the proof entry, and a 16-byte array
that holds the proof entry (16 bytes of value 2). -/
def rootBehindLeaf : Memory :=
  List.replicate 16 1 ++
    HashFunction128 mixSum256 (List.replicate 16 1 ++ List.replicate 16 2) ++
    List.replicate 16 2

/-- Example memory: a 32-byte array that holds a leaf digest (16 bytes of value 1)
followed by 16 bytes of value 3, a 16-byte array that holds a proof entry (16 bytes
of value 2), and a 16-byte array that holds the root digest to which the leaf
digest folds along the proof made of that entry twice. -/
def entryBehindLeaf : Memory :=
  List.replicate 16 1 ++ List.replicate 16 3 ++ List.replicate 16 2 ++
    HashFunction128 mixSum256
      (HashFunction128 mixSum256 (List.replicate 16 1 ++ List.replicate 16 2) ++
        List.replicate 16 2)
/-! ## Heap lemmas -/

theorem setParent_length (h : Heap) (c : Ptr) (p : Nat) :
    (setParent h c p).length = h.length := by
  unfold setParent
  split
  · rfl
  · split <;> simp

theorem setParent_getElem? (h : Heap) (c : Ptr) (p a : Nat) :
    (setParent h c p)[a]? =
      if c = some a then (h[a]?).map (fun n => { n with Parent := some p }) else h[a]? := by
  unfold setParent
  split
  · simp
  · rename_i b
    by_cases hba : b = a
    · subst hba
      split
      · rename_i n hq
        have hb : b < h.length := (List.getElem?_eq_some_iff.mp hq).1
        simp [hq, List.getElem?_set, hb]
      · rename_i hq
        simp [hq]
    · split <;> simp [hba, List.getElem?_set]

theorem NewMerkleNode_snd (h : Heap) (l r : Ptr) (x : List Byte) :
    (NewMerkleNode h l r x).2 = h.length := rfl

theorem NewMerkleNode_length (h : Heap) (l r : Ptr) (x : List Byte) :
    (NewMerkleNode h l r x).1.length = h.length + 1 := by
  simp [NewMerkleNode, setParent_length]

theorem NewMerkleNode_leaf (h : Heap) (x : List Byte) :
    NewMerkleNode h none none x =
      (h ++ [{ Parent := none, Left := none, Right := none, Hash := x }], h.length) := by
  simp [NewMerkleNode, setParent]

/-- Contents of the heap after `NewMerkleNode`, on the old addresses. -/
theorem NewMerkleNode_getElem?_old (h : Heap) (l r : Ptr) (x : List Byte) (a : Nat)
    (ha : a < h.length) :
    (NewMerkleNode h l r x).1[a]? =
      if l = some a ∨ r = some a then
        (h[a]?).map (fun n => { n with Parent := some h.length })
      else h[a]? := by
  simp only [NewMerkleNode, setParent_getElem?, List.getElem?_append_left ha]
  by_cases h1 : l = some a <;> by_cases h2 : r = some a <;> simp [h1, h2]
  cases h[a]? <;> simp

/-- The freshly allocated node, when neither child pointer is the new address. -/
theorem NewMerkleNode_getElem?_new (h : Heap) (l r : Ptr) (x : List Byte)
    (hl : l ≠ some h.length) (hr : r ≠ some h.length) :
    (NewMerkleNode h l r x).1[h.length]? =
      some { Parent := none, Left := l, Right := r, Hash := x } := by
  simp [NewMerkleNode, setParent_getElem?, hl, hr]

/-! ## One iteration of the loops -/

theorem load_ok {h : Heap} {a : Nat} {n : MerkleNode} (hn : h[a]? = some n) :
    load h (some a) = .ok n := by
  simp [load, hn]

theorem pairLoop_nil (S : Sum256) (h : Heap) (acc : List Ptr) :
    pairLoop S h [] acc = .ok (h, acc) := rfl

theorem pairLoop_pair (S : Sum256) {h : Heap} {l r : Nat}
    {ln rn : MerkleNode} (rest acc : List Ptr)
    (hl : h[l]? = some ln) (hr : h[r]? = some rn) :
    pairLoop S h (some l :: some r :: rest) acc =
      pairLoop S (NewMerkleNode h (some l) (some r)
        (HashFunction128 S (ln.Hash ++ rn.Hash))).1 rest
        (acc ++ [some h.length]) := by
  simp [pairLoop, load, hl, hr, bind, Except.bind, NewMerkleNode_snd]

theorem pairLoop_single (S : Sum256) {h : Heap} {l : Nat}
    {ln : MerkleNode} (acc : List Ptr) (hl : h[l]? = some ln) :
    pairLoop S h [some l] acc =
      .ok ((NewMerkleNode (h ++ [{ Parent := none, Left := none, Right := none, Hash := ln.Hash }])
              (some l) (some h.length) (HashFunction128 S (ln.Hash ++ ln.Hash))).1,
           acc ++ [some (h.length + 1)]) := by
  simp [pairLoop, load, hl, bind, Except.bind, NewMerkleNode_leaf, NewMerkleNode_snd]

theorem proofLoop_root (fuel : Nat) (h : Heap) (root : Ptr) (proof : List (List Byte)) :
    proofLoop (fuel + 1) h root root proof = .ok proof := by
  simp [proofLoop]

theorem proofLoop_step {h : Heap} {a q : Nat} {sib : List Byte} (hs : StepOK h a q sib)
    (fuel : Nat) (root : Ptr) (proof : List (List Byte)) (hne : some a ≠ root) :
    proofLoop (fuel + 1) h root (some a) proof =
      proofLoop fuel h root (some q) (proof ++ [sib]) := by
  obtain ⟨n, pn, c, s, hn, hp, hpn, hc, hsn, hsib⟩ := hs
  simp [proofLoop, hne, load, hn, hp, hpn, hc, hsn, hsib, bind, Except.bind, pure, Except.pure]

theorem hashAt_of_getElem? {h : Heap} {a : Nat} {n : MerkleNode} (hn : h[a]? = some n) :
    hashAt h a = n.Hash := by
  simp [hashAt, hn]

theorem hashAt_congr_core {h1 h2 : Heap} {a : Nat}
    (hc : (h1[a]?).map core = (h2[a]?).map core) : hashAt h1 a = hashAt h2 a := by
  unfold hashAt
  cases h1a : h1[a]? <;> cases h2a : h2[a]? <;> simp [h1a, h2a, core] at hc ⊢
  exact hc.2.2

theorem exists_getElem? {h : Heap} {a : Nat} (ha : a < h.length) : ∃ n, h[a]? = some n :=
  ⟨h[a], List.getElem?_eq_getElem ha⟩

theorem lt_of_getElem? {h : Heap} {a : Nat} {n : MerkleNode} (hn : h[a]? = some n) :
    a < h.length := (List.getElem?_eq_some_iff.mp hn).1

theorem sibHash_add_two (x y : List Byte) (l : List (List Byte)) (k : Nat) :
    sibHash (x :: y :: l) (k + 2) = sibHash l k := by
  unfold sibHash
  have h2 : (k + 2) % 2 = k % 2 := by omega
  rw [h2]
  split
  · simp [List.getD_cons_succ]
  · rename_i hk
    obtain ⟨j, rfl⟩ : ∃ j, k = j + 1 := ⟨k - 1, by omega⟩
    simp [List.getD_cons_succ]

theorem core_map_parent (x : Option MerkleNode) (p : Nat) :
    (x.map (fun n => ({ n with Parent := some p } : MerkleNode))).map core = x.map core := by
  cases x <;> simp [core]

/-! ## The pairing loop -/

/-- The pairing loop on valid, pairwise distinct addresses succeeds and satisfies
`PairPost`. -/
theorem pairLoop_spec (S : Sum256) :
    ∀ (ps : List Nat) (h : Heap) (acc : List Ptr),
      (∀ a ∈ ps, a < h.length) → ps.Nodup →
      ∃ h1 qs, pairLoop S h (ps.map some) acc = .ok (h1, acc ++ qs.map some) ∧
        PairPost (HashFunction128 S) h ps h1 qs
  | [], h, acc, _, _ => by
    refine ⟨h, [], by simp [pairLoop_nil], ?_⟩
    constructor <;> simp [nextLevel]
  | [l], h, acc, hv, _ => by
    have hl : l < h.length := hv l (by simp)
    obtain ⟨ln, hln⟩ := exists_getElem? hl
    let dup : MerkleNode := { Parent := none, Left := none, Right := none, Hash := ln.Hash }
    have hd : (h ++ [dup]).length = h.length + 1 := by simp
    have hl0 : (h ++ [dup])[l]? = some ln := by
      rw [List.getElem?_append_left hl]; exact hln
    have hd0 : (h ++ [dup])[h.length]? = some dup := by simp
    refine ⟨(NewMerkleNode (h ++ [dup]) (some l) (some h.length) (HashFunction128 S (ln.Hash ++ ln.Hash))).1,
      [h.length + 1], ?_, ?_⟩
    · simp [pairLoop_single S acc hln, dup]
    · have hlen := NewMerkleNode_length (h ++ [dup]) (some l) (some h.length)
        (HashFunction128 S (ln.Hash ++ ln.Hash))
      have hold := NewMerkleNode_getElem?_old (h ++ [dup]) (some l) (some h.length)
        (HashFunction128 S (ln.Hash ++ ln.Hash))
      have hnew := NewMerkleNode_getElem?_new (h ++ [dup]) (some l) (some h.length)
        (HashFunction128 S (ln.Hash ++ ln.Hash)) (by simp; omega) (by simp)
      rw [hd] at hlen hnew
      constructor
      · omega
      · simp
      · intro q hq
        simp at hq
        omega
      · simp
      · intro a ha
        rw [hold a (by omega)]
        split
        · rw [core_map_parent, List.getElem?_append_left ha]
        · rw [List.getElem?_append_left ha]
      · intro a ha hna
        have hal : a ≠ l := by simpa using hna
        rw [hold a (by omega)]
        have h1 : ¬ (some l = some a ∨ some h.length = some a) := by
          simp; omega
        rw [if_neg h1, List.getElem?_append_left ha]
      · simp [nextLevel, hashAt_of_getElem? hnew, hashAt_of_getElem? hln]
      · intro k hk
        have hk0 : k = 0 := by simpa using hk
        subst hk0
        refine ⟨h.length + 1, by simp, ?_⟩
        refine ⟨{ ln with Parent := some (h.length + 1) },
          { Parent := none, Left := some l, Right := some h.length,
            Hash := HashFunction128 S (ln.Hash ++ ln.Hash) },
          h.length, { dup with Parent := some (h.length + 1) }, ?_, rfl, hnew, by simp, ?_, ?_⟩
        · simp [hold l (by omega), hl0, hd]
        · simp [hold h.length (by omega), hd0, hd]
        · simp [sibHash, hashAt_of_getElem? hln, dup]
  | l :: r :: rest, h, acc, hv, hnd => by
    have hl : l < h.length := hv l (by simp)
    have hr : r < h.length := hv r (by simp)
    obtain ⟨ln, hln⟩ := exists_getElem? hl
    obtain ⟨rn, hrn⟩ := exists_getElem? hr
    have hrest : ∀ a ∈ rest, a < h.length := fun a ha => hv a (by simp [ha])
    simp only [List.nodup_cons, List.mem_cons, not_or] at hnd
    obtain ⟨⟨hlr, hlrest⟩, hrrest, hndr⟩ := hnd
    have hlen := NewMerkleNode_length h (some l) (some r) (HashFunction128 S (ln.Hash ++ rn.Hash))
    have hold := NewMerkleNode_getElem?_old h (some l) (some r) (HashFunction128 S (ln.Hash ++ rn.Hash))
    have hnew := NewMerkleNode_getElem?_new h (some l) (some r) (HashFunction128 S (ln.Hash ++ rn.Hash))
      (by simp; omega) (by simp; omega)
    have hprest : h.length ∉ rest := fun hm => by have := hrest _ hm; omega
    obtain ⟨h1, qs, hrun, post⟩ := pairLoop_spec S rest
      (NewMerkleNode h (some l) (some r) (HashFunction128 S (ln.Hash ++ rn.Hash))).1 (acc ++ [some h.length])
      (fun a ha => by rw [hlen]; have := hrest a ha; omega) hndr
    -- the three nodes of the first pair are untouched by the rest of the loop
    have hl1 : h1[l]? = some { ln with Parent := some h.length } := by
      rw [post.frame l (by omega) hlrest, hold l hl]; simp [hln]
    have hr1 : h1[r]? = some { rn with Parent := some h.length } := by
      rw [post.frame r (by omega) hrrest, hold r hr]; simp [hrn]
    have hp1 : h1[h.length]? =
        some { Parent := none, Left := some l, Right := some r,
               Hash := HashFunction128 S (ln.Hash ++ rn.Hash) } := by
      rw [post.frame h.length (by omega) hprest, hnew]
    have hcore0 : ∀ a, a < h.length →
        ((NewMerkleNode h (some l) (some r) (HashFunction128 S (ln.Hash ++ rn.Hash))).1[a]?).map core
          = (h[a]?).map core := by
      intro a ha
      rw [hold a ha]
      split
      · rw [core_map_parent]
      · rfl
    have hhash : rest.map (hashAt (NewMerkleNode h (some l) (some r)
        (HashFunction128 S (ln.Hash ++ rn.Hash))).1) = rest.map (hashAt h) :=
      List.map_congr_left fun a ha => hashAt_congr_core (hcore0 a (hrest a ha))
    refine ⟨h1, h.length :: qs, ?_, ?_⟩
    · rw [List.map_cons, List.map_cons, pairLoop_pair S _ _ hln hrn, hrun]
      simp
    · have hle := post.len_le
      constructor
      · omega
      · simp [post.qs_len]; omega
      · intro q hq
        rcases List.mem_cons.mp hq with rfl | hq
        · omega
        · have := post.fresh q hq; omega
      · exact List.nodup_cons.mpr
          ⟨fun hm => by have := post.fresh _ hm; omega, post.nodup⟩
      · intro a ha
        rw [post.core_eq a (by omega), hcore0 a ha]
      · intro a ha hna
        simp only [List.mem_cons, not_or] at hna
        rw [post.frame a (by omega) hna.2.2, hold a ha]
        have h1 : ¬ (some l = some a ∨ some r = some a) := by
          simp; exact ⟨fun e => hna.1 e.symm, fun e => hna.2.1 e.symm⟩
        rw [if_neg h1]
      · simp [nextLevel, post.hashes, hhash, hashAt_of_getElem? hp1, hashAt_of_getElem? hln,
          hashAt_of_getElem? hrn]
      · intro k hk
        match k, hk with
        | 0, _ =>
          exact ⟨h.length, by simp, _, _, r, _, hl1, rfl, hp1, by simp, hr1,
            by simp [sibHash, hashAt_of_getElem? hrn]⟩
        | 1, _ =>
          refine ⟨h.length, by simp, _, _, l, _, hr1, rfl, hp1, ?_, hl1,
            by simp [sibHash, hashAt_of_getElem? hln]⟩
          simp [List.getD_cons_succ, Ne.symm hlr]
        | k + 2, hk =>
          obtain ⟨q, hq, hstep⟩ := post.step k (by simpa using hk)
          refine ⟨q, ?_, ?_⟩
          · rw [Nat.add_div_right k (by norm_num : 0 < 2)]
            simpa using hq
          · rw [hhash] at hstep
            simpa [List.getD_cons_succ, sibHash_add_two] using hstep

/-! ## Reference functions -/

theorem nextLevel_length (H : List Byte → List Byte) :
    ∀ l : List (List Byte), (nextLevel H l).length = (l.length + 1) / 2
  | [] => by simp [nextLevel]
  | [_] => by simp [nextLevel]
  | _ :: _ :: rest => by
    simp [nextLevel, nextLevel_length H rest]
    omega

theorem refRootAux_fuel (H : List Byte → List Byte) :
    ∀ (f g : Nat) (l : List (List Byte)), l.length ≤ f → l.length ≤ g →
      refRootAux H f l = refRootAux H g l := by
  intro f
  induction f with
  | zero =>
    intro g l hf _
    have hl : l = [] := List.length_eq_zero.mp (by omega)
    subst hl
    cases g <;> simp [refRootAux]
  | succ f ih =>
    intro g l hf hg
    cases g with
    | zero =>
      have hl : l = [] := List.length_eq_zero.mp (by omega)
      subst hl
      simp [refRootAux]
    | succ g =>
      simp only [refRootAux]
      split
      · rfl
      · have hn := nextLevel_length H l
        exact ih g _ (by omega) (by omega)

theorem refRoot_unfold (H : List Byte → List Byte) (l : List (List Byte)) :
    refRoot H l = if l.length ≤ 1 then l.headD [] else refRoot H (nextLevel H l) := by
  unfold refRoot
  cases hl : l.length with
  | zero => simp [refRootAux]
  | succ n =>
    simp only [refRootAux, hl]
    split
    · rfl
    · have hn := nextLevel_length H l
      exact refRootAux_fuel H _ _ _ (by omega) (by omega)

theorem refProofAux_fuel (H : List Byte → List Byte) :
    ∀ (f g : Nat) (l : List (List Byte)) (k : Nat), l.length ≤ f → l.length ≤ g →
      refProofAux H f l k = refProofAux H g l k := by
  intro f
  induction f with
  | zero =>
    intro g l k hf _
    have hl : l = [] := List.length_eq_zero.mp (by omega)
    subst hl
    cases g <;> simp [refProofAux]
  | succ f ih =>
    intro g l k hf hg
    cases g with
    | zero =>
      have hl : l = [] := List.length_eq_zero.mp (by omega)
      subst hl
      simp [refProofAux]
    | succ g =>
      simp only [refProofAux]
      split
      · rfl
      · have hn := nextLevel_length H l
        rw [ih g _ _ (by omega) (by omega)]

theorem refProof_unfold (H : List Byte → List Byte) (l : List (List Byte)) (k : Nat) :
    refProof H l k =
      if l.length ≤ 1 then [] else sibHash l k :: refProof H (nextLevel H l) (k / 2) := by
  unfold refProof
  cases hl : l.length with
  | zero => simp [refProofAux]
  | succ n =>
    simp only [refProofAux, hl]
    split
    · rfl
    · have hn := nextLevel_length H l
      rw [refProofAux_fuel H n (nextLevel H l).length _ _ (by omega) (by omega)]

theorem core_some {h1 h2 : Heap} {b : Nat} {n : MerkleNode}
    (hc : (h2[b]?).map core = (h1[b]?).map core) (hn : h1[b]? = some n) :
    ∃ m, h2[b]? = some m ∧ m.Left = n.Left ∧ m.Right = n.Right ∧ m.Hash = n.Hash := by
  rw [hn] at hc
  cases h2b : h2[b]? with
  | none => simp [h2b] at hc
  | some m =>
    simp [h2b, core] at hc
    exact ⟨m, rfl, hc.1, hc.2.1, hc.2.2⟩

/-- A step of the proof loop survives a later rebuild that only rewrites `Parent`
fields of other nodes. -/
theorem StepOK_transfer {h1 h2 : Heap} {a q : Nat} {sib : List Byte}
    (hs : StepOK h1 a q sib)
    (hcore : ∀ b, b < h1.length → (h2[b]?).map core = (h1[b]?).map core)
    (ha : h2[a]? = h1[a]?) : StepOK h2 a q sib := by
  obtain ⟨n, pn, c, s, hn, hp, hpn, hc, hsn, hsib⟩ := hs
  obtain ⟨pm, hpm, hL, hR, _⟩ := core_some (hcore q (lt_of_getElem? hpn)) hpn
  obtain ⟨sm, hsm, _, _, hH⟩ := core_some (hcore c (lt_of_getElem? hsn)) hsn
  exact ⟨n, pm, c, sm, by rw [ha, hn], hp, hpm, by rw [hL, hR]; exact hc, hsm, by rw [hH, hsib]⟩

/-! ## The builder -/

theorem buildMerkleTree_single (S : Sum256) (fuel : Nat) (h : Heap) (p : Ptr) :
    buildMerkleTree S (fuel + 1) h [p] = .ok (h, p) := by
  simp [buildMerkleTree]

theorem buildMerkleTree_rec (S : Sum256) (fuel : Nat) (h h1 : Heap)
    (nodes parents : List Ptr) (hlen : nodes.length ≠ 1)
    (hrun : pairLoop S h nodes [] = .ok (h1, parents)) :
    buildMerkleTree S (fuel + 1) h nodes = buildMerkleTree S fuel h1 parents := by
  simp [buildMerkleTree, hlen, hrun, bind, Except.bind]

/-- `buildMerkleTree` on a non-empty list of valid, pairwise distinct addresses
succeeds whenever the fuel is at least the number of nodes, and satisfies
`BuildPost`. -/
theorem build_spec (S : Sum256) :
    ∀ (fuel : Nat) (ps : List Nat) (h : Heap),
      ps ≠ [] → (∀ a ∈ ps, a < h.length) → ps.Nodup → ps.length ≤ fuel →
      ∃ h2 r, buildMerkleTree S fuel h (ps.map some) = .ok (h2, some r) ∧
        BuildPost (HashFunction128 S) h ps h2 r := by
  intro fuel
  induction fuel with
  | zero =>
    intro ps h hne _ _ hf
    exact absurd (List.length_eq_zero.mp (by omega)) hne
  | succ fuel ih =>
    intro ps h hne hv hnd hf
    by_cases h1 : ps.length = 1
    · obtain ⟨a, rfl⟩ := List.length_eq_one.mp h1
      have ha : a < h.length := hv a (by simp)
      refine ⟨h, a, by simp [buildMerkleTree_single], ?_⟩
      constructor
      · exact le_refl _
      · exact ha
      · intro _; exact ⟨rfl, rfl⟩
      · intro h2; simp at h2
      · intro _ _; rfl
      · intro _ _ _; rfl
      · rw [refRoot_unfold]; simp
      · intro k hk fuel' hf' acc
        have hk0 : k = 0 := by simpa using hk
        subst hk0
        obtain ⟨f, rfl⟩ : ∃ f, fuel' = f + 1 := ⟨fuel' - 1, by simp at hf'; omega⟩
        rw [refProof_unfold]
        simp [proofLoop_root]
    · have h2 : 2 ≤ ps.length := by
        have : ps.length ≠ 0 := fun h0 => hne (List.length_eq_zero.mp h0)
        omega
      obtain ⟨h1', qs, hrun, post⟩ := pairLoop_spec S ps h [] hv hnd
      simp only [List.nil_append] at hrun
      have hq_len := post.qs_len
      have hqne : qs ≠ [] := by
        intro hq; rw [hq] at hq_len; simp at hq_len; omega
      obtain ⟨h2', r, hbuild, bp⟩ := ih qs h1' hqne (fun q hq => (post.fresh q hq).2)
        post.nodup (by omega)
      have hr_fresh : h.length ≤ r := by
        by_cases hq1 : qs.length = 1
        · have := (bp.single hq1).2
          exact (post.fresh r (by rw [this]; simp)).1
        · have := bp.root_fresh (by
            have : qs.length ≠ 0 := fun h0 => hqne (List.length_eq_zero.mp h0)
            omega)
          have := post.len_le
          omega
      have hhs_len : ¬ (ps.map (hashAt h)).length ≤ 1 := by simp; omega
      refine ⟨h2', r, ?_, ?_⟩
      · rw [buildMerkleTree_rec S fuel h h1' _ _ (by simpa using h1) hrun, hbuild]
      · constructor
        · exact le_trans post.len_le bp.len_le
        · exact bp.root_lt
        · intro h1''; exact absurd h1'' h1
        · intro _; exact hr_fresh
        · intro a ha
          rw [bp.core_eq a (lt_of_lt_of_le ha post.len_le), post.core_eq a ha]
        · intro a ha hna
          rw [bp.frame a (lt_of_lt_of_le ha post.len_le)
            (fun hm => by have := (post.fresh a hm).1; omega), post.frame a ha hna]
        · rw [bp.root_hash, post.hashes, refRoot_unfold (HashFunction128 S) (ps.map (hashAt h)), if_neg hhs_len]
        · intro k hk fuel' hf' acc
          obtain ⟨f, rfl⟩ : ∃ f, fuel' = f + 1 := ⟨fuel' - 1, by omega⟩
          obtain ⟨q, hq, hstep⟩ := post.step k hk
          have ha_lt : ps.getD k 0 < h.length := by
            rw [List.getD_eq_getElem _ _ hk]
            exact hv _ (List.getElem_mem hk)
          have ha_notin : ps.getD k 0 ∉ qs := fun hm => by
            have := (post.fresh _ hm).1; omega
          have hstep2 : StepOK h2' (ps.getD k 0) q (sibHash (ps.map (hashAt h)) k) :=
            StepOK_transfer hstep bp.core_eq
              (bp.frame _ (lt_of_lt_of_le ha_lt post.len_le) ha_notin)
          have hk2 : k / 2 < qs.length := by omega
          have hqd : qs.getD (k / 2) 0 = q := by
            rw [List.getD_eq_getElem?_getD, hq]; rfl
          have hne_root : some (ps.getD k 0) ≠ some r := fun he => by
            have := Option.some.inj he; omega
          rw [proofLoop_step hstep2 f (some r) acc hne_root]
          have := bp.proof (k / 2) hk2 f (by omega) (acc ++ [sibHash (ps.map (hashAt h)) k])
          rw [hqd] at this
          rw [this, post.hashes, refProof_unfold (HashFunction128 S) (ps.map (hashAt h)), if_neg hhs_len]
          simp

/-! ## Building a tree from data -/

theorem leafLoop_eq (S : Sum256) :
    ∀ (data : List (List Byte)) (h : Heap) (acc : List Ptr),
      leafLoop S h data acc =
        (h ++ data.map (fun d => leafNode (HashFunction128 S d)),
         acc ++ (List.range' h.length data.length).map some)
  | [], h, acc => by simp [leafLoop]
  | d :: rest, h, acc => by
    simp [leafLoop, NewMerkleNode_leaf, leafLoop_eq S rest, leafNode, List.range'_succ]

theorem hashAt_leaves :
    ∀ (xs : List (List Byte)) (h : Heap),
      (List.range' h.length xs.length).map (hashAt (h ++ xs.map leafNode)) = xs
  | [], h => by simp
  | x :: rest, h => by
    have ih := hashAt_leaves rest (h ++ [leafNode x])
    have e : h ++ List.map leafNode (x :: rest) = (h ++ [leafNode x]) ++ rest.map leafNode := by
      simp
    have hx : hashAt ((h ++ [leafNode x]) ++ rest.map leafNode) h.length = x := by
      have hg : ((h ++ [leafNode x]) ++ rest.map leafNode)[h.length]? = some (leafNode x) := by
        rw [List.getElem?_append_left (by simp), List.getElem?_append_right (le_refl _)]
        simp
      rw [hashAt_of_getElem? hg]
      rfl
    rw [e, List.length_cons, List.range'_succ, List.map_cons, hx]
    rw [List.length_append, List.length_singleton] at ih
    rw [ih]

theorem buildMerkleTree_mono (S : Sum256) :
    ∀ (fuel : Nat) (h : Heap) (nodes : List Ptr) (x : Heap × Ptr),
      buildMerkleTree S fuel h nodes = .ok x →
      ∀ k, buildMerkleTree S (fuel + k) h nodes = .ok x := by
  intro fuel
  induction fuel with
  | zero =>
    intro h nodes x hx
    simp [buildMerkleTree] at hx
  | succ fuel ih =>
    intro h nodes x hx k
    rw [show fuel + 1 + k = (fuel + k) + 1 by omega]
    by_cases hlen : nodes.length = 1
    · simp only [buildMerkleTree, hlen, dite_true] at hx ⊢
      exact hx
    · cases hp : pairLoop S h nodes [] with
      | error e => simp [buildMerkleTree, hlen, hp, bind, Except.bind] at hx
      | ok p =>
        obtain ⟨h1, parents⟩ := p
        rw [buildMerkleTree_rec S _ h h1 nodes parents hlen hp] at hx ⊢
        exact ih h1 parents x hx k

theorem hashes_congr_core {h h2 : Heap} {ps : List Nat}
    (hcore : ∀ a, a < h.length → (h2[a]?).map core = (h[a]?).map core)
    (hv : ∀ a ∈ ps, a < h.length) : ps.map (hashAt h2) = ps.map (hashAt h) :=
  List.map_congr_left fun a ha => hashAt_congr_core (hcore a (hv a ha))

theorem hashOf_some_hashAt {h : Heap} {a : Nat} (ha : a < h.length) :
    hashOf h (some a) = some (hashAt h a) := by
  obtain ⟨n, hn⟩ := exists_getElem? ha
  simp [hashOf, hashAt, hn]

/-- A successful build over valid, distinct addresses yields a well-formed tree, and
keeps every digest that was in the heap before. -/
theorem WellFormed_of_build (S : Sum256) {fuel : Nat} {h0 h : Heap} {ps : List Nat}
    {root : Ptr} (hne : ps ≠ []) (hv : ∀ a ∈ ps, a < h0.length) (hnd : ps.Nodup)
    (hrun : buildMerkleTree S fuel h0 (ps.map some) = .ok (h, root)) :
    WellFormed (HashFunction128 S) h { Root := root, LeafNodes := ps.map some } ∧
      h0.length ≤ h.length ∧ ps.map (hashAt h) = ps.map (hashAt h0) := by
  obtain ⟨h2, r, hb, bp⟩ := build_spec S (fuel + ps.length) ps h0 hne hv hnd (by omega)
  rw [buildMerkleTree_mono S fuel h0 _ _ hrun ps.length] at hb
  simp only [Except.ok.injEq, Prod.mk.injEq] at hb
  obtain ⟨rfl, rfl⟩ := hb
  have hh := hashes_congr_core bp.core_eq hv
  refine ⟨⟨ps, r, rfl, rfl, hne, hnd, fun a ha => lt_of_lt_of_le (hv a ha) bp.len_le,
    bp.root_lt, ?_, ?_⟩, bp.len_le, hh⟩
  · rw [hh]; exact bp.root_hash
  · rw [hh]; exact bp.proof

theorem NewMerkleTree_eq (S : Sum256) (fuel : Nat) (h : Heap) (data : List (List Byte)) :
    NewMerkleTree S fuel h data =
      (buildMerkleTree S fuel (h ++ data.map (fun d => leafNode (HashFunction128 S d)))
          ((List.range' h.length data.length).map some)).bind
        fun x => .ok (x.1,
          { Root := x.2, LeafNodes := (List.range' h.length data.length).map some }) := by
  simp [NewMerkleTree, leafLoop_eq, bind]

theorem range'_valid (h : Heap) (xs : List MerkleNode) (n : Nat) (hn : n ≤ xs.length) :
    ∀ a ∈ List.range' h.length n, a < (h ++ xs).length := by
  intro a ha
  have := List.mem_range'_1.mp ha
  simp
  omega

/-- `NewMerkleTree` on non-empty data returns, given fuel at least the number of
blocks; the leaves are the freshly allocated addresses and the build satisfies
`BuildPost`. -/
theorem NewMerkleTree_spec (S : Sum256) (fuel : Nat) (h : Heap) (data : List (List Byte))
    (hne : data ≠ []) (hf : data.length ≤ fuel) :
    ∃ h2 r, NewMerkleTree S fuel h data =
        .ok (h2, { Root := some r, LeafNodes := (List.range' h.length data.length).map some }) ∧
      BuildPost (HashFunction128 S) (h ++ (data.map (HashFunction128 S)).map leafNode)
        (List.range' h.length data.length) h2 r := by
  have hlenne : List.range' h.length data.length ≠ [] := by
    intro he
    have := congrArg List.length he
    simp at this
    exact hne this
  obtain ⟨h2, r, hb, bp⟩ := build_spec S fuel (List.range' h.length data.length)
    (h ++ (data.map (HashFunction128 S)).map leafNode) hlenne
    (range'_valid h _ _ (by simp)) (List.nodup_range' _ _) (by simpa using hf)
  refine ⟨h2, r, ?_, bp⟩
  rw [NewMerkleTree_eq]
  simp only [List.map_map] at hb
  rw [show (fun d => leafNode (HashFunction128 S d)) = leafNode ∘ HashFunction128 S from rfl, hb]
  rfl

/-! ## Mutation keeps the invariant -/

theorem InsertLeaf_eq (S : Sum256) (fuel : Nat) (h : Heap) (t : MerkleTree) (d : List Byte) :
    InsertLeaf S fuel h t d =
      (buildMerkleTree S fuel (h ++ [leafNode (HashFunction128 S d)])
          (t.LeafNodes ++ [some h.length])).bind
        fun x => .ok (x.1, { Root := x.2, LeafNodes := t.LeafNodes ++ [some h.length] }) := by
  simp [InsertLeaf, NewMerkleNode_leaf, leafNode, bind]

theorem setHash_ok {h : Heap} {a : Nat} {n : MerkleNode} (hn : h[a]? = some n)
    (x : List Byte) : setHash h (some a) x = .ok (h.set a { n with Hash := x }) := by
  simp [setHash, hn]

theorem bind_eq_ok {ε α β : Type} {x : Except ε α} {f : α → Except ε β} {y : β}
    (hxy : x.bind f = .ok y) : ∃ a, x = .ok a ∧ f a = .ok y := by
  cases x with
  | error e => simp [Except.bind] at hxy
  | ok a => exact ⟨a, rfl, hxy⟩

theorem WellFormed_insert (S : Sum256) {fuel : Nat} {h h2 : Heap} {t t2 : MerkleTree}
    {d : List Byte} (hwf : WellFormed (HashFunction128 S) h t)
    (hrun : InsertLeaf S fuel h t d = .ok (h2, t2)) :
    WellFormed (HashFunction128 S) h2 t2 := by
  obtain ⟨ps, r, hleaves, _, hne, hnd, hv, _, _, _⟩ := hwf
  rw [InsertLeaf_eq] at hrun
  obtain ⟨⟨h3, root⟩, hb, hok⟩ := bind_eq_ok hrun
  simp only [Except.ok.injEq, Prod.mk.injEq] at hok
  obtain ⟨rfl, rfl⟩ := hok
  have hl : t.LeafNodes ++ [some h.length] = (ps ++ [h.length]).map some := by
    simp [hleaves]
  rw [hl] at hb ⊢
  refine (WellFormed_of_build S (by simp) ?_ ?_ hb).1
  · intro a ha
    rcases List.mem_append.mp ha with ha | ha
    · have := hv a ha; simp; omega
    · simp at ha; simp [ha]
  · refine List.Nodup.append hnd (List.nodup_singleton _) ?_
    intro a ha hb'
    simp at hb'
    have := hv a ha
    omega

theorem UpdateLeaf_out_of_range (S : Sum256) (fuel : Nat) (h : Heap) (t : MerkleTree)
    (i : Int) (d : List Byte) (hi : i < 0 ∨ i ≥ t.LeafNodes.length) :
    UpdateLeaf S fuel h t i d = .ok (h, t, some "index out of bounds") := by
  simp [UpdateLeaf, hi]

theorem UpdateLeaf_in_range (S : Sum256) (fuel : Nat) (h : Heap) (t : MerkleTree)
    (i : Int) (d : List Byte) (hi : ¬ (i < 0 ∨ i ≥ t.LeafNodes.length)) :
    UpdateLeaf S fuel h t i d =
      (setHash h (t.LeafNodes.get ⟨i.toNat, by omega⟩) (HashFunction128 S d)).bind fun h1 =>
        (buildMerkleTree S fuel h1 t.LeafNodes).bind fun x =>
          .ok (x.1, { t with Root := x.2 }, none) := by
  simp [UpdateLeaf, hi, bind]

theorem WellFormed_update (S : Sum256) {fuel : Nat} {h h2 : Heap} {t t2 : MerkleTree}
    {i : Int} {d : List Byte} (hwf : WellFormed (HashFunction128 S) h t)
    (hrun : UpdateLeaf S fuel h t i d = .ok (h2, t2, none)) :
    WellFormed (HashFunction128 S) h2 t2 := by
  obtain ⟨ps, r, hleaves, _, hne, hnd, hv, _, _, _⟩ := hwf
  by_cases hi : i < 0 ∨ i ≥ t.LeafNodes.length
  · rw [UpdateLeaf_out_of_range S fuel h t i d hi] at hrun
    simp at hrun
  · rw [UpdateLeaf_in_range S fuel h t i d hi] at hrun
    obtain ⟨h1, hset, hrest⟩ := bind_eq_ok hrun
    obtain ⟨⟨h3, root⟩, hb, hok⟩ := bind_eq_ok hrest
    simp only [Except.ok.injEq, Prod.mk.injEq] at hok
    obtain ⟨rfl, rfl, _⟩ := hok
    have hlen1 : h1.length = h.length := by
      unfold setHash at hset
      split at hset
      · simp at hset
      · split at hset
        · simp only [Except.ok.injEq] at hset
          rw [← hset]; simp
        · simp at hset
    rw [hleaves] at hb
    have := (WellFormed_of_build S hne (fun a ha => by rw [hlen1]; exact hv a ha) hnd hb).1
    simpa [hleaves] using this

/-- Every reachable state satisfies the invariant. -/
theorem Reachable.wellFormed {S : Sum256} {h : Heap} {t : MerkleTree}
    (hr : Reachable S h t) : WellFormed (HashFunction128 S) h t := by
  induction hr with
  | new fuel h data h2 t hne hrun =>
    rw [NewMerkleTree_eq] at hrun
    obtain ⟨⟨h3, root⟩, hb, hok⟩ := bind_eq_ok hrun
    simp only [Except.ok.injEq, Prod.mk.injEq] at hok
    obtain ⟨rfl, rfl⟩ := hok
    have hlenne : List.range' h.length data.length ≠ [] := by
      intro he
      have := congrArg List.length he
      simp at this
      exact hne this
    exact (WellFormed_of_build S hlenne (range'_valid h _ _ (by simp))
      (List.nodup_range' _ _) hb).1
  | insert fuel h t d h2 t2 _ hrun ih => exact WellFormed_insert S ih hrun
  | update fuel h t i d h2 t2 _ hrun ih => exact WellFormed_update S ih hrun

/-! ## Hex encoding and verification -/

theorem hexDigit_injective :
    ∀ a b : Fin 16, hextable.getD a.val '0' = hextable.getD b.val '0' → a = b := by
  decide

set_option maxRecDepth 100000 in
theorem byte_nibbles :
    ∀ v : Byte, v.val >>> 4 < 16 ∧ v.val &&& 0x0f < 16 ∧
      v.val = 16 * (v.val >>> 4) + (v.val &&& 0x0f) := by
  decide

theorem hexPair_injective (v w : Byte)
    (hvw : hextable.getD (v.val >>> 4) '0' = hextable.getD (w.val >>> 4) '0' ∧
      hextable.getD (v.val &&& 0x0f) '0' = hextable.getD (w.val &&& 0x0f) '0') : v = w := by
  obtain ⟨hv1, hv2, hv3⟩ := byte_nibbles v
  obtain ⟨hw1, hw2, hw3⟩ := byte_nibbles w
  have e1 := hexDigit_injective ⟨v.val >>> 4, hv1⟩ ⟨w.val >>> 4, hw1⟩ hvw.1
  have e2 := hexDigit_injective ⟨v.val &&& 0x0f, hv2⟩ ⟨w.val &&& 0x0f, hw2⟩ hvw.2
  have e1v : v.val >>> 4 = w.val >>> 4 := congrArg Fin.val e1
  have e2v : v.val &&& 0x0f = w.val &&& 0x0f := congrArg Fin.val e2
  apply Fin.ext
  omega

theorem hexChars_inj :
    ∀ (a b : List Byte),
      (a.flatMap fun v => [hextable.getD (v.val >>> 4) '0', hextable.getD (v.val &&& 0x0f) '0']) =
        (b.flatMap fun v => [hextable.getD (v.val >>> 4) '0', hextable.getD (v.val &&& 0x0f) '0']) →
      a = b
  | [], [] => fun _ => rfl
  | [], w :: b => fun hl => by
    rw [List.flatMap_nil, List.flatMap_cons] at hl
    exact absurd hl (by intro hc; injection hc)
  | v :: a, [] => fun hl => by
    rw [List.flatMap_nil, List.flatMap_cons] at hl
    exact absurd hl (by intro hc; injection hc)
  | v :: a, w :: b => fun hl => by
    rw [List.flatMap_cons, List.flatMap_cons] at hl
    injection hl with h1 hl
    injection hl with h2 h3
    rw [hexPair_injective v w ⟨h1, h2⟩, hexChars_inj a b h3]

/-- Two byte slices have the same hex encoding exactly when they are equal. -/
theorem EncodeToString_inj (a b : List Byte) :
    EncodeToString a = EncodeToString b ↔ a = b :=
  ⟨fun hab => hexChars_inj a b (congrArg String.data hab), fun hab => by rw [hab]⟩

theorem VerifyMerkleProof_iff (S : Sum256) (rootHash leafHash : List Byte)
    (proof : List (List Byte)) :
    VerifyMerkleProof S rootHash leafHash proof = true ↔
      proof.foldl (fun acc sibling => HashFunction128 S (acc ++ sibling)) leafHash = rootHash := by
  simp [VerifyMerkleProof, EncodeToString_inj]

/-! ## What a well-formed tree shows to its callers -/

theorem GenerateMerkleProof_out_of_range (fuel : Nat) (h : Heap) (t : MerkleTree) (i : Int)
    (hi : i < 0 ∨ i ≥ t.LeafNodes.length) :
    GenerateMerkleProof fuel h t i = .ok ([], some "index out of bounds") := by
  simp [GenerateMerkleProof, hi]

theorem GenerateMerkleProof_in_range (fuel : Nat) (h : Heap) (t : MerkleTree) (i : Int)
    (hi : ¬ (i < 0 ∨ i ≥ t.LeafNodes.length)) :
    GenerateMerkleProof fuel h t i =
      (proofLoop fuel h t.Root (t.LeafNodes.get ⟨i.toNat, by omega⟩) []).bind
        fun proof => .ok (proof, none) := by
  simp [GenerateMerkleProof, hi, bind]

theorem leafDigests_eq {h : Heap} {t : MerkleTree} {ps : List Nat}
    (hl : t.LeafNodes = ps.map some) : leafDigests h t = ps.map (hashAt h) := by
  simp [leafDigests, hl, hashOf, hashAt]

theorem leafHashes_eq {h : Heap} {t : MerkleTree} {ps : List Nat}
    (hl : t.LeafNodes = ps.map some) (hv : ∀ a ∈ ps, a < h.length) :
    leafHashes h t = (leafDigests h t).map some := by
  rw [leafDigests_eq hl, leafHashes, hl, List.map_map, List.map_map]
  exact List.map_congr_left fun a ha => hashOf_some_hashAt (hv a ha)

/-- In a well-formed tree the root carries the reference root of the leaf digests,
every leaf has a digest, and `GenerateMerkleProof` returns the reference sibling
path for every index in range. -/
theorem WellFormed.observe {H : List Byte → List Byte} {h : Heap} {t : MerkleTree}
    (hwf : WellFormed H h t) :
    t.LeafNodes ≠ [] ∧
    rootHash h t = some (refRoot H (leafDigests h t)) ∧
    leafHashes h t = (leafDigests h t).map some ∧
    ∀ (i : Int), 0 ≤ i → i < t.LeafNodes.length → ∀ fuel, t.LeafNodes.length ≤ fuel →
      GenerateMerkleProof fuel h t i = .ok (refProof H (leafDigests h t) i.toNat, none) := by
  obtain ⟨ps, r, hl, hroot, hne, _, hv, hr, hrh, hproof⟩ := hwf
  refine ⟨by simp [hl, hne], ?_, leafHashes_eq hl hv, ?_⟩
  · rw [rootHash, hroot, hashOf_some_hashAt hr, hrh, leafDigests_eq hl]
  · intro i hi0 hilt fuel hf
    have hlen : t.LeafNodes.length = ps.length := by simp [hl]
    have hk : i.toNat < ps.length := by omega
    rw [GenerateMerkleProof_in_range fuel h t i (by omega)]
    have hget : t.LeafNodes.get ⟨i.toNat, by omega⟩ = some (ps.getD i.toNat 0) := by
      simp [hl, List.getElem?_eq_getElem hk]
    rw [hget, hroot, hproof i.toNat hk fuel (by omega) [], leafDigests_eq hl]
    rfl

/-- `NewMerkleTree` on non-empty data, with fuel at least the number of blocks,
returns a reachable, well-formed tree whose leaf digests are the digests of the
blocks in order. -/
theorem NewMerkleTree_observe (S : Sum256) (fuel : Nat) (h : Heap) (data : List (List Byte))
    (hne : data ≠ []) (hf : data.length ≤ fuel) :
    ∃ h2 t, NewMerkleTree S fuel h data = .ok (h2, t) ∧ Reachable S h2 t ∧
      WellFormed (HashFunction128 S) h2 t ∧
      t.LeafNodes.length = data.length ∧
      leafDigests h2 t = data.map (HashFunction128 S) := by
  obtain ⟨h2, r, hrun, bp⟩ := NewMerkleTree_spec S fuel h data hne hf
  have hreach := Reachable.new fuel h data h2 _ hne hrun
  refine ⟨h2, _, hrun, hreach, hreach.wellFormed, by simp, ?_⟩
  rw [leafDigests_eq rfl, hashes_congr_core bp.core_eq (range'_valid h _ _ (by simp))]
  have := hashAt_leaves (data.map (HashFunction128 S)) h
  simpa using this

/-! ## The fold of the verifier along the leftmost path -/

theorem fold_refProof_zero (H : List Byte → List Byte) :
    ∀ (n : Nat) (l : List (List Byte)), l.length = n →
      (refProof H l 0).foldl (fun acc sibling => H (acc ++ sibling)) (l.headD []) =
        refRoot H l := by
  intro n
  induction n using Nat.strong_induction_on with
  | _ n ih =>
    intro l hl
    rw [refProof_unfold, refRoot_unfold]
    by_cases h1 : l.length ≤ 1
    · simp [h1]
    · rw [if_neg h1, if_neg h1]
      match l, hl, h1 with
      | [], _, h1 => exact absurd (by simp) h1
      | [_], _, h1 => exact absurd (by simp) h1
      | x :: y :: rest, hl, _ =>
        have hlt : (nextLevel H (x :: y :: rest)).length < n := by
          rw [nextLevel_length, hl]
          simp at hl
          omega
        have := ih _ hlt (nextLevel H (x :: y :: rest)) rfl
        simp only [nextLevel, List.headD_cons] at this
        simp only [List.foldl_cons, List.headD_cons, sibHash, Nat.zero_div]
        simpa [nextLevel] using this

/-! ## The claims -/

/-- C2: for every non-empty sequence of blocks (and fuel at least their number),
`NewMerkleTree` returns a tree, `GenerateMerkleProof` returns a proof for index 0
without error, and `VerifyMerkleProof` accepts that proof against the tree's root
hash and the digest stored in leaf 0, which is the digest of block 0. -/
theorem leftmost_proof_verifies (S : Sum256) (h : Heap) (data : List (List Byte)) (fuel : Nat)
    (hne : data ≠ []) (hf : data.length ≤ fuel) :
    ∃ h2 t proof root leaf,
      NewMerkleTree S fuel h data = .ok (h2, t) ∧
      GenerateMerkleProof fuel h2 t 0 = .ok (proof, none) ∧
      rootHash h2 t = some root ∧
      (leafHashes h2 t)[0]? = some (some leaf) ∧
      data[0]?.map (HashFunction128 S) = some leaf ∧
      VerifyMerkleProof S root leaf proof = true := by
  obtain ⟨h2, t, hrun, _, hwf, hlen, hdig⟩ := NewMerkleTree_observe S fuel h data hne hf
  obtain ⟨_, hroot, hleaves, hgen⟩ := hwf.observe
  obtain ⟨d, rest, rfl⟩ := List.exists_cons_of_ne_nil hne
  have hg := hgen 0 (le_refl _) (by rw [hlen]; simp) fuel (by omega)
  refine ⟨h2, t, _, _, HashFunction128 S d, hrun, hg, hroot, ?_, by simp, ?_⟩
  · rw [hleaves, hdig]; simp
  · rw [VerifyMerkleProof_iff, hdig]
    have := fold_refProof_zero (HashFunction128 S) _
      ((d :: rest).map (HashFunction128 S)) rfl
    simpa using this

/-- Witness for C2: a three-block tree under the stand-in hash. -/
theorem leftmost_proof_verifies_witness :
    ([[1], [2], [3]] : List (List Byte)) ≠ [] ∧
    ([[1], [2], [3]] : List (List Byte)).length ≤ 3 ∧
    ∃ h2 t proof root leaf,
      NewMerkleTree paddedSum256 3 [] [[1], [2], [3]] = .ok (h2, t) ∧
      GenerateMerkleProof 3 h2 t 0 = .ok (proof, none) ∧
      rootHash h2 t = some root ∧
      (leafHashes h2 t)[0]? = some (some leaf) ∧
      ([[1], [2], [3]] : List (List Byte))[0]?.map (HashFunction128 paddedSum256) = some leaf ∧
      VerifyMerkleProof paddedSum256 root leaf proof = true :=
  ⟨by decide, by decide,
    leftmost_proof_verifies paddedSum256 [] [[1], [2], [3]] 3 (by decide) (by decide)⟩

/-- On contents, `VerifyMerkleProof` returns true exactly when the left fold of the
proof from `leafHash` with step `acc := H(acc || sibling)` equals `rootHash`; the
comparison of hex encodings it performs is byte equality; with an empty proof it
returns true exactly when `leafHash` equals `rootHash`. -/
theorem verify_iff_fold_equals_root (S : Sum256) (rootHash leafHash : List Byte)
    (proof : List (List Byte)) :
    (VerifyMerkleProof S rootHash leafHash proof = true ↔
      proof.foldl (fun acc sibling => HashFunction128 S (acc ++ sibling)) leafHash = rootHash) ∧
    (∀ a b : List Byte, EncodeToString a = EncodeToString b ↔ a = b) ∧
    (VerifyMerkleProof S rootHash leafHash [] = true ↔ leafHash = rootHash) :=
  ⟨VerifyMerkleProof_iff S rootHash leafHash proof, EncodeToString_inj,
    by rw [VerifyMerkleProof_iff]; rfl⟩

/-- C1 (the round trip fails at index 1): for any two blocks, `NewMerkleTree` returns
a tree with root hash `H(H(b0) || H(b1))`, `GenerateMerkleProof(1)` returns the
one-entry proof `[H(b0)]`, and `VerifyMerkleProof` accepts it against the root hash
and `H(b1)` exactly when `H(H(b1) || H(b0)) = H(H(b0) || H(b1))`. -/
theorem right_leaf_proof_two_blocks (S : Sum256) (h : Heap) (b0 b1 : List Byte) (fuel : Nat) :
    ∃ h2 t,
      NewMerkleTree S (fuel + 2) h [b0, b1] = .ok (h2, t) ∧
      leafHashes h2 t = [some (HashFunction128 S b0), some (HashFunction128 S b1)] ∧
      rootHash h2 t =
        some (HashFunction128 S (HashFunction128 S b0 ++ HashFunction128 S b1)) ∧
      GenerateMerkleProof (fuel + 2) h2 t 1 = .ok ([HashFunction128 S b0], none) ∧
      (VerifyMerkleProof S (HashFunction128 S (HashFunction128 S b0 ++ HashFunction128 S b1))
          (HashFunction128 S b1) [HashFunction128 S b0] = true ↔
        HashFunction128 S (HashFunction128 S b1 ++ HashFunction128 S b0) =
          HashFunction128 S (HashFunction128 S b0 ++ HashFunction128 S b1)) := by
  obtain ⟨h2, t, hrun, _, hwf, hlen, hdig⟩ :=
    NewMerkleTree_observe S (fuel + 2) h [b0, b1] (by simp) (by simp)
  obtain ⟨_, hroot, hleaves, hgen⟩ := hwf.observe
  have hg := hgen 1 (by decide) (by rw [hlen]; simp) (fuel + 2) (by rw [hlen]; simp)
  refine ⟨h2, t, hrun, ?_, ?_, ?_, ?_⟩
  · rw [hleaves, hdig]; rfl
  · rw [hroot, hdig]
    simp [refRoot, refRootAux, nextLevel]
  · rw [hg, hdig]
    simp [refProof, refProofAux, nextLevel, sibHash]
  · rw [VerifyMerkleProof_iff]
    rfl

/-- The round trip of C1 evaluated under the stand-in hash on the blocks `[1]`, `[2]`:
the proof generated for index 1 is rejected. -/
theorem roundtrip_rejected_at_index_one :
    ∃ h2 t proof root,
      NewMerkleTree paddedSum256 2 [] [[1], [2]] = .ok (h2, t) ∧
      GenerateMerkleProof 2 h2 t 1 = .ok (proof, none) ∧
      rootHash h2 t = some root ∧
      VerifyMerkleProof paddedSum256 root (HashFunction128 paddedSum256 [2]) proof = false :=
  ⟨_, _, _, _, rfl, rfl, rfl, by decide⟩

/-- C5: for all blocks `A`, `B`, `C` the root hash of `NewMerkleTree([A, B, C])` is
`H( H(H(A) || H(B)) || H(H(C) || H(C)) )`. -/
theorem odd_leaf_duplication (S : Sum256) (h : Heap) (A B C : List Byte) (fuel : Nat) :
    ∃ h2 t,
      NewMerkleTree S (fuel + 3) h [A, B, C] = .ok (h2, t) ∧
      rootHash h2 t = some (HashFunction128 S
        (HashFunction128 S (HashFunction128 S A ++ HashFunction128 S B) ++
          HashFunction128 S (HashFunction128 S C ++ HashFunction128 S C))) := by
  obtain ⟨h2, t, hrun, _, hwf, _, hdig⟩ :=
    NewMerkleTree_observe S (fuel + 3) h [A, B, C] (by simp) (by simp)
  obtain ⟨_, hroot, _, _⟩ := hwf.observe
  refine ⟨h2, t, hrun, ?_⟩
  rw [hroot, hdig]
  simp [refRoot, refRootAux, nextLevel]

/-- C6: for every non-empty sequence of blocks, `NewMerkleTree` (given fuel at least
the number of blocks) returns a tree without fault; its root pointer is non-nil and
leads to an allocated node, its leaf list has exactly `len(data)` entries, and leaf
`i` carries the digest `H(data[i])`, in input order. -/
theorem newMerkleTree_returns (S : Sum256) (h : Heap) (data : List (List Byte)) (fuel : Nat)
    (hne : data ≠ []) (hf : data.length ≤ fuel) :
    ∃ h2 t r rootNode,
      NewMerkleTree S fuel h data = .ok (h2, t) ∧
      t.Root = some r ∧ h2[r]? = some rootNode ∧
      t.LeafNodes.length = data.length ∧
      leafHashes h2 t = data.map (fun d => some (HashFunction128 S d)) := by
  obtain ⟨h2, t, hrun, _, hwf, hlen, hdig⟩ := NewMerkleTree_observe S fuel h data hne hf
  obtain ⟨_, _, hleaves, _⟩ := hwf.observe
  obtain ⟨ps, r, _, hroot, _, _, _, hr, _, _⟩ := hwf
  obtain ⟨rn, hrn⟩ := exists_getElem? hr
  refine ⟨h2, t, r, rn, hrun, hroot, hrn, hlen, ?_⟩
  rw [hleaves, hdig, List.map_map]
  rfl

/-- Witness for C6: a four-block tree under the stand-in hash. -/
theorem newMerkleTree_returns_witness :
    ([[1], [2], [3], [4]] : List (List Byte)) ≠ [] ∧
    ([[1], [2], [3], [4]] : List (List Byte)).length ≤ 4 ∧
    ∃ h2 t r rootNode,
      NewMerkleTree paddedSum256 4 [] [[1], [2], [3], [4]] = .ok (h2, t) ∧
      t.Root = some r ∧ h2[r]? = some rootNode ∧
      t.LeafNodes.length = ([[1], [2], [3], [4]] : List (List Byte)).length ∧
      leafHashes h2 t =
        ([[1], [2], [3], [4]] : List (List Byte)).map
          (fun d => some (HashFunction128 paddedSum256 d)) :=
  ⟨by decide, by decide,
    newMerkleTree_returns paddedSum256 [] [[1], [2], [3], [4]] 4 (by decide) (by decide)⟩

/-- C7: for every block `b`, `NewMerkleTree([b])` has root hash `H(b)`,
`GenerateMerkleProof(0)` returns the empty proof and no error, and
`VerifyMerkleProof(root hash, H(b), empty proof)` is true. -/
theorem single_leaf_tree (S : Sum256) (h : Heap) (b : List Byte) (fuel : Nat) :
    ∃ h2 t,
      NewMerkleTree S (fuel + 1) h [b] = .ok (h2, t) ∧
      rootHash h2 t = some (HashFunction128 S b) ∧
      GenerateMerkleProof (fuel + 1) h2 t 0 = .ok ([], none) ∧
      VerifyMerkleProof S (HashFunction128 S b) (HashFunction128 S b) [] = true := by
  obtain ⟨h2, t, hrun, _, hwf, hlen, hdig⟩ :=
    NewMerkleTree_observe S (fuel + 1) h [b] (by simp) (by simp)
  obtain ⟨_, hroot, _, hgen⟩ := hwf.observe
  have hg := hgen 0 (le_refl _) (by rw [hlen]; simp) (fuel + 1) (by rw [hlen]; simp)
  refine ⟨h2, t, hrun, ?_, ?_, ?_⟩
  · rw [hroot, hdig]
    simp [refRoot, refRootAux]
  · rw [hg, hdig]
    simp [refProof, refProofAux]
  · rw [VerifyMerkleProof_iff]
    rfl

theorem CollisionFreeOn.subset {H : List Byte → List Byte} {xs ys : List (List Byte)}
    (hcf : CollisionFreeOn H ys) (hsub : ∀ x ∈ xs, x ∈ ys) : CollisionFreeOn H xs :=
  fun x hx y hy hxy => hcf x (hsub x hx) y (hsub y hy) hxy

/-- Folds of the same proof from two different digests end in different digests,
unless two of the hashed inputs collide. -/
theorem fold_ne_of_start_ne (H : List Byte → List Byte) :
    ∀ (proof : List (List Byte)) (a b : List Byte), a ≠ b →
      CollisionFreeOn H (foldInputs H a proof ++ foldInputs H b proof) →
      proof.foldl (fun acc sibling => H (acc ++ sibling)) a ≠
        proof.foldl (fun acc sibling => H (acc ++ sibling)) b
  | [], a, b, hab, _ => by simpa using hab
  | s :: rest, a, b, hab, hcf => by
    have hne : a ++ s ≠ b ++ s := fun he => hab (List.append_cancel_right he)
    have hH : H (a ++ s) ≠ H (b ++ s) := fun he =>
      hne (hcf _ (by simp [foldInputs]) _ (by simp [foldInputs]) he)
    simp only [List.foldl_cons]
    refine fold_ne_of_start_ne H rest _ _ hH (hcf.subset ?_)
    intro x hx
    simp only [foldInputs, List.mem_append, List.mem_cons] at hx ⊢
    tauto

/-- Replacing one entry of a proof changes the digest the fold ends in, unless two
of the hashed inputs collide. -/
theorem fold_ne_of_entry_ne (H : List Byte → List Byte) :
    ∀ (proof : List (List Byte)) (a : List Byte) (j : Nat) (e : List Byte)
      (hj : j < proof.length), e ≠ proof[j] →
      CollisionFreeOn H (foldInputs H a proof ++ foldInputs H a (proof.set j e)) →
      (proof.set j e).foldl (fun acc sibling => H (acc ++ sibling)) a ≠
        proof.foldl (fun acc sibling => H (acc ++ sibling)) a
  | [], _, _, _, hj, _, _ => by simp at hj
  | s :: rest, a, 0, e, _, he, hcf => by
    have hne : a ++ e ≠ a ++ s := fun h => he (by simpa using List.append_cancel_left h)
    have hH : H (a ++ e) ≠ H (a ++ s) := fun h =>
      hne (hcf _ (by simp [foldInputs]) _ (by simp [foldInputs]) h)
    simp only [List.set_cons_zero, List.foldl_cons]
    refine fold_ne_of_start_ne H rest _ _ hH (hcf.subset ?_)
    intro x hx
    simp only [foldInputs, List.set_cons_zero, List.mem_append, List.mem_cons] at hx ⊢
    tauto
  | s :: rest, a, j + 1, e, hj, he, hcf => by
    simp only [List.set_cons_succ, List.foldl_cons]
    refine fold_ne_of_entry_ne H rest _ j e (by simpa using hj) (by simpa using he)
      (hcf.subset ?_)
    intro x hx
    simp only [foldInputs, List.set_cons_succ, List.mem_append, List.mem_cons] at hx ⊢
    tauto

/-- On contents, if `VerifyMerkleProof(root, leafHash, proof)` is true, then it
returns false after replacing any single proof entry by a different value, and also
after replacing `leafHash` by a different digest, provided no two different inputs
hashed during the two verification runs have the same digest. -/
theorem tamper_detection (S : Sum256) (root leafHash : List Byte) (proof : List (List Byte))
    (hver : VerifyMerkleProof S root leafHash proof = true) :
    (∀ (j : Nat) (hj : j < proof.length) (e : List Byte), e ≠ proof[j] →
      CollisionFreeOn (HashFunction128 S)
        (foldInputs (HashFunction128 S) leafHash proof ++
          foldInputs (HashFunction128 S) leafHash (proof.set j e)) →
      VerifyMerkleProof S root leafHash (proof.set j e) = false) ∧
    (∀ (leafHash2 : List Byte), leafHash2 ≠ leafHash →
      CollisionFreeOn (HashFunction128 S)
        (foldInputs (HashFunction128 S) leafHash2 proof ++
          foldInputs (HashFunction128 S) leafHash proof) →
      VerifyMerkleProof S root leafHash2 proof = false) := by
  rw [VerifyMerkleProof_iff] at hver
  constructor
  · intro j hj e he hcf
    have := fold_ne_of_entry_ne (HashFunction128 S) proof leafHash j e hj he hcf
    rw [hver] at this
    rw [← Bool.not_eq_true, VerifyMerkleProof_iff]
    exact this
  · intro leafHash2 hl hcf
    have := fold_ne_of_start_ne (HashFunction128 S) proof leafHash2 leafHash hl hcf
    rw [hver] at this
    rw [← Bool.not_eq_true, VerifyMerkleProof_iff]
    exact this

/-- An instance of tamper detection on contents under the stand-in hash: the accepted
proof `[[2]]` for the leaf digest `[1]`, with the entry replaced by `[3]` and the
leaf digest replaced by `[5]`. -/
theorem tamper_detection_witness :
    VerifyMerkleProof paddedSum256 (HashFunction128 paddedSum256 [1, 2]) [1] [[2]] = true ∧
    (([3] : List Byte) ≠ [2] ∧
      CollisionFreeOn (HashFunction128 paddedSum256) [[1, 2], [1, 3]] ∧
      VerifyMerkleProof paddedSum256 (HashFunction128 paddedSum256 [1, 2]) [1] [[3]] = false) ∧
    (([5] : List Byte) ≠ [1] ∧
      CollisionFreeOn (HashFunction128 paddedSum256) [[5, 2], [1, 2]] ∧
      VerifyMerkleProof paddedSum256 (HashFunction128 paddedSum256 [1, 2]) [5] [[2]] = false) :=
  have hver :
      VerifyMerkleProof paddedSum256 (HashFunction128 paddedSum256 [1, 2]) [1] [[2]] = true := by
    decide
  have hcf1 : CollisionFreeOn (HashFunction128 paddedSum256) [[1, 2], [1, 3]] := by
    unfold CollisionFreeOn; decide
  have hcf2 : CollisionFreeOn (HashFunction128 paddedSum256) [[5, 2], [1, 2]] := by
    unfold CollisionFreeOn; decide
  ⟨hver,
    ⟨by decide, hcf1,
      (tamper_detection paddedSum256 _ [1] [[2]] hver).1 0 (by decide) [3] (by decide) hcf1⟩,
    ⟨by decide, hcf2,
      (tamper_detection paddedSum256 _ [1] [[2]] hver).2 [5] (by decide) hcf2⟩⟩

theorem hashAt_append_left {h : Heap} {a : Nat} (ha : a < h.length) (xs : List MerkleNode) :
    hashAt (h ++ xs) a = hashAt h a := by
  simp [hashAt, List.getElem?_append_left ha]

/-- `InsertLeaf` on a well-formed tree, with fuel at least the new number of leaves,
returns a well-formed tree whose leaf digests are the old ones followed by the
digest of the new block. -/
theorem InsertLeaf_observe (S : Sum256) {h : Heap} {t : MerkleTree}
    (hwf : WellFormed (HashFunction128 S) h t) (fuel : Nat) (d : List Byte)
    (hf : t.LeafNodes.length + 1 ≤ fuel) :
    ∃ h2 t2, InsertLeaf S fuel h t d = .ok (h2, t2) ∧
      WellFormed (HashFunction128 S) h2 t2 ∧
      t2.LeafNodes = t.LeafNodes ++ [some h.length] ∧
      leafDigests h2 t2 = leafDigests h t ++ [HashFunction128 S d] := by
  obtain ⟨ps, r, hleaves, _, hne, hnd, hv, _, _, _⟩ := hwf
  have hl : t.LeafNodes ++ [some h.length] = (ps ++ [h.length]).map some := by
    simp [hleaves]
  have hv2 : ∀ a ∈ ps ++ [h.length], a < (h ++ [leafNode (HashFunction128 S d)]).length := by
    intro a ha
    rcases List.mem_append.mp ha with ha | ha
    · have := hv a ha; simp; omega
    · simp at ha; simp [ha]
  have hnd2 : (ps ++ [h.length]).Nodup := by
    refine List.Nodup.append hnd (List.nodup_singleton _) ?_
    intro a ha hb
    simp at hb
    have := hv a ha
    omega
  have hlen : t.LeafNodes.length = ps.length := by simp [hleaves]
  obtain ⟨h2, r2, hb, _⟩ := build_spec S fuel (ps ++ [h.length])
    (h ++ [leafNode (HashFunction128 S d)]) (by simp) hv2 hnd2 (by simp; omega)
  obtain ⟨hwf2, _, hh⟩ := WellFormed_of_build S (by simp) hv2 hnd2 hb
  refine ⟨h2, { Root := some r2, LeafNodes := t.LeafNodes ++ [some h.length] }, ?_, ?_, rfl, ?_⟩
  · rw [InsertLeaf_eq, hl, hb]; rfl
  · rw [hl]; exact hwf2
  · rw [leafDigests_eq hl, hh, leafDigests_eq hleaves, List.map_append]
    congr 1
    · exact List.map_congr_left fun a ha => hashAt_append_left (hv a ha) _
    · simp [hashAt, leafNode]

/-- The loop of `GenerateMerkleProof` returns a proof exactly when the walk from the
node reaches the root within the fuel. -/
theorem proofLoop_ok_iff_walk (h : Heap) (root : Ptr) :
    ∀ (fuel : Nat) (node : Ptr) (acc : List (List Byte)),
      (∃ proof, proofLoop fuel h root node acc = .ok proof) ↔
        ∃ k, k < fuel ∧ Walk h root node k := by
  intro fuel
  induction fuel with
  | zero => intro node acc; simp [proofLoop]
  | succ fuel ih =>
    intro node acc
    by_cases hnr : node = root
    · subst hnr
      exact ⟨fun _ => ⟨0, Nat.succ_pos _, Walk.stop⟩, fun _ => ⟨acc, proofLoop_root fuel h node acc⟩⟩
    · cases hn : load h node with
      | error e =>
        constructor
        · rintro ⟨proof, hp⟩
          simp [proofLoop, hnr, hn, bind, Except.bind] at hp
        · rintro ⟨k, _, hw⟩
          cases hw with
          | stop => exact absurd rfl hnr
          | step _ n p k _ hn2 _ _ _ => rw [hn] at hn2; cases hn2
      | ok n =>
        cases hp : load h n.Parent with
        | error e =>
          constructor
          · rintro ⟨proof, hq⟩
            simp [proofLoop, hnr, hn, hp, bind, Except.bind] at hq
          · rintro ⟨k, _, hw⟩
            cases hw with
            | stop => exact absurd rfl hnr
            | step _ n2 p k _ hn2 hp2 _ _ =>
              rw [hn] at hn2; cases hn2; rw [hp] at hp2; cases hp2
        | ok p =>
          by_cases hs : (if node = p.Left then p.Right else p.Left) ≠ none
          · cases hl : load h (if node = p.Left then p.Right else p.Left) with
            | error e =>
              constructor
              · rintro ⟨proof, hq⟩
                simp only [proofLoop, hnr, hn, hp, bind, Except.bind, if_false] at hq
                rw [if_pos hs, hl] at hq
                simp at hq
              · rintro ⟨k, _, hw⟩
                cases hw with
                | stop => exact absurd rfl hnr
                | step _ n2 p2 k _ hn2 hp2 hs2 _ =>
                  rw [hn] at hn2; cases hn2; rw [hp] at hp2; cases hp2
                  obtain ⟨s, hs3⟩ := hs2 hs
                  rw [hl] at hs3; cases hs3
            | ok s =>
              have hstep : proofLoop (fuel + 1) h root node acc =
                  proofLoop fuel h root n.Parent (acc ++ [s.Hash]) := by
                simp only [proofLoop, hnr, hn, hp, bind, Except.bind, if_false]
                rw [if_pos hs, hl]
                rfl
              rw [hstep, ih]
              constructor
              · rintro ⟨k, hk, hw⟩
                exact ⟨k + 1, by omega, Walk.step node n p k hnr hn hp (fun _ => ⟨s, hl⟩) hw⟩
              · rintro ⟨k, hk, hw⟩
                cases hw with
                | stop => exact absurd rfl hnr
                | step _ n2 p2 k _ hn2 hp2 _ hw2 =>
                  rw [hn] at hn2; cases hn2
                  exact ⟨k, by omega, hw2⟩
          · have hstep : proofLoop (fuel + 1) h root node acc =
                proofLoop fuel h root n.Parent (acc ++ [n.Hash]) := by
              simp only [proofLoop, hnr, hn, hp, bind, Except.bind, if_false]
              rw [if_neg hs]
              rfl
            rw [hstep, ih]
            constructor
            · rintro ⟨k, hk, hw⟩
              exact ⟨k + 1, by omega,
                Walk.step node n p k hnr hn hp (fun hne => absurd hne hs) hw⟩
            · rintro ⟨k, hk, hw⟩
              cases hw with
              | stop => exact absurd rfl hnr
              | step _ n2 p2 k _ hn2 hp2 _ hw2 =>
                rw [hn] at hn2; cases hn2
                exact ⟨k, by omega, hw2⟩

/-- Counterexample to C8 as stated for every tree: the hand-built tree whose only
leaf has no parent and whose root is nil has one leaf, so index 0 is in range, yet
`GenerateMerkleProof` dereferences the nil parent and returns neither a proof nor an
error, whatever the fuel. -/
theorem generateMerkleProof_in_range_counterexample :
    (0 : Int) < ((⟨none, [some 0]⟩ : MerkleTree).LeafNodes.length : Int) ∧
      GenerateMerkleProof 3 [leafNode [1]] ⟨none, [some 0]⟩ 0 = .error .nilDeref ∧
      ∀ fuel result, GenerateMerkleProof fuel [leafNode [1]] ⟨none, [some 0]⟩ 0 ≠ .ok result := by
  refine ⟨by decide, rfl, ?_⟩
  intro fuel result
  cases fuel with
  | zero => simp [GenerateMerkleProof, proofLoop, bind, Except.bind]
  | succ fuel =>
    simp [GenerateMerkleProof, proofLoop, load, leafNode, bind, Except.bind]

/-- C8 (amended): for every heap, every tree with `n` leaves, every integer index and
every fuel, `GenerateMerkleProof` returns the error "index out of bounds" if and only
if `index < 0` or `index >= n`, in which case the returned proof is nil. For an index
in `[0, n)` it never returns an error value, and it returns a proof exactly when the
walk along the parent links from that leaf reaches the root within the fuel through
allocated nodes. That is the case for every tree built by `NewMerkleTree` and changed
by `InsertLeaf` and `UpdateLeaf` as soon as the fuel is at least `n`. -/
theorem generateMerkleProof_error_iff (S : Sum256) (h : Heap) (t : MerkleTree)
    (index : Int) (fuel : Nat) :
    ((∃ proof, GenerateMerkleProof fuel h t index = .ok (proof, some "index out of bounds")) ↔
      (index < 0 ∨ index ≥ t.LeafNodes.length)) ∧
    ((index < 0 ∨ index ≥ t.LeafNodes.length) →
      GenerateMerkleProof fuel h t index = .ok ([], some "index out of bounds")) ∧
    ((0 ≤ index ∧ index < t.LeafNodes.length) →
      (∀ proof e, GenerateMerkleProof fuel h t index ≠ .ok (proof, some e)) ∧
      ((∃ proof, GenerateMerkleProof fuel h t index = .ok (proof, none)) ↔
        ∃ k, k < fuel ∧ Walk h t.Root (t.LeafNodes.getD index.toNat none) k)) ∧
    (Reachable S h t → t.LeafNodes.length ≤ fuel → (0 ≤ index ∧ index < t.LeafNodes.length) →
      ∃ proof, GenerateMerkleProof fuel h t index = .ok (proof, none)) := by
  have hin : ∀ hi : ¬ (index < 0 ∨ index ≥ t.LeafNodes.length),
      GenerateMerkleProof fuel h t index =
        (proofLoop fuel h t.Root (t.LeafNodes.getD index.toNat none) []).bind
          fun proof => .ok (proof, none) := by
    intro hi
    rw [GenerateMerkleProof_in_range fuel h t index hi]
    have hlt : index.toNat < t.LeafNodes.length := by omega
    rw [List.getD_eq_getElem _ _ hlt]
    rfl
  refine ⟨⟨?_, fun hi => ⟨[], GenerateMerkleProof_out_of_range fuel h t index hi⟩⟩,
    GenerateMerkleProof_out_of_range fuel h t index, ?_, ?_⟩
  · rintro ⟨proof, hp⟩
    by_contra hi
    rw [hin hi] at hp
    cases hq : proofLoop fuel h t.Root (t.LeafNodes.getD index.toNat none) [] with
    | error e => rw [hq] at hp; simp [Except.bind] at hp
    | ok q => rw [hq] at hp; simp [Except.bind] at hp
  · intro hi
    have hi2 : ¬ (index < 0 ∨ index ≥ t.LeafNodes.length) := by omega
    rw [hin hi2, ← proofLoop_ok_iff_walk h t.Root fuel _ []]
    constructor
    · intro proof e hp
      cases hq : proofLoop fuel h t.Root (t.LeafNodes.getD index.toNat none) [] with
      | error e2 => rw [hq] at hp; simp [Except.bind] at hp
      | ok q => rw [hq] at hp; simp [Except.bind] at hp
    · constructor
      · rintro ⟨proof, hp⟩
        cases hq : proofLoop fuel h t.Root (t.LeafNodes.getD index.toNat none) [] with
        | error e2 => rw [hq] at hp; simp [Except.bind] at hp
        | ok q => exact ⟨q, rfl⟩
      · rintro ⟨proof, hp⟩
        exact ⟨proof, by rw [hp]; rfl⟩
  · intro hr hf hi
    obtain ⟨_, _, _, hgen⟩ := hr.wellFormed.observe
    exact ⟨_, hgen index hi.1 hi.2 fuel hf⟩

/-- Witness for C8: the two-block tree under the stand-in hash, at the indices 5, -1
and 1. -/
theorem generateMerkleProof_error_iff_witness :
    ∃ h2 t, NewMerkleTree paddedSum256 2 [] [[1], [2]] = .ok (h2, t) ∧
      Reachable paddedSum256 h2 t ∧ t.LeafNodes.length ≤ 2 ∧
      GenerateMerkleProof 2 h2 t 5 = .ok ([], some "index out of bounds") ∧
      GenerateMerkleProof 2 h2 t (-1) = .ok ([], some "index out of bounds") ∧
      (∀ proof e, GenerateMerkleProof 2 h2 t 1 ≠ .ok (proof, some e)) ∧
      ∃ proof, GenerateMerkleProof 2 h2 t 1 = .ok (proof, none) :=
  have hreach : Reachable paddedSum256 _ _ := Reachable.new 2 [] [[1], [2]] _ _ (by decide) rfl
  ⟨_, _, rfl, hreach, by decide,
    (generateMerkleProof_error_iff paddedSum256 _ _ 5 2).2.1 (by decide),
    (generateMerkleProof_error_iff paddedSum256 _ _ (-1) 2).2.1 (by decide),
    ((generateMerkleProof_error_iff paddedSum256 _ _ 1 2).2.2.1 (by decide)).1,
    (generateMerkleProof_error_iff paddedSum256 _ _ 1 2).2.2.2 hreach (by decide) (by decide)⟩

/-- C9: for every heap and tree with `n` leaves, every index with `index < 0` or
`index >= n` and every data, `UpdateLeaf` returns the error "index out of bounds" and
leaves heap and tree unchanged: same leaf count, same leaf digests, same root and
root hash. -/
theorem updateLeaf_out_of_range_unchanged (S : Sum256) (fuel : Nat) (h : Heap)
    (t : MerkleTree) (index : Int) (data : List Byte)
    (hi : index < 0 ∨ index ≥ t.LeafNodes.length) :
    ∃ h2 t2, UpdateLeaf S fuel h t index data = .ok (h2, t2, some "index out of bounds") ∧
      h2 = h ∧ t2 = t ∧
      t2.LeafNodes.length = t.LeafNodes.length ∧
      leafHashes h2 t2 = leafHashes h t ∧
      t2.Root = t.Root ∧
      rootHash h2 t2 = rootHash h t :=
  ⟨h, t, UpdateLeaf_out_of_range S fuel h t index data hi, rfl, rfl, rfl, rfl, rfl, rfl⟩

/-- Witness for C9: index 3 on a two-leaf tree. -/
theorem updateLeaf_out_of_range_unchanged_witness :
    ((3 : Int) < 0 ∨ (3 : Int) ≥
        (({ Root := some 2, LeafNodes := [some 0, some 1] } : MerkleTree).LeafNodes.length)) ∧
    ∃ h2 t2,
      UpdateLeaf paddedSum256 2
          [leafNode [1], leafNode [2],
            { Parent := none, Left := some 0, Right := some 1, Hash := [1] }]
          { Root := some 2, LeafNodes := [some 0, some 1] } 3 [7] =
        .ok (h2, t2, some "index out of bounds") ∧
      h2 = [leafNode [1], leafNode [2],
            { Parent := none, Left := some 0, Right := some 1, Hash := [1] }] ∧
      t2 = { Root := some 2, LeafNodes := [some 0, some 1] } ∧
      t2.LeafNodes.length =
        ({ Root := some 2, LeafNodes := [some 0, some 1] } : MerkleTree).LeafNodes.length ∧
      leafHashes h2 t2 =
        leafHashes
          [leafNode [1], leafNode [2],
            { Parent := none, Left := some 0, Right := some 1, Hash := [1] }]
          { Root := some 2, LeafNodes := [some 0, some 1] } ∧
      t2.Root = ({ Root := some 2, LeafNodes := [some 0, some 1] } : MerkleTree).Root ∧
      rootHash h2 t2 =
        rootHash
          [leafNode [1], leafNode [2],
            { Parent := none, Left := some 0, Right := some 1, Hash := [1] }]
          { Root := some 2, LeafNodes := [some 0, some 1] } :=
  ⟨by decide, updateLeaf_out_of_range_unchanged paddedSum256 2 _ _ 3 [7] (by decide)⟩

/-- C10: for every non-empty block sequence `ds` and every block `d`, `InsertLeaf(d)`
on `NewMerkleTree(ds)` yields a tree with `len(ds) + 1` leaves whose leaf digests in
order and whose root hash are those of `NewMerkleTree(ds ++ [d])` (built in any
heap); the digests of the leaves that existed before are unchanged. -/
theorem insertLeaf_matches_rebuild (S : Sum256) (h h' : Heap) (ds : List (List Byte))
    (d : List Byte) (fuel : Nat) (hne : ds ≠ []) (hf : ds.length + 1 ≤ fuel) :
    ∃ h1 t1 h2 t2 h3 t3 root,
      NewMerkleTree S fuel h ds = .ok (h1, t1) ∧
      InsertLeaf S fuel h1 t1 d = .ok (h2, t2) ∧
      NewMerkleTree S fuel h' (ds ++ [d]) = .ok (h3, t3) ∧
      t2.LeafNodes.length = ds.length + 1 ∧
      leafHashes h2 t2 = (ds ++ [d]).map (fun x => some (HashFunction128 S x)) ∧
      leafHashes h3 t3 = (ds ++ [d]).map (fun x => some (HashFunction128 S x)) ∧
      rootHash h2 t2 = some root ∧ rootHash h3 t3 = some root ∧
      (leafHashes h2 t2).take ds.length = leafHashes h1 t1 := by
  obtain ⟨h1, t1, hrun1, _, hwf1, hlen1, hdig1⟩ :=
    NewMerkleTree_observe S fuel h ds hne (by omega)
  obtain ⟨h2, t2, hrun2, hwf2, hl2, hdig2⟩ :=
    InsertLeaf_observe S hwf1 fuel d (by omega)
  obtain ⟨h3, t3, hrun3, _, hwf3, _, hdig3⟩ :=
    NewMerkleTree_observe S fuel h' (ds ++ [d]) (by simp) (by simpa using hf)
  obtain ⟨_, _, hleaves1, _⟩ := hwf1.observe
  obtain ⟨_, hroot2, hleaves2, _⟩ := hwf2.observe
  obtain ⟨_, hroot3, hleaves3, _⟩ := hwf3.observe
  rw [hdig1] at hdig2
  have hd23 : leafDigests h2 t2 = leafDigests h3 t3 := by
    rw [hdig2, hdig3, List.map_append]; rfl
  refine ⟨h1, t1, h2, t2, h3, t3, refRoot (HashFunction128 S) (leafDigests h3 t3),
    hrun1, hrun2, hrun3, ?_, ?_, ?_, ?_, hroot3, ?_⟩
  · rw [hl2]; simp [hlen1]
  · rw [hleaves2, hd23, hdig3, List.map_map]; rfl
  · rw [hleaves3, hdig3, List.map_map]; rfl
  · rw [hroot2, hd23]
  · rw [hleaves2, hleaves1, hdig2, hdig1]
    simp [List.take_append_eq_append_take]

/-- Witness for C10: inserting `[3]` into the tree of `[1]`, `[2]` under the stand-in
hash. -/
theorem insertLeaf_matches_rebuild_witness :
    ([[1], [2]] : List (List Byte)) ≠ [] ∧
    ([[1], [2]] : List (List Byte)).length + 1 ≤ 3 ∧
    ∃ h1 t1 h2 t2 h3 t3 root,
      NewMerkleTree paddedSum256 3 [] [[1], [2]] = .ok (h1, t1) ∧
      InsertLeaf paddedSum256 3 h1 t1 [3] = .ok (h2, t2) ∧
      NewMerkleTree paddedSum256 3 [] ([[1], [2]] ++ [[3]]) = .ok (h3, t3) ∧
      t2.LeafNodes.length = ([[1], [2]] : List (List Byte)).length + 1 ∧
      leafHashes h2 t2 =
        (([[1], [2]] : List (List Byte)) ++ [[3]]).map
          (fun x => some (HashFunction128 paddedSum256 x)) ∧
      leafHashes h3 t3 =
        (([[1], [2]] : List (List Byte)) ++ [[3]]).map
          (fun x => some (HashFunction128 paddedSum256 x)) ∧
      rootHash h2 t2 = some root ∧ rootHash h3 t3 = some root ∧
      (leafHashes h2 t2).take ([[1], [2]] : List (List Byte)).length = leafHashes h1 t1 :=
  ⟨by decide, by decide,
    insertLeaf_matches_rebuild paddedSum256 [] [] [[1], [2]] [3] 3 (by decide) (by decide)⟩

/-! ## UpdateLeaf on a well-formed tree -/

theorem hashAt_set_hash {h : Heap} {a : Nat} {n : MerkleNode} (hn : h[a]? = some n)
    (x : List Byte) (b : Nat) :
    hashAt (h.set a { n with Hash := x }) b = if b = a then x else hashAt h b := by
  have ha := lt_of_getElem? hn
  by_cases hb : b = a
  · subst hb
    simp [hashAt, List.getElem?_set, ha]
  · have hab : ¬ a = b := fun e => hb e.symm
    simp [hashAt, List.getElem?_set, hb, hab]

/-- `UpdateLeaf` with an index in range on a well-formed tree, with fuel at least
the number of leaves, returns no error and a well-formed tree with the same leaf
pointers, whose leaf digests are the old ones with entry `index` replaced by the
digest of the new data. -/
theorem UpdateLeaf_observe (S : Sum256) {h : Heap} {t : MerkleTree}
    (hwf : WellFormed (HashFunction128 S) h t) (fuel : Nat) (i : Int) (d : List Byte)
    (hi0 : 0 ≤ i) (hi : i < t.LeafNodes.length) (hf : t.LeafNodes.length ≤ fuel) :
    ∃ h2 t2, UpdateLeaf S fuel h t i d = .ok (h2, t2, none) ∧
      WellFormed (HashFunction128 S) h2 t2 ∧
      t2.LeafNodes = t.LeafNodes ∧
      leafDigests h2 t2 = (leafDigests h t).set i.toNat (HashFunction128 S d) := by
  obtain ⟨ps, r, hleaves, _, hne, hnd, hv, _, _, _⟩ := hwf
  have hlen : t.LeafNodes.length = ps.length := by simp [hleaves]
  have hk : i.toNat < ps.length := by omega
  have ha : ps[i.toNat] < h.length := hv _ (List.getElem_mem hk)
  obtain ⟨n, hn⟩ := exists_getElem? ha
  have hget : t.LeafNodes.get ⟨i.toNat, by omega⟩ = some ps[i.toNat] := by
    simp [hleaves]
  have hv1 : ∀ a ∈ ps,
      a < (h.set ps[i.toNat] { n with Hash := HashFunction128 S d }).length := by
    intro a ha'
    rw [List.length_set]
    exact hv a ha'
  obtain ⟨h2, r2, hb, _⟩ := build_spec S fuel ps
    (h.set ps[i.toNat] { n with Hash := HashFunction128 S d }) hne hv1 hnd (by omega)
  obtain ⟨hwf2, _, hh⟩ := WellFormed_of_build S hne hv1 hnd hb
  refine ⟨h2, { t with Root := some r2 }, ?_, ?_, rfl, ?_⟩
  · rw [UpdateLeaf_in_range S fuel h t i d (by omega), hget, setHash_ok hn, hleaves]
    simp only [Except.bind]
    rw [hb]
  · have e : ({ t with Root := some r2 } : MerkleTree) =
        { Root := some r2, LeafNodes := ps.map some } := by
      rw [← hleaves]
    rw [e]
    exact hwf2
  · have hl2 : ({ t with Root := some r2 } : MerkleTree).LeafNodes = ps.map some := hleaves
    rw [leafDigests_eq hl2, hh, leafDigests_eq hleaves]
    apply List.ext_getElem
    · simp
    · intro j hj1 hj2
      have hj : j < ps.length := by simpa using hj1
      simp only [List.getElem_map, List.getElem_set, hashAt_set_hash hn]
      by_cases hji : i.toNat = j
      · subst hji
        simp
      · have hne' : ¬ ps[j] = ps[i.toNat] := fun e =>
          hji ((List.Nodup.getElem_inj_iff hnd).mp e).symm
        simp [hji, hne']

/-- C11: for every block sequence `ds`, every index `i` with `0 <= i < len(ds)` and
every block `d`, `UpdateLeaf(i, d)` on `NewMerkleTree(ds)` returns no error and yields
a tree with the same number of leaves in which leaf `i` carries `H(d)`, every other
leaf digest is unchanged, and the root hash is the root hash of `NewMerkleTree` on
`ds` with element `i` replaced by `d` (built in any heap). -/
theorem updateLeaf_matches_rebuild (S : Sum256) (h h' : Heap) (ds : List (List Byte))
    (i : Int) (d : List Byte) (fuel : Nat) (hi0 : 0 ≤ i) (hi : i < ds.length)
    (hf : ds.length ≤ fuel) :
    ∃ h1 t1 h2 t2 h3 t3 root,
      NewMerkleTree S fuel h ds = .ok (h1, t1) ∧
      UpdateLeaf S fuel h1 t1 i d = .ok (h2, t2, none) ∧
      NewMerkleTree S fuel h' (ds.set i.toNat d) = .ok (h3, t3) ∧
      t2.LeafNodes.length = ds.length ∧
      (leafHashes h2 t2)[i.toNat]? = some (some (HashFunction128 S d)) ∧
      (∀ j, j ≠ i.toNat → (leafHashes h2 t2)[j]? = (leafHashes h1 t1)[j]?) ∧
      rootHash h2 t2 = some root ∧ rootHash h3 t3 = some root := by
  have hne : ds ≠ [] := by
    intro he; rw [he] at hi; simp at hi; omega
  obtain ⟨h1, t1, hrun1, _, hwf1, hlen1, hdig1⟩ := NewMerkleTree_observe S fuel h ds hne hf
  obtain ⟨h2, t2, hrun2, hwf2, hl2, hdig2⟩ :=
    UpdateLeaf_observe S hwf1 fuel i d hi0 (by rw [hlen1]; exact hi) (by omega)
  obtain ⟨h3, t3, hrun3, _, hwf3, _, hdig3⟩ :=
    NewMerkleTree_observe S fuel h' (ds.set i.toNat d) (by simpa using hne) (by simpa using hf)
  obtain ⟨_, _, hleaves1, _⟩ := hwf1.observe
  obtain ⟨_, hroot2, hleaves2, _⟩ := hwf2.observe
  obtain ⟨_, hroot3, _, _⟩ := hwf3.observe
  rw [hdig1] at hdig2
  have hk : i.toNat < ds.length := by omega
  have hd23 : leafDigests h2 t2 = leafDigests h3 t3 := by
    rw [hdig2, hdig3, List.map_set]
  refine ⟨h1, t1, h2, t2, h3, t3, refRoot (HashFunction128 S) (leafDigests h3 t3),
    hrun1, hrun2, hrun3, by rw [hl2, hlen1], ?_, ?_, by rw [hroot2, hd23], hroot3⟩
  · rw [hleaves2, hdig2]
    simp [List.getElem?_set, hk]
  · intro j hj
    rw [hleaves2, hleaves1, hdig2, hdig1]
    simp [List.getElem?_set, Ne.symm hj]

/-- Witness for C11: updating leaf 1 of the tree of `[1]`, `[2]`, `[3]` to `[9]` under
the stand-in hash. -/
theorem updateLeaf_matches_rebuild_witness :
    (0 : Int) ≤ 1 ∧ (1 : Int) < ([[1], [2], [3]] : List (List Byte)).length ∧
    ([[1], [2], [3]] : List (List Byte)).length ≤ 3 ∧
    ∃ h1 t1 h2 t2 h3 t3 root,
      NewMerkleTree paddedSum256 3 [] [[1], [2], [3]] = .ok (h1, t1) ∧
      UpdateLeaf paddedSum256 3 h1 t1 1 [9] = .ok (h2, t2, none) ∧
      NewMerkleTree paddedSum256 3 []
          (([[1], [2], [3]] : List (List Byte)).set (1 : Int).toNat [9]) = .ok (h3, t3) ∧
      t2.LeafNodes.length = ([[1], [2], [3]] : List (List Byte)).length ∧
      (leafHashes h2 t2)[(1 : Int).toNat]? = some (some (HashFunction128 paddedSum256 [9])) ∧
      (∀ j, j ≠ (1 : Int).toNat → (leafHashes h2 t2)[j]? = (leafHashes h1 t1)[j]?) ∧
      rootHash h2 t2 = some root ∧ rootHash h3 t3 = some root :=
  ⟨by decide, by decide, by decide,
    updateLeaf_matches_rebuild paddedSum256 [] [] [[1], [2], [3]] 1 [9] 3
      (by decide) (by decide) (by decide)⟩

/-! ## Length of the sibling path -/

theorem refProof_length (H : List Byte → List Byte) :
    ∀ (n : Nat) (l : List (List Byte)) (k : Nat), l.length = n →
      (refProof H l k).length = Nat.clog 2 l.length := by
  intro n
  induction n using Nat.strong_induction_on with
  | _ n ih =>
    intro l k hl
    rw [refProof_unfold]
    by_cases h1 : l.length ≤ 1
    · rw [if_pos h1, Nat.clog_of_right_le_one h1]
      rfl
    · rw [if_neg h1, List.length_cons,
        ih (nextLevel H l).length (by rw [nextLevel_length]; omega) _ _ rfl,
        nextLevel_length, @Nat.clog_of_two_le 2 l.length (by decide) (by omega),
        show l.length + 2 - 1 = l.length + 1 by omega]

/-- C14: for every reachable tree with `n` leaves, every index in range and fuel at
least `n`, `GenerateMerkleProof` reaches the root and returns a proof with exactly
`ceil(log2 n)` entries: the least `k` with `n <= 2^k` (0 for `n = 1`), whatever the
index and the data. -/
theorem proof_length_is_clog (S : Sum256) (h : Heap) (t : MerkleTree)
    (hr : Reachable S h t) (index : Int) (fuel : Nat)
    (hi0 : 0 ≤ index) (hi : index < t.LeafNodes.length) (hf : t.LeafNodes.length ≤ fuel) :
    ∃ proof, GenerateMerkleProof fuel h t index = .ok (proof, none) ∧
      proof.length = Nat.clog 2 t.LeafNodes.length ∧
      t.LeafNodes.length ≤ 2 ^ proof.length ∧
      (∀ k, t.LeafNodes.length ≤ 2 ^ k → proof.length ≤ k) ∧
      (t.LeafNodes.length = 1 → proof = []) := by
  obtain ⟨_, _, _, hgen⟩ := hr.wellFormed.observe
  have hlen : (leafDigests h t).length = t.LeafNodes.length := by simp [leafDigests]
  have hpl := refProof_length (HashFunction128 S) _ (leafDigests h t) index.toNat rfl
  rw [hlen] at hpl
  refine ⟨_, hgen index hi0 hi fuel hf, hpl, ?_, ?_, ?_⟩
  · rw [hpl]
    exact Nat.le_pow_clog (by decide) _
  · intro k hk
    rw [hpl]
    exact (Nat.le_pow_iff_clog_le (by decide)).mp hk
  · intro h1
    apply List.eq_nil_of_length_eq_zero
    rw [hpl, h1]
    exact Nat.clog_of_right_le_one (le_refl 1) 2

/-- Witness for C14: index 4 of the five-block tree under the stand-in hash. -/
theorem proof_length_is_clog_witness :
    ∃ h2 t, NewMerkleTree paddedSum256 5 [] [[1], [2], [3], [4], [5]] = .ok (h2, t) ∧
      Reachable paddedSum256 h2 t ∧
      (0 : Int) ≤ 4 ∧ (4 : Int) < t.LeafNodes.length ∧ t.LeafNodes.length ≤ 5 ∧
      ∃ proof, GenerateMerkleProof 5 h2 t 4 = .ok (proof, none) ∧
        proof.length = Nat.clog 2 t.LeafNodes.length ∧
        t.LeafNodes.length ≤ 2 ^ proof.length ∧
        (∀ k, t.LeafNodes.length ≤ 2 ^ k → proof.length ≤ k) ∧
        (t.LeafNodes.length = 1 → proof = []) :=
  have hreach : Reachable paddedSum256 _ _ :=
    Reachable.new 5 [] [[1], [2], [3], [4], [5]] _ _ (by decide) rfl
  ⟨_, _, rfl, hreach, by decide, by decide, by decide,
    proof_length_is_clog paddedSum256 _ _ hreach 4 5 (by decide) (by decide) (by decide)⟩

/-! ## Position-aware reconstruction -/

theorem nextLevel_getD (H : List Byte → List Byte) :
    ∀ (l : List (List Byte)) (i : Nat), i < l.length →
      (nextLevel H l).getD (i / 2) [] =
        if i % 2 = 0 then H (l.getD i [] ++ sibHash l i) else H (sibHash l i ++ l.getD i [])
  | [], i, hi => by simp at hi
  | [x], i, hi => by
    have h0 : i = 0 := by simpa using hi
    subst h0
    simp [nextLevel, sibHash]
  | x :: y :: rest, 0, _ => by simp [nextLevel, sibHash]
  | x :: y :: rest, 1, _ => by simp [nextLevel, sibHash]
  | x :: y :: rest, i + 2, hi => by
    have ih := nextLevel_getD H rest i (by simpa using hi)
    rw [Nat.add_div_right i (by norm_num : 0 < 2), sibHash_add_two]
    have h2 : (i + 2) % 2 = i % 2 := by omega
    rw [h2]
    simpa [nextLevel, List.getD_cons_succ] using ih

theorem positionFold_shift (H : List Byte → List Byte) (i : Nat) :
    ∀ (proof : List (List Byte)) (k : Nat) (acc : List Byte),
      positionFold H i (k + 1) acc proof = positionFold H (i / 2) k acc proof
  | [], _, _ => rfl
  | s :: rest, k, acc => by
    have e : i >>> (k + 1) = (i / 2) >>> k := by
      rw [Nat.shiftRight_eq_div_pow, Nat.shiftRight_eq_div_pow, Nat.div_div_eq_div_mul,
        pow_succ']
    simp only [positionFold, e]
    exact positionFold_shift H i rest (k + 1) _

theorem positionFold_refProof (H : List Byte → List Byte) :
    ∀ (n : Nat) (l : List (List Byte)) (i : Nat), l.length = n → i < l.length →
      positionFold H i 0 (l.getD i []) (refProof H l i) = refRoot H l := by
  intro n
  induction n using Nat.strong_induction_on with
  | _ n ih =>
    intro l i hl hi
    rw [refProof_unfold, refRoot_unfold]
    by_cases h1 : l.length ≤ 1
    · have hi0 : i = 0 := by omega
      subst hi0
      rw [if_pos h1, if_pos h1]
      cases l with
      | nil => simp at hi
      | cons x rest => simp [positionFold]
    · rw [if_neg h1, if_neg h1]
      have hlt : (nextLevel H l).length < n := by rw [nextLevel_length]; omega
      have hi2 : i / 2 < (nextLevel H l).length := by rw [nextLevel_length]; omega
      have := ih _ hlt (nextLevel H l) (i / 2) rfl hi2
      rw [nextLevel_getD H l i hi] at this
      simp only [positionFold, Nat.shiftRight_zero, positionFold_shift]
      exact this

/-- C18: for every reachable tree, every index in range and fuel at least the
number of leaves, folding the entries of `GenerateMerkleProof(i)` from leaf `i`'s
digest, with step `k` computing `H(acc || proof[k])` when `i >> k` is even and
`H(proof[k] || acc)` when it is odd, yields exactly the tree's root hash. -/
theorem position_aware_reconstruction (S : Sum256) (h : Heap) (t : MerkleTree)
    (hr : Reachable S h t) (index : Int) (fuel : Nat)
    (hi0 : 0 ≤ index) (hi : index < t.LeafNodes.length) (hf : t.LeafNodes.length ≤ fuel) :
    ∃ proof leaf root,
      GenerateMerkleProof fuel h t index = .ok (proof, none) ∧
      (leafHashes h t)[index.toNat]? = some (some leaf) ∧
      rootHash h t = some root ∧
      positionFold (HashFunction128 S) index.toNat 0 leaf proof = root := by
  obtain ⟨_, hroot, hleaves, hgen⟩ := hr.wellFormed.observe
  have hlen : (leafDigests h t).length = t.LeafNodes.length := by simp [leafDigests]
  have hk : index.toNat < (leafDigests h t).length := by omega
  refine ⟨_, (leafDigests h t).getD index.toNat [], _, hgen index hi0 hi fuel hf, ?_, hroot,
    positionFold_refProof (HashFunction128 S) _ _ _ rfl hk⟩
  rw [hleaves, List.getElem?_map, List.getD_eq_getElem _ _ hk, List.getElem?_eq_getElem hk]
  rfl

/-- Witness for C18: index 3 of the five-block tree under the stand-in hash. -/
theorem position_aware_reconstruction_witness :
    ∃ h2 t, NewMerkleTree paddedSum256 5 [] [[1], [2], [3], [4], [5]] = .ok (h2, t) ∧
      Reachable paddedSum256 h2 t ∧
      (0 : Int) ≤ 3 ∧ (3 : Int) < t.LeafNodes.length ∧ t.LeafNodes.length ≤ 5 ∧
      ∃ proof leaf root,
        GenerateMerkleProof 5 h2 t 3 = .ok (proof, none) ∧
        (leafHashes h2 t)[(3 : Int).toNat]? = some (some leaf) ∧
        rootHash h2 t = some root ∧
        positionFold (HashFunction128 paddedSum256) (3 : Int).toNat 0 leaf proof = root :=
  have hreach : Reachable paddedSum256 _ _ :=
    Reachable.new 5 [] [[1], [2], [3], [4], [5]] _ _ (by decide) rfl
  ⟨_, _, rfl, hreach, by decide, by decide, by decide,
    position_aware_reconstruction paddedSum256 _ _ hreach 3 5
      (by decide) (by decide) (by decide)⟩

/-! ## Contents of the sibling path -/

theorem xor_one_eq (j : Nat) : j ^^^ 1 = if j % 2 = 0 then j + 1 else j - 1 := by
  have h1 : (j ^^^ 1) / 2 = j / 2 := by rw [Nat.xor_div_two]; simp
  have h2 : (j ^^^ 1) % 2 = (j + 1) % 2 := Nat.xor_mod_two_eq
  split <;> omega

theorem sibHash_eq_xor (l : List (List Byte)) (j : Nat) (hj : j < l.length) :
    some (sibHash l j) = if j ^^^ 1 < l.length then l[j ^^^ 1]? else l[j]? := by
  rw [xor_one_eq]
  unfold sibHash
  by_cases hp : j % 2 = 0
  · simp only [hp, if_true]
    by_cases h1 : j + 1 < l.length
    · simp [h1, List.getD_eq_getElem _ _ h1, List.getElem?_eq_getElem h1]
    · rw [if_neg h1, List.getD_eq_default _ _ (by omega), List.getD_eq_getElem _ _ hj,
        List.getElem?_eq_getElem hj]
  · have h1 : j - 1 < l.length := by omega
    simp only [hp, if_false, h1, if_true]
    rw [List.getD_eq_getElem _ _ h1, List.getElem?_eq_getElem h1]

theorem level_succ_eq (H : List Byte → List Byte) (l : List (List Byte)) :
    ∀ k, level H l (k + 1) = level H (nextLevel H l) k
  | 0 => rfl
  | k + 1 => by
    show nextLevel H (level H l (k + 1)) = nextLevel H (level H (nextLevel H l) k)
    rw [level_succ_eq H l k]

/-- Entry `k` of the reference sibling path of position `i` is the sibling digest of
position `i / 2^k` in level `k`. -/
theorem refProof_getElem? (H : List Byte → List Byte) :
    ∀ (k : Nat) (l : List (List Byte)) (i : Nat), i < l.length →
      k < (refProof H l i).length →
      i / 2 ^ k < (level H l k).length ∧
        (refProof H l i)[k]? = some (sibHash (level H l k) (i / 2 ^ k))
  | 0, l, i, hi, hk => by
    rw [refProof_unfold] at hk ⊢
    by_cases h1 : l.length ≤ 1
    · simp [h1] at hk
    · simp [h1, level, hi]
  | k + 1, l, i, hi, hk => by
    rw [refProof_unfold] at hk ⊢
    by_cases h1 : l.length ≤ 1
    · simp [h1] at hk
    · rw [if_neg h1] at hk ⊢
      have hi2 : i / 2 < (nextLevel H l).length := by rw [nextLevel_length]; omega
      have ih := refProof_getElem? H k (nextLevel H l) (i / 2) hi2 (by simpa using hk)
      rw [Nat.div_div_eq_div_mul, ← pow_succ', ← level_succ_eq] at ih
      simpa using ih

/-- C15: for every reachable tree with at least two leaves, every index `i` in range
and fuel at least the number of leaves, entry `k` of `GenerateMerkleProof(i)` is the
element of level `k` at position `(i >> k) xor 1` when that position exists, and
otherwise the element at position `i >> k` itself; for odd `i` the first entry is
the digest of leaf `i - 1`. -/
theorem proof_is_sibling_path (S : Sum256) (h : Heap) (t : MerkleTree)
    (hr : Reachable S h t) (index : Int) (fuel : Nat) (hn : 2 ≤ t.LeafNodes.length)
    (hi0 : 0 ≤ index) (hi : index < t.LeafNodes.length) (hf : t.LeafNodes.length ≤ fuel) :
    ∃ proof, GenerateMerkleProof fuel h t index = .ok (proof, none) ∧
      0 < proof.length ∧
      (∀ k, k < proof.length →
        index.toNat >>> k < (level (HashFunction128 S) (leafDigests h t) k).length ∧
        proof[k]? =
          if (index.toNat >>> k) ^^^ 1 < (level (HashFunction128 S) (leafDigests h t) k).length
          then (level (HashFunction128 S) (leafDigests h t) k)[(index.toNat >>> k) ^^^ 1]?
          else (level (HashFunction128 S) (leafDigests h t) k)[index.toNat >>> k]?) ∧
      (index.toNat % 2 = 1 → (proof[0]?).map some = (leafHashes h t)[index.toNat - 1]?) := by
  obtain ⟨_, _, hleaves, hgen⟩ := hr.wellFormed.observe
  have hlen : (leafDigests h t).length = t.LeafNodes.length := by simp [leafDigests]
  have hk : index.toNat < (leafDigests h t).length := by omega
  have hall : ∀ k, k < (refProof (HashFunction128 S) (leafDigests h t) index.toNat).length →
      index.toNat >>> k < (level (HashFunction128 S) (leafDigests h t) k).length ∧
      (refProof (HashFunction128 S) (leafDigests h t) index.toNat)[k]? =
        if (index.toNat >>> k) ^^^ 1 < (level (HashFunction128 S) (leafDigests h t) k).length
        then (level (HashFunction128 S) (leafDigests h t) k)[(index.toNat >>> k) ^^^ 1]?
        else (level (HashFunction128 S) (leafDigests h t) k)[index.toNat >>> k]? := by
    intro k hkl
    obtain ⟨h1, h2⟩ := refProof_getElem? (HashFunction128 S) k _ _ hk hkl
    rw [Nat.shiftRight_eq_div_pow]
    exact ⟨h1, by rw [h2]; exact sibHash_eq_xor _ _ h1⟩
  have hpos : 0 < (refProof (HashFunction128 S) (leafDigests h t) index.toNat).length := by
    rw [refProof_unfold, if_neg (by omega)]
    simp
  refine ⟨_, hgen index hi0 hi fuel hf, hpos, hall, ?_⟩
  intro hodd
  have h0 := (hall 0 hpos).2
  simp only [Nat.shiftRight_zero, level] at h0
  have hx : index.toNat ^^^ 1 = index.toNat - 1 := by
    rw [xor_one_eq, if_neg (by omega)]
  rw [h0, hx, if_pos (by omega), hleaves, List.getElem?_map]

/-- Witness for C15: index 3 of the five-block tree under the stand-in hash. -/
theorem proof_is_sibling_path_witness :
    ∃ h2 t, NewMerkleTree paddedSum256 5 [] [[1], [2], [3], [4], [5]] = .ok (h2, t) ∧
      Reachable paddedSum256 h2 t ∧ 2 ≤ t.LeafNodes.length ∧
      (0 : Int) ≤ 3 ∧ (3 : Int) < t.LeafNodes.length ∧ t.LeafNodes.length ≤ 5 ∧
      ∃ proof, GenerateMerkleProof 5 h2 t 3 = .ok (proof, none) ∧
        0 < proof.length ∧
        (∀ k, k < proof.length →
          (3 : Int).toNat >>> k <
            (level (HashFunction128 paddedSum256) (leafDigests h2 t) k).length ∧
          proof[k]? =
            if ((3 : Int).toNat >>> k) ^^^ 1 <
              (level (HashFunction128 paddedSum256) (leafDigests h2 t) k).length
            then (level (HashFunction128 paddedSum256) (leafDigests h2 t) k)[
              ((3 : Int).toNat >>> k) ^^^ 1]?
            else (level (HashFunction128 paddedSum256) (leafDigests h2 t) k)[
              (3 : Int).toNat >>> k]?) ∧
        ((3 : Int).toNat % 2 = 1 →
          (proof[0]?).map some = (leafHashes h2 t)[(3 : Int).toNat - 1]?) :=
  have hreach : Reachable paddedSum256 _ _ :=
    Reachable.new 5 [] [[1], [2], [3], [4], [5]] _ _ (by decide) rfl
  ⟨_, _, rfl, hreach, by decide, by decide, by decide, by decide,
    proof_is_sibling_path paddedSum256 _ _ hreach 3 5
      (by decide) (by decide) (by decide) (by decide)⟩

/-! ## Duplicate of the last leaf -/

theorem nextLevel_append_even (H : List Byte → List Byte) :
    ∀ (l m : List (List Byte)), l.length % 2 = 0 →
      nextLevel H (l ++ m) = nextLevel H l ++ nextLevel H m
  | [], m, _ => by simp [nextLevel]
  | [x], m, hl => by simp at hl
  | x :: y :: rest, m, hl => by
    have ih := nextLevel_append_even H rest m (by simp at hl; omega)
    simp [nextLevel, ih]

/-- Appending a copy of the last digest to a list of odd length at least 3 does not
change the reference root. -/
theorem refRoot_duplicate_last (H : List Byte → List Byte) (l : List (List Byte))
    (z : List Byte) (heven : l.length % 2 = 0) (h2 : 2 ≤ l.length) :
    refRoot H ((l ++ [z]) ++ [z]) = refRoot H (l ++ [z]) := by
  have e1 : ¬ ((l ++ [z]) ++ [z]).length ≤ 1 := by
    rw [List.length_append, List.length_append, List.length_singleton]; omega
  have e2 : ¬ (l ++ [z]).length ≤ 1 := by
    rw [List.length_append, List.length_singleton]; omega
  rw [refRoot_unfold H ((l ++ [z]) ++ [z]), refRoot_unfold H (l ++ [z]),
    if_neg e1, if_neg e2, List.append_assoc,
    nextLevel_append_even H l _ heven, nextLevel_append_even H l _ heven]
  rfl

/-- C19: for every block sequence `ds` of odd length at least 3 with last block `c`,
`NewMerkleTree(ds)` and `NewMerkleTree(ds ++ [c])` have the same root hash, whatever
the hash function; and `InsertLeaf(c)` on `NewMerkleTree(ds)` leaves the root hash
unchanged. -/
theorem duplicate_last_collision (S : Sum256) (h h' : Heap) (ds : List (List Byte))
    (c : List Byte) (fuel : Nat) (hodd : ds.length % 2 = 1) (h3 : 3 ≤ ds.length)
    (hlast : ds.getLast? = some c) (hf : ds.length + 1 ≤ fuel) :
    ∃ h1 t1 h2 t2 h3 t3 root,
      NewMerkleTree S fuel h ds = .ok (h1, t1) ∧
      NewMerkleTree S fuel h' (ds ++ [c]) = .ok (h2, t2) ∧
      InsertLeaf S fuel h1 t1 c = .ok (h3, t3) ∧
      rootHash h1 t1 = some root ∧ rootHash h2 t2 = some root ∧ rootHash h3 t3 = some root := by
  have hne : ds ≠ [] := by
    intro he; rw [he] at h3; simp at h3
  obtain ⟨h1, t1, hrun1, _, hwf1, hlen1, hdig1⟩ :=
    NewMerkleTree_observe S fuel h ds hne (by omega)
  obtain ⟨h2, t2, hrun2, _, hwf2, _, hdig2⟩ :=
    NewMerkleTree_observe S fuel h' (ds ++ [c]) (by simp) (by simpa using hf)
  obtain ⟨h3', t3, hrun3, hwf3, _, hdig3⟩ := InsertLeaf_observe S hwf1 fuel c (by omega)
  obtain ⟨_, hroot1, _, _⟩ := hwf1.observe
  obtain ⟨_, hroot2, _, _⟩ := hwf2.observe
  obtain ⟨_, hroot3, _, _⟩ := hwf3.observe
  obtain ⟨init, rfl⟩ : ∃ init, ds = init ++ [c] := by
    rcases List.eq_nil_or_concat ds with he | ⟨init, x, hx⟩
    · exact absurd he hne
    · rw [hx] at hlast
      simp at hlast
      exact ⟨init, by rw [hx, hlast, List.concat_eq_append]⟩
  have hilen : init.length % 2 = 0 ∧ 2 ≤ init.length := by
    simp at hodd h3
    omega
  have hkey := refRoot_duplicate_last (HashFunction128 S) (init.map (HashFunction128 S))
    (HashFunction128 S c) (by simpa using hilen.1) (by simpa using hilen.2)
  refine ⟨h1, t1, h2, t2, h3', t3, _, hrun1, hrun2, hrun3, hroot1, ?_, ?_⟩
  · rw [hroot2, hdig2, hdig1]
    simp only [List.map_append, List.map_cons, List.map_nil]
    rw [hkey]
  · rw [hroot3, hdig3, hdig1]
    simp only [List.map_append, List.map_cons, List.map_nil]
    rw [hkey]

/-- Witness for C19: the blocks `[1]`, `[2]`, `[3]` and a second `[3]` under the
stand-in hash. -/
theorem duplicate_last_collision_witness :
    ([[1], [2], [3]] : List (List Byte)).length % 2 = 1 ∧
    3 ≤ ([[1], [2], [3]] : List (List Byte)).length ∧
    ([[1], [2], [3]] : List (List Byte)).getLast? = some [3] ∧
    ([[1], [2], [3]] : List (List Byte)).length + 1 ≤ 4 ∧
    ∃ h1 t1 h2 t2 h3 t3 root,
      NewMerkleTree paddedSum256 4 [] [[1], [2], [3]] = .ok (h1, t1) ∧
      NewMerkleTree paddedSum256 4 [] ([[1], [2], [3]] ++ [[3]]) = .ok (h2, t2) ∧
      InsertLeaf paddedSum256 4 h1 t1 [3] = .ok (h3, t3) ∧
      rootHash h1 t1 = some root ∧ rootHash h2 t2 = some root ∧ rootHash h3 t3 = some root :=
  ⟨by decide, by decide, by decide, by decide,
    duplicate_last_collision paddedSum256 [] [] [[1], [2], [3]] [3] 4
      (by decide) (by decide) (by decide) (by decide)⟩

/-! ## Termination of the builder -/

theorem load_error {h : Heap} {p : Ptr} {e : Fault} (hl : load h p = .error e) :
    e = .nilDeref := by
  unfold load at hl
  split at hl
  · simp at hl; exact hl.symm
  · split at hl
    · simp at hl
    · simp at hl; exact hl.symm

/-- Whatever the pointers, the pairing loop either faults on a nil pointer or returns
one parent per pair. -/
theorem pairLoop_result (S : Sum256) :
    ∀ (nodes : List Ptr) (h : Heap) (acc : List Ptr),
      pairLoop S h nodes acc = .error .nilDeref ∨
        ∃ h1 parents, pairLoop S h nodes acc = .ok (h1, parents) ∧
          parents.length = acc.length + (nodes.length + 1) / 2
  | [], h, acc => Or.inr ⟨h, acc, rfl, by simp⟩
  | [left], h, acc => by
    cases hl : load h left with
    | error e =>
      left
      rw [load_error hl] at hl
      simp [pairLoop, hl, bind, Except.bind]
    | ok l =>
      right
      have hd : load (h ++ [{ Parent := none, Left := none, Right := none, Hash := l.Hash }])
          (some h.length) =
          .ok { Parent := none, Left := none, Right := none, Hash := l.Hash } := by
        simp [load]
      simp only [pairLoop, hl, hd, bind, Except.bind, NewMerkleNode_leaf]
      exact ⟨_, _, rfl, by simp⟩
  | left :: right :: rest, h, acc => by
    cases hl : load h left with
    | error e =>
      left
      rw [load_error hl] at hl
      simp [pairLoop, hl, bind, Except.bind]
    | ok l =>
      cases hr : load h right with
      | error e =>
        left
        rw [load_error hr] at hr
        simp [pairLoop, hl, hr, bind, Except.bind]
      | ok r =>
        have e : pairLoop S h (left :: right :: rest) acc =
            pairLoop S (NewMerkleNode h left right (HashFunction128 S (l.Hash ++ r.Hash))).1
              rest (acc ++ [some h.length]) := by
          simp [pairLoop, hl, hr, bind, Except.bind, NewMerkleNode_snd]
        rw [e]
        rcases pairLoop_result S rest
          (NewMerkleNode h left right (HashFunction128 S (l.Hash ++ r.Hash))).1
          (acc ++ [some h.length]) with herr | ⟨h1, parents, hrun, hlen⟩
        · exact Or.inl herr
        · refine Or.inr ⟨h1, parents, hrun, ?_⟩
          rw [hlen]
          simp
          omega

theorem buildMerkleTree_empty (S : Sum256) :
    ∀ (fuel : Nat) (h : Heap), buildMerkleTree S fuel h [] = .error .outOfFuel
  | 0, _ => rfl
  | fuel + 1, h => by
    rw [buildMerkleTree_rec S fuel h h [] [] (by simp) (pairLoop_nil S h [])]
    exact buildMerkleTree_empty S fuel h

theorem buildMerkleTree_nonempty (S : Sum256) :
    ∀ (fuel : Nat) (h : Heap) (nodes : List Ptr), nodes ≠ [] → nodes.length ≤ fuel →
      buildMerkleTree S fuel h nodes ≠ .error .outOfFuel := by
  intro fuel
  induction fuel with
  | zero =>
    intro h nodes hne hf
    exact absurd (List.length_eq_zero.mp (by omega)) hne
  | succ fuel ih =>
    intro h nodes hne hf
    by_cases h1 : nodes.length = 1
    · simp [buildMerkleTree, h1]
    · have h2 : 2 ≤ nodes.length := by
        have : nodes.length ≠ 0 := fun h0 => hne (List.length_eq_zero.mp h0)
        omega
      rcases pairLoop_result S nodes h [] with herr | ⟨h1', parents, hrun, hlen⟩
      · simp [buildMerkleTree, h1, herr, bind, Except.bind]
      · rw [buildMerkleTree_rec S fuel h h1' nodes parents h1 hrun]
        simp only [List.length_nil, Nat.zero_add] at hlen
        refine ih h1' parents ?_ (by omega)
        intro he
        rw [he] at hlen
        simp at hlen
        omega

/-- C20: on the empty node sequence `buildMerkleTree` skips the single-node base
case, the pairing loop produces an empty next level, and the function calls itself
on the empty sequence again, so for every fuel it runs out of fuel and
`NewMerkleTree` on empty data returns no tree; on a non-empty sequence the recursion
ends (with a result or a nil-pointer panic) within as many calls as there are
nodes, and `NewMerkleTree` on non-empty data returns a tree. -/
theorem empty_input_never_returns (S : Sum256) :
    (∀ h, pairLoop S h [] [] = .ok (h, [])) ∧
    (∀ fuel h, buildMerkleTree S (fuel + 1) h [] = buildMerkleTree S fuel h []) ∧
    (∀ fuel h, buildMerkleTree S fuel h [] = .error .outOfFuel) ∧
    (∀ fuel h, NewMerkleTree S fuel h [] = .error .outOfFuel) ∧
    (∀ fuel h nodes, nodes ≠ [] → nodes.length ≤ fuel →
      buildMerkleTree S fuel h nodes ≠ .error .outOfFuel) ∧
    (∀ fuel h data, data ≠ [] → data.length ≤ fuel →
      ∃ h2 t, NewMerkleTree S fuel h data = .ok (h2, t)) := by
  refine ⟨fun h => rfl, ?_, buildMerkleTree_empty S, ?_, buildMerkleTree_nonempty S, ?_⟩
  · intro fuel h
    exact buildMerkleTree_rec S fuel h h [] [] (by simp) (pairLoop_nil S h [])
  · intro fuel h
    rw [NewMerkleTree_eq]
    simp [buildMerkleTree_empty, Except.bind]
  · intro fuel h data hne hf
    obtain ⟨h2, t, hrun, _⟩ := NewMerkleTree_observe S fuel h data hne hf
    exact ⟨h2, t, hrun⟩

/-- Witness for C20: the two non-empty cases at a two-element input under the
stand-in hash. -/
theorem empty_input_never_returns_witness :
    NewMerkleTree paddedSum256 1000 [] [] = .error .outOfFuel ∧
    ([some 0, none] : List Ptr) ≠ [] ∧ ([some 0, none] : List Ptr).length ≤ 2 ∧
    buildMerkleTree paddedSum256 2 [leafNode [1]] [some 0, none] ≠ .error .outOfFuel ∧
    ([[1], [2]] : List (List Byte)) ≠ [] ∧ ([[1], [2]] : List (List Byte)).length ≤ 2 ∧
    ∃ h2 t, NewMerkleTree paddedSum256 2 [] [[1], [2]] = .ok (h2, t) :=
  ⟨(empty_input_never_returns paddedSum256).2.2.2.1 1000 [],
    by decide, by decide,
    (empty_input_never_returns paddedSum256).2.2.2.2.1 2 [leafNode [1]] [some 0, none]
      (by decide) (by decide),
    by decide, by decide,
    (empty_input_never_returns paddedSum256).2.2.2.2.2 2 [] [[1], [2]] (by decide) (by decide)⟩

/-! ## The root digest determines the leaf digests -/

theorem HashFunction128_length (S : Sum256) (data : List Byte) :
    (HashFunction128 S data).length = 16 := by
  unfold HashFunction128
  rw [List.length_take, (S data).property]
  rfl

theorem nextLevel_eq_map (H : List Byte → List Byte) :
    ∀ l : List (List Byte), nextLevel H l = (pairInputs l).map H
  | [] => rfl
  | [_] => rfl
  | _ :: _ :: rest => by simp [nextLevel, pairInputs, nextLevel_eq_map H rest]

theorem treeInputsAux_fuel (H : List Byte → List Byte) :
    ∀ (f g : Nat) (l : List (List Byte)), l.length ≤ f → l.length ≤ g →
      treeInputsAux H f l = treeInputsAux H g l := by
  intro f
  induction f with
  | zero =>
    intro g l hf _
    have hl : l = [] := List.length_eq_zero.mp (by omega)
    subst hl
    cases g <;> simp [treeInputsAux]
  | succ f ih =>
    intro g l hf hg
    cases g with
    | zero =>
      have hl : l = [] := List.length_eq_zero.mp (by omega)
      subst hl
      simp [treeInputsAux]
    | succ g =>
      simp only [treeInputsAux]
      split
      · rfl
      · have hn := nextLevel_length H l
        rw [ih g _ (by omega) (by omega)]

theorem treeInputs_unfold (H : List Byte → List Byte) (l : List (List Byte)) :
    treeInputs H l =
      if l.length ≤ 1 then [] else pairInputs l ++ treeInputs H (nextLevel H l) := by
  unfold treeInputs
  cases hl : l.length with
  | zero => simp [treeInputsAux]
  | succ n =>
    simp only [treeInputsAux, hl]
    split
    · rfl
    · have hn := nextLevel_length H l
      rw [treeInputsAux_fuel H n (nextLevel H l).length _ (by omega) (by omega)]

theorem nextLevel_width (H : List Byte → List Byte) (w : Nat)
    (hw : ∀ y, (H y).length = w) (l : List (List Byte)) :
    ∀ x ∈ nextLevel H l, x.length = w := by
  intro x hx
  rw [nextLevel_eq_map] at hx
  obtain ⟨y, _, rfl⟩ := List.mem_map.mp hx
  exact hw y

/-- Two digest lists of the same length and width with the same next level are
equal, unless two of the hashed pairs collide. -/
theorem nextLevel_injective (H : List Byte → List Byte) (w : Nat) :
    ∀ (l l' : List (List Byte)), l.length = l'.length →
      (∀ x ∈ l, x.length = w) → (∀ x ∈ l', x.length = w) →
      CollisionFreeOn H (pairInputs l ++ pairInputs l') →
      nextLevel H l = nextLevel H l' → l = l'
  | [], [], _, _, _, _, _ => rfl
  | [], _ :: _, hlen, _, _, _, _ => by simp at hlen
  | _ :: _, [], hlen, _, _, _, _ => by simp at hlen
  | [x], [x'], _, hwl, hwl', hcf, hnext => by
    simp only [nextLevel, List.cons.injEq, and_true] at hnext
    have hin := hcf (x ++ x) (by simp [pairInputs]) (x' ++ x') (by simp [pairInputs]) hnext
    have hxx : x.length = x'.length := by
      rw [hwl x (by simp), hwl' x' (by simp)]
    rw [(List.append_inj hin hxx).1]
  | [_], _ :: _ :: _, hlen, _, _, _, _ => by simp at hlen
  | _ :: _ :: _, [_], hlen, _, _, _, _ => by simp at hlen
  | x :: y :: rest, x' :: y' :: rest', hlen, hwl, hwl', hcf, hnext => by
    simp only [nextLevel, List.cons.injEq] at hnext
    have hin := hcf (x ++ y) (by simp [pairInputs]) (x' ++ y') (by simp [pairInputs]) hnext.1
    have hxx : x.length = x'.length := by
      rw [hwl x (by simp), hwl' x' (by simp)]
    obtain ⟨hx, hy⟩ := List.append_inj hin hxx
    have ih := nextLevel_injective H w rest rest' (by simpa using hlen)
      (fun z hz => hwl z (by simp [hz])) (fun z hz => hwl' z (by simp [hz]))
      (hcf.subset (by
        intro z hz
        simp only [pairInputs, List.mem_append, List.mem_cons] at hz ⊢
        tauto)) hnext.2
    rw [hx, hy, ih]

/-- Two digest lists of the same length and width with the same reference root are
equal, unless two inputs hashed while building them collide. -/
theorem refRoot_injective (H : List Byte → List Byte) (w : Nat)
    (hw : ∀ y, (H y).length = w) :
    ∀ (n : Nat) (l l' : List (List Byte)), l.length = n → l'.length = n →
      (∀ x ∈ l, x.length = w) → (∀ x ∈ l', x.length = w) →
      CollisionFreeOn H (treeInputs H l ++ treeInputs H l') →
      refRoot H l = refRoot H l' → l = l' := by
  intro n
  induction n using Nat.strong_induction_on with
  | _ n ih =>
    intro l l' hl hl' hwl hwl' hcf hroot
    by_cases h1 : n ≤ 1
    · rw [refRoot_unfold H l, refRoot_unfold H l', if_pos (by omega), if_pos (by omega)] at hroot
      match l, l', hl, hl' with
      | [], [], _, _ => rfl
      | [x], [x'], _, _ => simpa using hroot
      | [], _ :: _, hl, hl' => simp at hl hl'; omega
      | _ :: _, [], hl, hl' => simp at hl hl'; omega
      | [_], _ :: _ :: _, hl, hl' => simp at hl hl'; omega
      | _ :: _ :: _, _, hl, _ => simp at hl; omega
    · rw [refRoot_unfold H l, refRoot_unfold H l', if_neg (by omega), if_neg (by omega)] at hroot
      rw [treeInputs_unfold H l, treeInputs_unfold H l', if_neg (by omega),
        if_neg (by omega)] at hcf
      have hnl : (nextLevel H l).length = (n + 1) / 2 := by rw [nextLevel_length, hl]
      have hnl' : (nextLevel H l').length = (n + 1) / 2 := by rw [nextLevel_length, hl']
      have hnext := ih ((n + 1) / 2) (by omega) (nextLevel H l) (nextLevel H l') hnl hnl'
        (nextLevel_width H w hw l) (nextLevel_width H w hw l')
        (hcf.subset (by
          intro z hz
          simp only [List.mem_append] at hz ⊢
          tauto)) hroot
      exact nextLevel_injective H w l l' (by rw [hl, hl']) hwl hwl'
        (hcf.subset (by
          intro z hz
          simp only [List.mem_append] at hz ⊢
          tauto)) hnext

/-- C13: for every block sequence `ds`, every index `i` in range and every data whose
digest differs from leaf `i`'s digest, the root hash after `UpdateLeaf(i, data)` on
`NewMerkleTree(ds)` differs from the root hash before, provided no two different
inputs hashed above the leaves while building the two trees have the same digest;
and under the same proviso two trees built from equally many blocks with the same
root hash have the same leaf digests. -/
theorem update_changes_root (S : Sum256) (h h' : Heap) (ds : List (List Byte)) (i : Int)
    (d : List Byte) (fuel : Nat) (hi0 : 0 ≤ i) (hi : i < ds.length) (hf : ds.length ≤ fuel)
    (hd : (ds[i.toNat]?).map (HashFunction128 S) ≠ some (HashFunction128 S d))
    (hcf : CollisionFreeOn (HashFunction128 S)
      (treeInputs (HashFunction128 S) (ds.map (HashFunction128 S)) ++
        treeInputs (HashFunction128 S) ((ds.set i.toNat d).map (HashFunction128 S)))) :
    ∃ h1 t1 h2 t2 r1 r2,
      NewMerkleTree S fuel h ds = .ok (h1, t1) ∧
      UpdateLeaf S fuel h1 t1 i d = .ok (h2, t2, none) ∧
      rootHash h1 t1 = some r1 ∧ rootHash h2 t2 = some r2 ∧ r1 ≠ r2 ∧
      ∀ ds' h3 t3, ds'.length = ds.length →
        CollisionFreeOn (HashFunction128 S)
          (treeInputs (HashFunction128 S) (ds.map (HashFunction128 S)) ++
            treeInputs (HashFunction128 S) (ds'.map (HashFunction128 S))) →
        NewMerkleTree S fuel h' ds' = .ok (h3, t3) →
        rootHash h3 t3 = rootHash h1 t1 → leafHashes h3 t3 = leafHashes h1 t1 := by
  have hne : ds ≠ [] := by
    intro he; rw [he] at hi; simp at hi; omega
  have hk : i.toNat < ds.length := by omega
  obtain ⟨h1, t1, hrun1, _, hwf1, hlen1, hdig1⟩ := NewMerkleTree_observe S fuel h ds hne hf
  obtain ⟨h2, t2, hrun2, hwf2, _, hdig2⟩ :=
    UpdateLeaf_observe S hwf1 fuel i d hi0 (by rw [hlen1]; exact hi) (by omega)
  obtain ⟨_, hroot1, hleaves1, _⟩ := hwf1.observe
  obtain ⟨_, hroot2, _, _⟩ := hwf2.observe
  rw [hdig1] at hdig2
  have hwidth : ∀ (xs : List (List Byte)), ∀ x ∈ xs.map (HashFunction128 S), x.length = 16 := by
    intro xs x hx
    obtain ⟨y, _, rfl⟩ := List.mem_map.mp hx
    exact HashFunction128_length S y
  refine ⟨h1, t1, h2, t2, _, _, hrun1, hrun2, hroot1, hroot2, ?_, ?_⟩
  · intro heq
    rw [hdig1, hdig2, ← List.map_set] at heq
    have hlists := refRoot_injective (HashFunction128 S) 16 (HashFunction128_length S)
      ds.length _ _ (by simp) (by simp) (hwidth ds) (hwidth _) hcf heq
    apply hd
    have := congrArg (fun l => l[i.toNat]?) hlists
    simp only [List.getElem?_map, List.getElem?_set, hk, if_true] at this
    simpa using this
  · intro ds' h3 t3 hlen hcf' hrun3 hroot
    have hne' : ds' ≠ [] := by
      intro he; rw [he] at hlen; simp at hlen; omega
    obtain ⟨h3', t3', hrun3', _, hwf3, _, hdig3⟩ :=
      NewMerkleTree_observe S fuel h' ds' hne' (by omega)
    rw [hrun3] at hrun3'
    simp only [Except.ok.injEq, Prod.mk.injEq] at hrun3'
    obtain ⟨rfl, rfl⟩ := hrun3'
    obtain ⟨_, hroot3, hleaves3, _⟩ := hwf3.observe
    rw [hroot3, hroot1, hdig3, hdig1] at hroot
    have hlists := refRoot_injective (HashFunction128 S) 16 (HashFunction128_length S)
      ds.length _ _ (by simp) (by simpa using hlen) (hwidth ds) (hwidth ds')
      hcf' (Option.some.inj hroot).symm
    rw [hleaves3, hleaves1, hdig3, hdig1, hlists]

/-- Witness for C13: updating leaf 0 of the tree of `[1]`, `[2]` to `[9]` under the
separating stand-in hash. -/
theorem update_changes_root_witness :
    (0 : Int) ≤ 0 ∧ (0 : Int) < ([[1], [2]] : List (List Byte)).length ∧
    ([[1], [2]] : List (List Byte)).length ≤ 2 ∧
    (([[1], [2]] : List (List Byte))[(0 : Int).toNat]?).map (HashFunction128 mixSum256) ≠
      some (HashFunction128 mixSum256 [9]) ∧
    CollisionFreeOn (HashFunction128 mixSum256)
      (treeInputs (HashFunction128 mixSum256)
          (([[1], [2]] : List (List Byte)).map (HashFunction128 mixSum256)) ++
        treeInputs (HashFunction128 mixSum256)
          ((([[1], [2]] : List (List Byte)).set (0 : Int).toNat [9]).map
            (HashFunction128 mixSum256))) ∧
    ∃ h1 t1 h2 t2 r1 r2,
      NewMerkleTree mixSum256 2 [] [[1], [2]] = .ok (h1, t1) ∧
      UpdateLeaf mixSum256 2 h1 t1 0 [9] = .ok (h2, t2, none) ∧
      rootHash h1 t1 = some r1 ∧ rootHash h2 t2 = some r2 ∧ r1 ≠ r2 :=
  have hd : (([[1], [2]] : List (List Byte))[(0 : Int).toNat]?).map
      (HashFunction128 mixSum256) ≠ some (HashFunction128 mixSum256 [9]) := by decide
  have hcf : CollisionFreeOn (HashFunction128 mixSum256)
      (treeInputs (HashFunction128 mixSum256)
          (([[1], [2]] : List (List Byte)).map (HashFunction128 mixSum256)) ++
        treeInputs (HashFunction128 mixSum256)
          ((([[1], [2]] : List (List Byte)).set (0 : Int).toNat [9]).map
            (HashFunction128 mixSum256))) := by
    unfold CollisionFreeOn; decide
  ⟨by decide, by decide, by decide, hd, hcf,
    let ⟨h1, t1, h2, t2, r1, r2, a, b, c, e, f, _⟩ :=
      update_changes_root mixSum256 [] [] [[1], [2]] 0 [9] 2
        (by decide) (by decide) (by decide) hd hcf
    ⟨h1, t1, h2, t2, r1, r2, a, b, c, e, f⟩⟩

/-! ## Appending a leaf and the root digest -/

theorem pairInputs_append_even :
    ∀ (l m : List (List Byte)), l.length % 2 = 0 →
      pairInputs (l ++ m) = pairInputs l ++ pairInputs m
  | [], m, _ => by simp [pairInputs]
  | [x], m, hl => by simp at hl
  | x :: y :: rest, m, hl => by
    have ih := pairInputs_append_even rest m (by simp at hl; omega)
    simp [pairInputs, ih]

theorem mem_treeInputs_of_pair (H : List Byte → List Byte) {l : List (List Byte)}
    {z : List Byte} (h2 : 2 ≤ l.length) (hz : z ∈ pairInputs l) : z ∈ treeInputs H l := by
  rw [treeInputs_unfold, if_neg (by omega)]
  exact List.mem_append_left _ hz

theorem mem_treeInputs_of_next (H : List Byte → List Byte) {l : List (List Byte)}
    {z : List Byte} (h2 : 2 ≤ l.length) (hz : z ∈ treeInputs H (nextLevel H l)) :
    z ∈ treeInputs H l := by
  rw [treeInputs_unfold, if_neg (by omega)]
  exact List.mem_append_right _ hz

theorem selfPaired_succ (H : List Byte → List Byte) :
    ∀ (j : Nat) (x : List Byte), selfPaired H (j + 1) x = selfPaired H j (H (x ++ x))
  | 0, _ => rfl
  | j + 1, x => by
    show H (selfPaired H (j + 1) x ++ selfPaired H (j + 1) x) =
      H (selfPaired H j (H (x ++ x)) ++ selfPaired H j (H (x ++ x)))
    rw [selfPaired_succ H j x]

theorem nextLevel_replicate (H : List Byte → List Byte) (x : List Byte) :
    ∀ m : Nat, nextLevel H (List.replicate (2 * m) x) = List.replicate m (H (x ++ x))
  | 0 => rfl
  | m + 1 => by
    have e : 2 * (m + 1) = (2 * m + 1) + 1 := by ring
    rw [e, List.replicate_succ, List.replicate_succ]
    simp only [nextLevel]
    rw [nextLevel_replicate H x m, List.replicate_succ]

theorem mem_pairInputs_replicate (x : List Byte) :
    ∀ (m : Nat) (z : List Byte), z ∈ pairInputs (List.replicate (2 * m) x) → z = x ++ x
  | 0, z, hz => by simp [pairInputs] at hz
  | m + 1, z, hz => by
    have e : 2 * (m + 1) = (2 * m + 1) + 1 := by ring
    rw [e, List.replicate_succ, List.replicate_succ] at hz
    simp only [pairInputs, List.mem_cons] at hz
    rcases hz with hz | hz
    · exact hz
    · exact mem_pairInputs_replicate x m z hz

theorem two_pow_odd {j : Nat} (hj : 2 ^ j % 2 = 1) : j = 0 := by
  cases j with
  | zero => rfl
  | succ j => rw [pow_succ] at hj; omega

/-- A duplicated tail on a level of even length is a duplicated tail on the next
level. -/
theorem DuplicatedTail.next (H : List Byte → List Byte) {l : List (List Byte)}
    {x : List Byte} (heven : l.length % 2 = 0) (ht : DuplicatedTail l x) :
    DuplicatedTail (nextLevel H l) (H (x ++ x)) := by
  obtain ⟨j, k, init, hk, hinit, rfl⟩ := ht
  cases j with
  | zero =>
    simp only [zero_add, pow_one, pow_zero, List.length_append, List.length_replicate] at hinit heven
    omega
  | succ j =>
    have e1 : 2 ^ (j + 1 + 1) * k = 2 * (2 ^ (j + 1) * k) := by ring
    have e2 : 2 ^ (j + 1) = 2 * 2 ^ j := by ring
    rw [e1] at hinit
    refine ⟨j, k, nextLevel H init, hk, ?_, ?_⟩
    · rw [nextLevel_length, hinit]; omega
    · rw [nextLevel_append_even H init _ (by rw [hinit]; omega), e2, nextLevel_replicate]

/-- A duplicated tail on the next level comes from a duplicated tail on a level of
even length, unless two of the hashed pairs collide. -/
theorem DuplicatedTail.prev (H : List Byte → List Byte) (w : Nat) {l : List (List Byte)}
    {x : List Byte} (heven : l.length % 2 = 0) (hwl : ∀ y ∈ l, y.length = w)
    (hwx : x.length = w) (hcf : CollisionFreeOn H (pairInputs l ++ pairInputs (l ++ [x])))
    (ht : DuplicatedTail (nextLevel H l) (H (x ++ x))) : DuplicatedTail l x := by
  obtain ⟨j, k, init1, hk, hinit, hl1⟩ := ht
  have hpos : 0 < 2 ^ j := Nat.two_pow_pos j
  generalize hc : 2 ^ j = c at hl1 hpos
  have hlen := congrArg List.length hl1
  rw [nextLevel_length, List.length_append, List.length_replicate] at hlen
  have hsplit : l = l.take (2 * init1.length) ++ l.drop (2 * init1.length) :=
    (List.take_append_drop _ l).symm
  have htake : (l.take (2 * init1.length)).length = 2 * init1.length := by
    rw [List.length_take]; omega
  have hdrop : (l.drop (2 * init1.length)).length = 2 * c := by
    rw [List.length_drop]; omega
  have hnext : nextLevel H l = nextLevel H (l.take (2 * init1.length)) ++
      nextLevel H (l.drop (2 * init1.length)) := by
    conv_lhs => rw [hsplit]
    exact nextLevel_append_even H _ _ (by rw [htake]; omega)
  have hpairs : pairInputs l = pairInputs (l.take (2 * init1.length)) ++
      pairInputs (l.drop (2 * init1.length)) := by
    conv_lhs => rw [hsplit]
    exact pairInputs_append_even _ _ (by rw [htake]; omega)
  rw [hnext] at hl1
  have htail := (List.append_inj hl1 (by rw [nextLevel_length, htake]; omega)).2
  rw [← nextLevel_replicate H x c] at htail
  have hd := nextLevel_injective H w _ _ (by rw [hdrop, List.length_replicate])
    (fun y hy => hwl y (List.mem_of_mem_drop hy))
    (fun y hy => by rw [List.eq_of_mem_replicate hy]; exact hwx)
    (hcf.subset (by
      intro z hz
      rcases List.mem_append.mp hz with hz | hz
      · exact List.mem_append_left _ (by rw [hpairs]; exact List.mem_append_right _ hz)
      · rw [mem_pairInputs_replicate x _ z hz, pairInputs_append_even l _ heven]
        simp [pairInputs])) htail
  refine ⟨j + 1, k, l.take (2 * init1.length), hk, ?_, ?_⟩
  · rw [htake, hinit]; ring
  · have e2 : 2 ^ (j + 1) = 2 * c := by rw [← hc]; ring
    rw [e2, ← hd]
    exact hsplit

/-- Appending a digest `x` to a non-empty digest list `l` keeps the reference root
exactly when `l` ends in a duplicated tail of `x`, or the length of `l` is a power
of two `2^j` and the root `R` of `l` satisfies `R = H (R ++ selfPaired H j x)`;
unless two of the hashed inputs collide. -/
theorem refRoot_append_eq_iff (H : List Byte → List Byte) (w : Nat)
    (hw : ∀ y, (H y).length = w) :
    ∀ (n : Nat) (l : List (List Byte)) (x : List Byte), l.length = n → 1 ≤ n →
      (∀ y ∈ l, y.length = w) → x.length = w →
      CollisionFreeOn H (treeInputs H l ++ treeInputs H (l ++ [x])) →
      (refRoot H l = refRoot H (l ++ [x]) ↔
        DuplicatedTail l x ∨
          ∃ j, n = 2 ^ j ∧ refRoot H l = H (refRoot H l ++ selfPaired H j x)) := by
  intro n
  induction n using Nat.strong_induction_on with
  | _ n ih =>
    intro l x hn h1 hwl hwx hcf
    have hl2' : 2 ≤ (l ++ [x]).length := by simp; omega
    by_cases hone : n = 1
    · subst hone
      obtain ⟨a, rfl⟩ : ∃ a, l = [a] := List.length_eq_one.mp hn
      have e1 : refRoot H [a] = a := by rw [refRoot_unfold]; simp
      have e2 : refRoot H ([a] ++ [x]) = H (a ++ x) := by
        rw [refRoot_unfold, if_neg (by simp), refRoot_unfold]; simp [nextLevel]
      rw [e1, e2]
      constructor
      · intro he
        exact Or.inr ⟨0, rfl, he⟩
      · rintro (⟨j, k, init, hk, hinit, hl⟩ | ⟨j, hj, he⟩)
        · have hlen := congrArg List.length hl
          rw [List.length_append, List.length_replicate, hinit] at hlen
          have e3 : 2 ^ (j + 1) * k = 2 * (2 ^ j * k) := by ring
          have hpos : 0 < 2 ^ j * k := Nat.mul_pos (Nat.two_pow_pos j) hk
          rw [e3] at hlen
          generalize 2 ^ j * k = c at hlen hpos
          simp only [List.length_singleton] at hlen
          clear hinit
          generalize 2 ^ j = e at hlen
          omega
        · have hj0 : j = 0 := two_pow_odd (by omega)
          subst hj0
          exact he
    · have hl2 : 2 ≤ l.length := by omega
      by_cases hpar : n % 2 = 1
      · -- odd length at least 3: the new digest is paired with the last one
        obtain ⟨m, q, rfl⟩ : ∃ m q, l = m ++ [q] := by
          rcases List.eq_nil_or_concat l with he | ⟨m, q, he⟩
          · rw [he] at hl2; simp at hl2
          · exact ⟨m, q, by rw [he, List.concat_eq_append]⟩
        have hmlen : m.length + 1 = n := by simpa using hn
        have hmeven : m.length % 2 = 0 := by omega
        have en1 : nextLevel H (m ++ [q]) = nextLevel H m ++ [H (q ++ q)] := by
          rw [nextLevel_append_even H m _ hmeven]; rfl
        have en2 : nextLevel H ((m ++ [q]) ++ [x]) = nextLevel H m ++ [H (q ++ x)] := by
          rw [List.append_assoc, nextLevel_append_even H m _ hmeven]; rfl
        have ep1 : q ++ q ∈ treeInputs H (m ++ [q]) := by
          apply mem_treeInputs_of_pair H hl2
          rw [pairInputs_append_even m _ hmeven]
          simp [pairInputs]
        have ep2 : q ++ x ∈ treeInputs H ((m ++ [q]) ++ [x]) := by
          apply mem_treeInputs_of_pair H hl2'
          rw [List.append_assoc, pairInputs_append_even m _ hmeven]
          simp [pairInputs]
        have hqx : refRoot H (m ++ [q]) = refRoot H ((m ++ [q]) ++ [x]) ↔ q = x := by
          constructor
          · intro heq
            rw [refRoot_unfold H (m ++ [q]), refRoot_unfold H ((m ++ [q]) ++ [x]),
              if_neg (by omega), if_neg (by omega)] at heq
            have hlists := refRoot_injective H w hw _ _ _ rfl
              (by rw [en1, en2]; simp)
              (nextLevel_width H w hw _) (nextLevel_width H w hw _)
              (hcf.subset (by
                intro z hz
                rcases List.mem_append.mp hz with hz | hz
                · exact List.mem_append_left _ (mem_treeInputs_of_next H hl2 hz)
                · exact List.mem_append_right _ (mem_treeInputs_of_next H hl2' hz))) heq
            rw [en1, en2] at hlists
            have hlast := List.append_cancel_left hlists
            simp only [List.cons.injEq, and_true] at hlast
            have := hcf _ (List.mem_append_left _ ep1) _ (List.mem_append_right _ ep2) hlast
            exact List.append_cancel_left this
          · intro he
            subst he
            exact (refRoot_duplicate_last H m q hmeven (by omega)).symm
        rw [hqx]
        constructor
        · intro he
          subst he
          refine Or.inl ⟨0, m.length / 2, m, by omega, ?_, rfl⟩
          simp only [zero_add, pow_one]
          omega
        · rintro (⟨j, k, init, hk, hinit, hl⟩ | ⟨j, hj, _⟩)
          · have hlen := congrArg List.length hl
            simp only [List.length_append, List.length_replicate, List.length_singleton,
              hinit] at hlen
            have e3 : 2 ^ (j + 1) * k = 2 * (2 ^ j * k) := by ring
            rw [e3] at hlen
            have hj0 : j = 0 := two_pow_odd (by
              generalize 2 ^ j * k = c at hlen
              generalize 2 ^ j = e at hlen ⊢
              omega)
            subst hj0
            have hl3 : m ++ [q] = init ++ [x] := hl
            have := List.append_inj_right hl3 (by
              have := congrArg List.length hl3
              simpa using this)
            simpa using this
          · have hj0 : j = 0 := two_pow_odd (by omega)
            subst hj0
            simp at hj
            omega
      · -- even length: the new digest is paired with itself
        have heven : l.length % 2 = 0 := by omega
        have en2 : nextLevel H (l ++ [x]) = nextLevel H l ++ [H (x ++ x)] := by
          rw [nextLevel_append_even H l _ heven]; rfl
        have ep2 : pairInputs (l ++ [x]) = pairInputs l ++ [x ++ x] := by
          rw [pairInputs_append_even l _ heven]; rfl
        have hnl : (nextLevel H l).length = n / 2 := by rw [nextLevel_length, hn]; omega
        have hih := ih (n / 2) (by omega) (nextLevel H l) (H (x ++ x)) hnl (by omega)
          (nextLevel_width H w hw l) (hw _)
          (hcf.subset (by
            intro z hz
            rcases List.mem_append.mp hz with hz | hz
            · exact List.mem_append_left _ (mem_treeInputs_of_next H hl2 hz)
            · exact List.mem_append_right _
                (mem_treeInputs_of_next H hl2' (by rw [en2]; exact hz))))
        have hcfp : CollisionFreeOn H (pairInputs l ++ pairInputs (l ++ [x])) :=
          hcf.subset (by
            intro z hz
            rcases List.mem_append.mp hz with hz | hz
            · exact List.mem_append_left _ (mem_treeInputs_of_pair H hl2 hz)
            · exact List.mem_append_right _ (mem_treeInputs_of_pair H hl2' hz))
        rw [refRoot_unfold H l, refRoot_unfold H (l ++ [x]), if_neg (by omega),
          if_neg (by omega), en2, hih]
        constructor
        · rintro (ht | ⟨j, hj, he⟩)
          · exact Or.inl (ht.prev H w heven hwl hwx hcfp)
          · refine Or.inr ⟨j + 1, ?_, ?_⟩
            · rw [pow_succ]; omega
            · rw [selfPaired_succ]; exact he
        · rintro (ht | ⟨j, hj, he⟩)
          · exact Or.inl (ht.next H heven)
          · cases j with
            | zero => simp at hj; omega
            | succ j =>
              refine Or.inr ⟨j, ?_, ?_⟩
              · rw [pow_succ] at hj; omega
              · rw [selfPaired_succ] at he; exact he

/-- A digest list `m ++ [q]` of length `2^j` has a reference root `R` different from
`H (R ++ selfPaired H j x)`, unless two of the hashed inputs collide, provided a
single digest `q` is not the digest of `q || x` and the last digest `q` of a longer
list is not the digest of `x || x`. -/
theorem refRoot_pow_two_not_fixed (H : List Byte → List Byte) (w : Nat)
    (hw : ∀ y, (H y).length = w) :
    ∀ (j : Nat) (m : List (List Byte)) (q x : List Byte), m.length + 1 = 2 ^ j →
      (∀ y ∈ m, y.length = w) → q.length = w → x.length = w →
      (j = 0 → q ≠ H (q ++ x)) → (1 ≤ j → q ≠ H (x ++ x)) →
      CollisionFreeOn H (treeInputs H (m ++ [q]) ++ treeInputs H ((m ++ [q]) ++ [x])) →
      refRoot H (m ++ [q]) ≠ H (refRoot H (m ++ [q]) ++ selfPaired H j x) := by
  intro j
  induction j with
  | zero =>
    intro m q x hn _ _ _ hQ _ _
    have hm : m = [] := List.length_eq_zero.mp (by simpa using hn)
    subst hm
    have e1 : refRoot H ([] ++ [q]) = q := by rw [refRoot_unfold]; simp
    rw [e1]
    exact hQ rfl
  | succ j ih =>
    intro m q x hn hwm hwq hwx _ hP hcf
    have e0 : 2 ^ (j + 1) = 2 * 2 ^ j := by ring
    have hpos : 0 < 2 ^ j := Nat.two_pow_pos j
    rw [e0] at hn
    obtain ⟨m', p, hmp⟩ : ∃ m' p, m = m' ++ [p] := by
      rcases List.eq_nil_or_concat m with he | ⟨m', p, he⟩
      · rw [he] at hn; simp at hn; omega
      · exact ⟨m', p, by rw [he, List.concat_eq_append]⟩
    subst hmp
    have hm'len : m'.length + 2 = 2 * 2 ^ j := by simpa using hn
    have hm'even : m'.length % 2 = 0 := by omega
    have hl2 : 2 ≤ ((m' ++ [p]) ++ [q]).length := by simp
    have hl2' : 2 ≤ (((m' ++ [p]) ++ [q]) ++ [x]).length := by simp
    have hwp : p.length = w := hwm p (by simp)
    have en1 : nextLevel H ((m' ++ [p]) ++ [q]) = nextLevel H m' ++ [H (p ++ q)] := by
      rw [List.append_assoc, nextLevel_append_even H m' _ hm'even]; rfl
    have en2 : nextLevel H (((m' ++ [p]) ++ [q]) ++ [x]) =
        (nextLevel H m' ++ [H (p ++ q)]) ++ [H (x ++ x)] := by
      rw [List.append_assoc, List.append_assoc, nextLevel_append_even H m' _ hm'even]
      simp [nextLevel]
    have ep1 : p ++ q ∈ treeInputs H ((m' ++ [p]) ++ [q]) := by
      apply mem_treeInputs_of_pair H hl2
      rw [List.append_assoc, pairInputs_append_even m' _ hm'even]
      simp [pairInputs]
    have hsplit : ∀ u v : List Byte, u.length = w → p ++ q = u ++ v → q = v := by
      intro u v hu he
      exact (List.append_inj he (by rw [hwp, hu])).2
    have hnl : (nextLevel H m').length + 1 = 2 ^ j := by rw [nextLevel_length]; omega
    rw [refRoot_unfold H ((m' ++ [p]) ++ [q]), if_neg (by omega), en1, selfPaired_succ]
    refine ih (nextLevel H m') (H (p ++ q)) (H (x ++ x)) hnl
      (nextLevel_width H w hw m') (hw _) (hw _) ?_ ?_ ?_
    · intro hj0 he
      subst hj0
      have hnil : nextLevel H m' = [] := List.length_eq_zero.mp (by simpa using hnl)
      have hmem : H (p ++ q) ++ H (x ++ x) ∈
          treeInputs H (((m' ++ [p]) ++ [q]) ++ [x]) := by
        apply mem_treeInputs_of_next H hl2'
        rw [en2, hnil]
        apply mem_treeInputs_of_pair H (by simp)
        simp [pairInputs]
      have := hcf _ (List.mem_append_left _ ep1) _ (List.mem_append_right _ hmem) he
      exact hP (by omega) (hsplit _ _ (hw _) this)
    · intro hj1 he
      have hmem : H (x ++ x) ++ H (x ++ x) ∈
          treeInputs H (((m' ++ [p]) ++ [q]) ++ [x]) := by
        apply mem_treeInputs_of_next H hl2'
        rw [en2]
        apply mem_treeInputs_of_pair H (by simp)
        rw [pairInputs_append_even _ _ (by
          rw [List.length_append, List.length_singleton, hnl]
          obtain ⟨i, rfl⟩ : ∃ i, j = i + 1 := ⟨j - 1, by omega⟩
          rw [pow_succ]; omega)]
        simp [pairInputs]
      have := hcf _ (List.mem_append_left _ ep1) _ (List.mem_append_right _ hmem) he
      exact hP (by omega) (hsplit _ _ (hw _) this)
    · refine hcf.subset ?_
      intro z hz
      rcases List.mem_append.mp hz with hz | hz
      · exact List.mem_append_left _ (mem_treeInputs_of_next H hl2 (by rw [en1]; exact hz))
      · exact List.mem_append_right _
          (mem_treeInputs_of_next H hl2' (by rw [en2]; exact hz))

/-- C12 fails as stated: under the separating stand-in hash, inserting the block `[3]`
into the tree of `[1]`, `[2]`, `[3]` leaves the root hash unchanged, although no two
different inputs hashed while building the two trees have the same digest. -/
theorem insertion_keeps_root_counterexample :
    ∃ h1 t1 h2 t2 root,
      NewMerkleTree mixSum256 4 [] [[1], [2], [3]] = .ok (h1, t1) ∧
      InsertLeaf mixSum256 4 h1 t1 [3] = .ok (h2, t2) ∧
      rootHash h1 t1 = some root ∧ rootHash h2 t2 = some root ∧
      CollisionFreeOn (HashFunction128 mixSum256)
        (([[1], [2], [3]] : List (List Byte)) ++
          treeInputs (HashFunction128 mixSum256)
            (([[1], [2], [3]] : List (List Byte)).map (HashFunction128 mixSum256)) ++
          treeInputs (HashFunction128 mixSum256)
            (([[1], [2], [3], [3]] : List (List Byte)).map (HashFunction128 mixSum256))) :=
  ⟨_, _, _, _, _, rfl, rfl, rfl, rfl, by unfold CollisionFreeOn; decide⟩

/-- A digest list with a duplicated tail has at least three digests. -/
theorem DuplicatedTail.three_le {l : List (List Byte)} {x : List Byte}
    (ht : DuplicatedTail l x) : 3 ≤ l.length := by
  obtain ⟨j, k, init, hk, hinit, rfl⟩ := ht
  have e3 : 2 ^ (j + 1) * k = 2 * (2 ^ j * k) := by ring
  have hpos : 0 < 2 ^ j * k := Nat.mul_pos (Nat.two_pow_pos j) hk
  have hpos2 : 0 < 2 ^ j := Nat.two_pow_pos j
  rw [List.length_append, List.length_replicate, hinit, e3]
  generalize 2 ^ j * k = c at hpos
  generalize 2 ^ j = e at hpos2
  omega

/-- C12 (amended): for every non-empty block sequence `ds` with last block `b` and
every new block `d`, provided no two different inputs hashed above the leaves while
building the two trees have the same digest, the root hash after `InsertLeaf(d)` on
`NewMerkleTree(ds)` equals the root hash before exactly when the leaf digests end in
a duplicated tail of the digest of `d` (the leaf count is `2^j * m` with `m` odd and
at least 3 and the last `2^j` leaf digests all equal the digest of `d`), or the leaf
count is a power of two `2^j` and the old root `R` is the digest of `R` followed by
the digest of `d` paired with itself `j` times. The second case is excluded when the
digest of `b` differs from the digest of `H(b) || H(d)` for a single leaf and from
the digest of `H(d) || H(d)` for a leaf count that is a power of two from 2 on: then
the root hash changes exactly when there is no duplicated tail. -/
theorem insertion_changes_root (S : Sum256) (h : Heap) (ds : List (List Byte))
    (d b : List Byte) (fuel : Nat) (hlast : ds.getLast? = some b)
    (hf : ds.length + 1 ≤ fuel)
    (hcf : CollisionFreeOn (HashFunction128 S)
      (treeInputs (HashFunction128 S) (ds.map (HashFunction128 S)) ++
        treeInputs (HashFunction128 S) ((ds ++ [d]).map (HashFunction128 S)))) :
    ∃ h1 t1 h2 t2 r1 r2,
      NewMerkleTree S fuel h ds = .ok (h1, t1) ∧
      InsertLeaf S fuel h1 t1 d = .ok (h2, t2) ∧
      rootHash h1 t1 = some r1 ∧ rootHash h2 t2 = some r2 ∧
      (r1 = r2 ↔
        DuplicatedTail (ds.map (HashFunction128 S)) (HashFunction128 S d) ∨
          ∃ j, ds.length = 2 ^ j ∧
            r1 = HashFunction128 S
              (r1 ++ selfPaired (HashFunction128 S) j (HashFunction128 S d))) ∧
      ((ds.length = 1 → HashFunction128 S b ≠
          HashFunction128 S (HashFunction128 S b ++ HashFunction128 S d)) →
        ((∃ j, ds.length = 2 ^ (j + 1)) → HashFunction128 S b ≠
          HashFunction128 S (HashFunction128 S d ++ HashFunction128 S d)) →
        (r1 ≠ r2 ↔ ¬ DuplicatedTail (ds.map (HashFunction128 S)) (HashFunction128 S d))) := by
  have hne : ds ≠ [] := by
    intro he; rw [he] at hlast; simp at hlast
  have hpos : 1 ≤ ds.length := by
    have : ds.length ≠ 0 := fun h0 => hne (List.length_eq_zero.mp h0)
    omega
  obtain ⟨h1, t1, hrun1, _, hwf1, hlen1, hdig1⟩ :=
    NewMerkleTree_observe S fuel h ds hne (by omega)
  obtain ⟨h2, t2, hrun2, hwf2, _, hdig2⟩ := InsertLeaf_observe S hwf1 fuel d (by omega)
  obtain ⟨_, hroot1, _, _⟩ := hwf1.observe
  obtain ⟨_, hroot2, _, _⟩ := hwf2.observe
  rw [hdig1] at hdig2
  have e2 : (ds ++ [d]).map (HashFunction128 S) =
      ds.map (HashFunction128 S) ++ [HashFunction128 S d] := by simp
  rw [e2] at hcf
  have hwidth : ∀ (xs : List (List Byte)), ∀ x ∈ xs.map (HashFunction128 S), x.length = 16 := by
    intro xs x hx
    obtain ⟨y, _, rfl⟩ := List.mem_map.mp hx
    exact HashFunction128_length S y
  have hiff := refRoot_append_eq_iff (HashFunction128 S) 16 (HashFunction128_length S)
    ds.length (ds.map (HashFunction128 S)) (HashFunction128 S d) (by simp) hpos
    (hwidth ds) (HashFunction128_length S d) hcf
  refine ⟨h1, t1, h2, t2, _, _, hrun1, hrun2, hroot1, hroot2, ?_, ?_⟩
  · rw [hdig1, hdig2]
    exact hiff
  · intro hQ hP
    rw [hdig1, hdig2, Ne, hiff]
    constructor
    · intro hn ht
      exact hn (Or.inl ht)
    · rintro hn (ht | ⟨j, hj, he⟩)
      · exact hn ht
      · obtain ⟨init, rfl⟩ : ∃ init, ds = init ++ [b] := by
          rcases List.eq_nil_or_concat ds with he | ⟨init, x, hx⟩
          · exact absurd he hne
          · rw [hx] at hlast
            simp at hlast
            exact ⟨init, by rw [hx, hlast, List.concat_eq_append]⟩
        have e1 : (init ++ [b]).map (HashFunction128 S) =
            init.map (HashFunction128 S) ++ [HashFunction128 S b] := by simp
        rw [e1] at he hcf
        refine refRoot_pow_two_not_fixed (HashFunction128 S) 16 (HashFunction128_length S) j
          (init.map (HashFunction128 S)) (HashFunction128 S b) (HashFunction128 S d)
          (by simpa using hj) (hwidth init) (HashFunction128_length S b)
          (HashFunction128_length S d) ?_ ?_ hcf he
        · intro hj0
          exact hQ (by rw [hj, hj0]; rfl)
        · intro hj1
          exact hP ⟨j - 1, by rw [hj]; congr 1; omega⟩

/-- Witness for the amended C12: inserting a second copy of the last block `[2]` into
the tree of `[1]`, `[2]` under the separating stand-in hash changes the root hash. -/
theorem insertion_changes_root_witness :
    ([[1], [2]] : List (List Byte)).getLast? = some [2] ∧
    ([[1], [2]] : List (List Byte)).length + 1 ≤ 3 ∧
    CollisionFreeOn (HashFunction128 mixSum256)
      (treeInputs (HashFunction128 mixSum256)
          (([[1], [2]] : List (List Byte)).map (HashFunction128 mixSum256)) ++
        treeInputs (HashFunction128 mixSum256)
          ((([[1], [2]] : List (List Byte)) ++ [[2]]).map (HashFunction128 mixSum256))) ∧
    ∃ h1 t1 h2 t2 r1 r2,
      NewMerkleTree mixSum256 3 [] [[1], [2]] = .ok (h1, t1) ∧
      InsertLeaf mixSum256 3 h1 t1 [2] = .ok (h2, t2) ∧
      rootHash h1 t1 = some r1 ∧ rootHash h2 t2 = some r2 ∧ r1 ≠ r2 :=
  have hcf : CollisionFreeOn (HashFunction128 mixSum256)
      (treeInputs (HashFunction128 mixSum256)
          (([[1], [2]] : List (List Byte)).map (HashFunction128 mixSum256)) ++
        treeInputs (HashFunction128 mixSum256)
          ((([[1], [2]] : List (List Byte)) ++ [[2]]).map (HashFunction128 mixSum256))) := by
    unfold CollisionFreeOn; decide
  ⟨by decide, by decide, hcf,
    let ⟨h1, t1, h2, t2, r1, r2, a, b, c, e, _, f⟩ :=
      insertion_changes_root mixSum256 [] [[1], [2]] [2] [2] 3 (by decide) (by decide) hcf
    ⟨h1, t1, h2, t2, r1, r2, a, b, c, e,
      (f (by decide) (fun _ => by decide)).mpr fun ht => absurd ht.three_le (by decide)⟩⟩

/-! ## Shape of the nodes the builder creates -/

theorem map_some_injective {xs ys : List Nat} (hxy : xs.map some = ys.map some) : xs = ys :=
  List.map_injective_iff.mpr (Option.some_injective Nat) hxy

theorem pairLoop_shape (S : Sum256) :
    ∀ (ps : List Nat) (h : Heap) (acc : List Ptr) (h1 : Heap) (qs : List Nat),
      (∀ a ∈ ps, a < h.length) → ps.Nodup →
      pairLoop S h (ps.map some) acc = .ok (h1, acc ++ qs.map some) →
      ∀ q ∈ qs, ParentShape (HashFunction128 S) h1 ps q
  | [], h, acc, h1, qs, _, _, hrun => by
    simp only [List.map_nil, pairLoop_nil, Except.ok.injEq, Prod.mk.injEq] at hrun
    have hq : qs = [] := by
      have := hrun.2
      have e : acc ++ ([] : List Nat).map some = acc ++ qs.map some := by simpa using this
      exact (map_some_injective (List.append_cancel_left e)).symm
    intro q hqm
    rw [hq] at hqm
    simp at hqm
  | [l], h, acc, h1, qs, hv, _, hrun => by
    have hl : l < h.length := hv l (by simp)
    obtain ⟨ln, hln⟩ := exists_getElem? hl
    rw [List.map_cons, List.map_nil, pairLoop_single S acc hln] at hrun
    simp only [Except.ok.injEq, Prod.mk.injEq] at hrun
    obtain ⟨rfl, hqs⟩ := hrun
    have hq : qs = [h.length + 1] :=
      (@map_some_injective [h.length + 1] qs (List.append_cancel_left hqs)).symm
    subst hq
    let dup : MerkleNode := { Parent := none, Left := none, Right := none, Hash := ln.Hash }
    have hd : (h ++ [dup]).length = h.length + 1 := by simp
    have hl0 : (h ++ [dup])[l]? = some ln := by
      rw [List.getElem?_append_left hl]; exact hln
    have hd0 : (h ++ [dup])[h.length]? = some dup := by simp
    have hold := NewMerkleNode_getElem?_old (h ++ [dup]) (some l) (some h.length)
      (HashFunction128 S (ln.Hash ++ ln.Hash))
    have hnew := NewMerkleNode_getElem?_new (h ++ [dup]) (some l) (some h.length)
      (HashFunction128 S (ln.Hash ++ ln.Hash)) (by simp; omega) (by simp)
    rw [hd] at hnew
    intro q hq
    have hq1 : q = h.length + 1 := by simpa using hq
    subst hq1
    refine ⟨_, l, h.length, { ln with Parent := some (h.length + 1) },
      { dup with Parent := some (h.length + 1) }, hnew, rfl, rfl, ?_, ?_, rfl, by simp,
      Or.inr ⟨rfl, rfl⟩⟩
    · simp [hold l (by omega), hl0, hd]
    · simp [hold h.length (by omega), hd0, hd]
  | l :: r :: rest, h, acc, h1, qs, hv, hnd, hrun => by
    have hl : l < h.length := hv l (by simp)
    have hr : r < h.length := hv r (by simp)
    obtain ⟨ln, hln⟩ := exists_getElem? hl
    obtain ⟨rn, hrn⟩ := exists_getElem? hr
    have hrest : ∀ a ∈ rest, a < h.length := fun a ha => hv a (by simp [ha])
    simp only [List.nodup_cons, List.mem_cons, not_or] at hnd
    obtain ⟨⟨hlr, hlrest⟩, hrrest, hndr⟩ := hnd
    have hlen := NewMerkleNode_length h (some l) (some r)
      (HashFunction128 S (ln.Hash ++ rn.Hash))
    have hold := NewMerkleNode_getElem?_old h (some l) (some r)
      (HashFunction128 S (ln.Hash ++ rn.Hash))
    have hnew := NewMerkleNode_getElem?_new h (some l) (some r)
      (HashFunction128 S (ln.Hash ++ rn.Hash)) (by simp; omega) (by simp; omega)
    have hprest : h.length ∉ rest := fun hm => by have := hrest _ hm; omega
    have hv' : ∀ a ∈ rest,
        a < (NewMerkleNode h (some l) (some r) (HashFunction128 S (ln.Hash ++ rn.Hash))).1.length :=
      fun a ha => by rw [hlen]; have := hrest a ha; omega
    obtain ⟨h1', qs', hrun', post⟩ := pairLoop_spec S rest
      (NewMerkleNode h (some l) (some r) (HashFunction128 S (ln.Hash ++ rn.Hash))).1
      (acc ++ [some h.length]) hv' hndr
    rw [List.map_cons, List.map_cons, pairLoop_pair S _ _ hln hrn, hrun'] at hrun
    simp only [Except.ok.injEq, Prod.mk.injEq] at hrun
    obtain ⟨rfl, hqs⟩ := hrun
    have hq : qs = h.length :: qs' := by
      apply map_some_injective
      apply @List.append_cancel_left _ acc
      rw [← hqs]
      simp
    subst hq
    have hl1 : h1'[l]? = some { ln with Parent := some h.length } := by
      rw [post.frame l (by omega) hlrest, hold l hl]; simp [hln]
    have hr1 : h1'[r]? = some { rn with Parent := some h.length } := by
      rw [post.frame r (by omega) hrrest, hold r hr]; simp [hrn]
    have hp1 : h1'[h.length]? =
        some { Parent := none, Left := some l, Right := some r,
               Hash := HashFunction128 S (ln.Hash ++ rn.Hash) } := by
      rw [post.frame h.length (by omega) hprest, hnew]
    intro q hq
    rcases List.mem_cons.mp hq with rfl | hq
    · exact ⟨_, l, r, _, _, hp1, rfl, rfl, hl1, hr1, rfl, by simp, Or.inl (by simp)⟩
    · obtain ⟨pn, l', c, ln', cn, h1q, hL, hR, hl', hc, hH, hmem, hcm⟩ :=
        pairLoop_shape S rest _ (acc ++ [some h.length]) h1' qs' hv' hndr hrun' q hq
      refine ⟨pn, l', c, ln', cn, h1q, hL, hR, hl', hc, hH, by simp [hmem], ?_⟩
      rcases hcm with hcm | hcm
      · exact Or.inl (by simp [hcm])
      · exact Or.inr hcm

theorem GoodTree_transfer {H : List Byte → List Byte} {h h2 : Heap} {a : Nat}
    (hg : GoodTree H h a)
    (hcore : ∀ b, b < h.length → (h2[b]?).map core = (h[b]?).map core) :
    GoodTree H h2 a := by
  induction hg with
  | leaf a n hn hL hR =>
    obtain ⟨m, hm, hmL, hmR, _⟩ := core_some (hcore a (lt_of_getElem? hn)) hn
    exact GoodTree.leaf a m hm (by rw [hmL, hL]) (by rw [hmR, hR])
  | node a n l r ln rn hn hL hR hln hrn hH _ _ ihl ihr =>
    obtain ⟨m, hm, hmL, hmR, hmH⟩ := core_some (hcore a (lt_of_getElem? hn)) hn
    obtain ⟨lm, hlm, _, _, hlH⟩ := core_some (hcore l (lt_of_getElem? hln)) hln
    obtain ⟨rm, hrm, _, _, hrH⟩ := core_some (hcore r (lt_of_getElem? hrn)) hrn
    exact GoodTree.node a m l r lm rm hm (by rw [hmL, hL]) (by rw [hmR, hR]) hlm hrm
      (by rw [hmH, hH, hlH, hrH]) ihl ihr

/-- The builder, in addition to `BuildPost`: the tree below the returned root
satisfies the node-hash invariant when the subtrees below the given nodes do, and
from every given node the proof loop climbs to the root through present parents and
siblings. -/
theorem build_shape (S : Sum256) :
    ∀ (fuel : Nat) (ps : List Nat) (h : Heap),
      ps ≠ [] → (∀ a ∈ ps, a < h.length) → ps.Nodup → ps.length ≤ fuel →
      ∃ h2 r, buildMerkleTree S fuel h (ps.map some) = .ok (h2, some r) ∧
        BuildPost (HashFunction128 S) h ps h2 r ∧
        ((∀ a ∈ ps, GoodTree (HashFunction128 S) h a) → GoodTree (HashFunction128 S) h2 r) ∧
        (∀ a ∈ ps, Climb h2 r a) := by
  intro fuel
  induction fuel with
  | zero =>
    intro ps h hne _ _ hf
    exact absurd (List.length_eq_zero.mp (by omega)) hne
  | succ fuel ih =>
    intro ps h hne hv hnd hf
    obtain ⟨h2, r, hb, bpw⟩ := build_spec S (fuel + 1) ps h hne hv hnd hf
    refine ⟨h2, r, hb, bpw, ?_, ?_⟩
    · -- node-hash invariant
      intro hgood
      by_cases h1 : ps.length = 1
      · obtain ⟨rfl, hps⟩ := bpw.single h1
        exact hgood r (by rw [hps]; simp)
      · obtain ⟨h1', qs, hrun, post⟩ := pairLoop_spec S ps h [] hv hnd
        have hshape := pairLoop_shape S ps h [] h1' qs hv hnd hrun
        simp only [List.nil_append] at hrun
        have h2len : 2 ≤ ps.length := by
          have : ps.length ≠ 0 := fun h0 => hne (List.length_eq_zero.mp h0)
          omega
        have hq_len := post.qs_len
        have hqne : qs ≠ [] := by
          intro hq; rw [hq] at hq_len; simp at hq_len; omega
        obtain ⟨h2', r', hbuild, _, hgood', _⟩ := ih qs h1' hqne
          (fun q hq => (post.fresh q hq).2) post.nodup (by omega)
        rw [buildMerkleTree_rec S fuel h h1' _ _ (by simpa using h1) hrun, hbuild] at hb
        simp only [Except.ok.injEq, Prod.mk.injEq, Option.some.injEq] at hb
        obtain ⟨rfl, rfl⟩ := hb
        apply hgood'
        intro q hq
        obtain ⟨pn, l, c, ln, cn, hpn, hL, hR, hln, hcn, hH, hlmem, hcm⟩ := hshape q hq
        refine GoodTree.node q pn l c ln cn hpn hL hR hln hcn hH
          (GoodTree_transfer (hgood l hlmem) post.core_eq) ?_
        rcases hcm with hcm | ⟨hcL, hcR⟩
        · exact GoodTree_transfer (hgood c hcm) post.core_eq
        · exact GoodTree.leaf c cn hcn hcL hcR
    · -- climbing to the root
      intro a ha
      by_cases h1 : ps.length = 1
      · obtain ⟨_, hps⟩ := bpw.single h1
        rw [hps] at ha
        have : a = r := by simpa using ha
        rw [this]
        exact Climb.root
      · obtain ⟨h1', qs, hrun, post⟩ := pairLoop_spec S ps h [] hv hnd
        simp only [List.nil_append] at hrun
        have h2len : 2 ≤ ps.length := by
          have : ps.length ≠ 0 := fun h0 => hne (List.length_eq_zero.mp h0)
          omega
        have hq_len := post.qs_len
        have hqne : qs ≠ [] := by
          intro hq; rw [hq] at hq_len; simp at hq_len; omega
        obtain ⟨h2', r', hbuild, bp, _, hclimb'⟩ := ih qs h1' hqne
          (fun q hq => (post.fresh q hq).2) post.nodup (by omega)
        rw [buildMerkleTree_rec S fuel h h1' _ _ (by simpa using h1) hrun, hbuild] at hb
        simp only [Except.ok.injEq, Prod.mk.injEq, Option.some.injEq] at hb
        obtain ⟨rfl, rfl⟩ := hb
        obtain ⟨k, hk, rfl⟩ := List.getElem_of_mem ha
        obtain ⟨q, hq, hstep⟩ := post.step k hk
        rw [List.getD_eq_getElem _ _ hk] at hstep
        have ha_lt : ps[k] < h.length := hv _ (List.getElem_mem hk)
        have ha_notin : ps[k] ∉ qs := fun hm => by
          have := (post.fresh _ hm).1; omega
        have hstep2 := StepOK_transfer hstep bp.core_eq
          (bp.frame _ (lt_of_lt_of_le ha_lt post.len_le) ha_notin)
        have hqmem : q ∈ qs := List.getElem?_mem hq
        have hr := bpw.root_fresh h2len
        exact Climb.step ps[k] q _ (by omega) hstep2 (hclimb' q hqmem)

/-! ## The structural invariant of reachable trees -/

theorem Shaped_of_build (S : Sum256) {fuel : Nat} {h0 h : Heap} {ps : List Nat} {root : Ptr}
    (hne : ps ≠ []) (hnd : ps.Nodup)
    (hleaf : ∀ a ∈ ps, ∃ n, h0[a]? = some n ∧ n.Left = none ∧ n.Right = none)
    (hrun : buildMerkleTree S fuel h0 (ps.map some) = .ok (h, root)) :
    Shaped (HashFunction128 S) h { Root := root, LeafNodes := ps.map some } := by
  have hv : ∀ a ∈ ps, a < h0.length := fun a ha => by
    obtain ⟨n, hn, _⟩ := hleaf a ha
    exact lt_of_getElem? hn
  obtain ⟨h2, r, hb, bp, hgood, hclimb⟩ :=
    build_shape S (fuel + ps.length) ps h0 hne hv hnd (by omega)
  rw [buildMerkleTree_mono S fuel h0 _ _ hrun ps.length] at hb
  simp only [Except.ok.injEq, Prod.mk.injEq] at hb
  obtain ⟨rfl, rfl⟩ := hb
  refine ⟨ps, r, rfl, rfl, hne, hnd, ?_, ?_, hclimb⟩
  · intro a ha
    obtain ⟨n, hn, hL, hR⟩ := hleaf a ha
    obtain ⟨m, hm, hmL, hmR, _⟩ := core_some (bp.core_eq a (hv a ha)) hn
    exact ⟨m, hm, by rw [hmL, hL], by rw [hmR, hR]⟩
  · apply hgood
    intro a ha
    obtain ⟨n, hn, hL, hR⟩ := hleaf a ha
    exact GoodTree.leaf a n hn hL hR

theorem leaves_childless (h : Heap) (xs : List (List Byte)) :
    ∀ a ∈ List.range' h.length xs.length,
      ∃ n, (h ++ xs.map leafNode)[a]? = some n ∧ n.Left = none ∧ n.Right = none := by
  intro a ha
  obtain ⟨h1, h2⟩ := List.mem_range'_1.mp ha
  have hi : a - h.length < (xs.map leafNode).length := by simp; omega
  refine ⟨(xs.map leafNode)[a - h.length], ?_, ?_, ?_⟩
  · rw [List.getElem?_append_right h1, List.getElem?_eq_getElem hi]
  · simp [leafNode]
  · simp [leafNode]

theorem Shaped_insert (S : Sum256) {fuel : Nat} {h h2 : Heap} {t t2 : MerkleTree}
    {d : List Byte} (hs : Shaped (HashFunction128 S) h t)
    (hrun : InsertLeaf S fuel h t d = .ok (h2, t2)) :
    Shaped (HashFunction128 S) h2 t2 := by
  obtain ⟨ps, r, hleaves, _, hne, hnd, hleaf, _, _⟩ := hs
  rw [InsertLeaf_eq] at hrun
  obtain ⟨⟨h3, root⟩, hb, hok⟩ := bind_eq_ok hrun
  simp only [Except.ok.injEq, Prod.mk.injEq] at hok
  obtain ⟨rfl, rfl⟩ := hok
  have hl : t.LeafNodes ++ [some h.length] = (ps ++ [h.length]).map some := by
    simp [hleaves]
  rw [hl] at hb ⊢
  refine Shaped_of_build S (by simp) ?_ ?_ hb
  · refine List.Nodup.append hnd (List.nodup_singleton _) ?_
    intro a ha hb'
    simp at hb'
    obtain ⟨n, hn, _⟩ := hleaf a ha
    have := lt_of_getElem? hn
    omega
  · intro a ha
    rcases List.mem_append.mp ha with ha | ha
    · obtain ⟨n, hn, hL, hR⟩ := hleaf a ha
      exact ⟨n, by rw [List.getElem?_append_left (lt_of_getElem? hn)]; exact hn, hL, hR⟩
    · have : a = h.length := by simpa using ha
      subst this
      exact ⟨leafNode (HashFunction128 S d), by simp, rfl, rfl⟩

theorem setHash_children {h h1 : Heap} {p : Ptr} {x : List Byte}
    (hset : setHash h p x = .ok h1) {a : Nat} {n : MerkleNode} (hn : h[a]? = some n) :
    ∃ m, h1[a]? = some m ∧ m.Left = n.Left ∧ m.Right = n.Right := by
  cases p with
  | none => simp [setHash] at hset
  | some b =>
    cases hb : h[b]? with
    | none => simp [setHash, hb] at hset
    | some k =>
      simp only [setHash, hb, Except.ok.injEq] at hset
      subst hset
      by_cases hab : b = a
      · subst hab
        rw [hn] at hb
        simp only [Option.some.injEq] at hb
        subst hb
        exact ⟨{ n with Hash := x }, by simp [List.getElem?_set, lt_of_getElem? hn],
          rfl, rfl⟩
      · exact ⟨n, by simp [List.getElem?_set, hab, hn], rfl, rfl⟩

theorem Shaped_update (S : Sum256) {fuel : Nat} {h h2 : Heap} {t t2 : MerkleTree}
    {i : Int} {d : List Byte} (hs : Shaped (HashFunction128 S) h t)
    (hrun : UpdateLeaf S fuel h t i d = .ok (h2, t2, none)) :
    Shaped (HashFunction128 S) h2 t2 := by
  obtain ⟨ps, r, hleaves, _, hne, hnd, hleaf, _, _⟩ := hs
  by_cases hi : i < 0 ∨ i ≥ t.LeafNodes.length
  · rw [UpdateLeaf_out_of_range S fuel h t i d hi] at hrun
    simp at hrun
  · rw [UpdateLeaf_in_range S fuel h t i d hi] at hrun
    obtain ⟨h1, hset, hrest⟩ := bind_eq_ok hrun
    obtain ⟨⟨h3, root⟩, hb, hok⟩ := bind_eq_ok hrest
    simp only [Except.ok.injEq, Prod.mk.injEq] at hok
    obtain ⟨rfl, rfl, _⟩ := hok
    have hleaf1 : ∀ a ∈ ps, ∃ n, h1[a]? = some n ∧ n.Left = none ∧ n.Right = none := by
      intro a ha
      obtain ⟨n, hn, hL, hR⟩ := hleaf a ha
      obtain ⟨m, hm, hmL, hmR⟩ := setHash_children hset hn
      exact ⟨m, hm, by rw [hmL, hL], by rw [hmR, hR]⟩
    rw [hleaves] at hb
    have := Shaped_of_build S hne hnd hleaf1 hb
    simpa [hleaves] using this

/-- Every reachable state satisfies the structural invariant. -/
theorem Reachable.shaped {S : Sum256} {h : Heap} {t : MerkleTree}
    (hr : Reachable S h t) : Shaped (HashFunction128 S) h t := by
  induction hr with
  | new fuel h data h2 t hne hrun =>
    rw [NewMerkleTree_eq] at hrun
    obtain ⟨⟨h3, root⟩, hb, hok⟩ := bind_eq_ok hrun
    simp only [Except.ok.injEq, Prod.mk.injEq] at hok
    obtain ⟨rfl, rfl⟩ := hok
    have hlenne : List.range' h.length data.length ≠ [] := by
      intro he
      have := congrArg List.length he
      simp at this
      exact hne this
    have hl := leaves_childless h (data.map (HashFunction128 S))
    simp only [List.length_map, List.map_map] at hl
    exact Shaped_of_build S hlenne (List.nodup_range' _ _) hl hb
  | insert fuel h t d h2 t2 _ hrun ih => exact Shaped_insert S ih hrun
  | update fuel h t i d h2 t2 _ hrun ih => exact Shaped_update S ih hrun

theorem GoodTree_descendant {H : List Byte → List Byte} {h : Heap} {a b : Nat}
    (hd : Descendant h a b) (hg : GoodTree H h a) : GoodTree H h b := by
  induction hd with
  | self a => exact hg
  | left a b l n hn hL _ ih =>
    cases hg with
    | leaf _ n' hn' hL' _ =>
      rw [hn] at hn'
      simp only [Option.some.injEq] at hn'
      subst hn'
      rw [hL] at hL'
      simp at hL'
    | node _ n' l' r' ln rn hn' hL' _ _ _ _ hgl _ =>
      rw [hn] at hn'
      simp only [Option.some.injEq] at hn'
      subst hn'
      rw [hL] at hL'
      simp only [Option.some.injEq] at hL'
      subst hL'
      exact ih hgl
  | right a b r n hn hR _ ih =>
    cases hg with
    | leaf _ n' hn' _ hR' =>
      rw [hn] at hn'
      simp only [Option.some.injEq] at hn'
      subst hn'
      rw [hR] at hR'
      simp at hR'
    | node _ n' l' r' ln rn hn' _ hR' _ _ _ _ hgr =>
      rw [hn] at hn'
      simp only [Option.some.injEq] at hn'
      subst hn'
      rw [hR] at hR'
      simp only [Option.some.injEq] at hR'
      subst hR'
      exact ih hgr

theorem GoodTree_nodeInvariant {H : List Byte → List Byte} {h : Heap} {a : Nat}
    (hg : GoodTree H h a) : NodeInvariant H h a := by
  cases hg with
  | leaf _ n hn hL hR => exact ⟨n, hn, Or.inl ⟨hL, hR⟩⟩
  | node _ n l r ln rn hn hL hR hln hrn hH _ _ =>
    exact ⟨n, hn, Or.inr ⟨l, r, ln, rn, hL, hR, hln, hrn, hH⟩⟩

/-- C16: in every reachable state (after `NewMerkleTree` on non-empty data and any
sequence of `InsertLeaf` and `UpdateLeaf` calls) the root is an allocated node, and
every node reachable from it through `Left` and `Right` pointers either has no
children, or has both children present and its hash is `H(left.hash || right.hash)`;
in particular this holds in the state a further successful `UpdateLeaf` produces. -/
theorem node_hash_invariant (S : Sum256) (h : Heap) (t : MerkleTree)
    (hr : Reachable S h t) :
    (∃ r rootNode, t.Root = some r ∧ h[r]? = some rootNode ∧
      ∀ b, Descendant h r b → NodeInvariant (HashFunction128 S) h b) ∧
    (∀ fuel index data h2 t2, UpdateLeaf S fuel h t index data = .ok (h2, t2, none) →
      ∃ r2, t2.Root = some r2 ∧
        ∀ b, Descendant h2 r2 b → NodeInvariant (HashFunction128 S) h2 b) := by
  have key : ∀ (h : Heap) (t : MerkleTree), Reachable S h t →
      ∃ r rootNode, t.Root = some r ∧ h[r]? = some rootNode ∧
        ∀ b, Descendant h r b → NodeInvariant (HashFunction128 S) h b := by
    intro h t hr
    obtain ⟨ps, r, _, hroot, _, _, _, hgood, _⟩ := hr.shaped
    obtain ⟨n, hn, _⟩ := GoodTree_nodeInvariant hgood
    exact ⟨r, n, hroot, hn, fun b hd => GoodTree_nodeInvariant (GoodTree_descendant hd hgood)⟩
  refine ⟨key h t hr, ?_⟩
  intro fuel index data h2 t2 hrun
  obtain ⟨r2, _, hroot, _, hall⟩ := key h2 t2 (Reachable.update fuel h t index data h2 t2 hr hrun)
  exact ⟨r2, hroot, hall⟩

/-- Witness for C16: the tree of `[1]`, `[2]`, `[3]` under the separating stand-in
hash, and the state after updating leaf 2 to `[9]`. -/
theorem node_hash_invariant_witness :
    ∃ h1 t1 h2 t2,
      NewMerkleTree mixSum256 3 [] [[1], [2], [3]] = .ok (h1, t1) ∧
      Reachable mixSum256 h1 t1 ∧
      UpdateLeaf mixSum256 3 h1 t1 2 [9] = .ok (h2, t2, none) ∧
      (∃ r rootNode, t1.Root = some r ∧ h1[r]? = some rootNode ∧
        ∀ b, Descendant h1 r b → NodeInvariant (HashFunction128 mixSum256) h1 b) ∧
      (∃ r2, t2.Root = some r2 ∧
        ∀ b, Descendant h2 r2 b → NodeInvariant (HashFunction128 mixSum256) h2 b) :=
  have hreach : Reachable mixSum256 _ _ :=
    Reachable.new 3 [] [[1], [2], [3]] _ _ (by decide) rfl
  ⟨_, _, _, _, rfl, hreach, rfl,
    (node_hash_invariant mixSum256 _ _ hreach).1,
    (node_hash_invariant mixSum256 _ _ hreach).2 3 2 [9] _ _ rfl⟩

/-! ## The defensive branch of the proof loop -/

/-- Forgetting the ghost record gives back the proof loop. -/
theorem proofLoopTrace_erase :
    ∀ (fuel : Nat) (h : Heap) (root node : Ptr) (proof : List (List Byte))
      (fallback : List Bool),
      (proofLoopTrace fuel h root node proof fallback).map Prod.fst =
        proofLoop fuel h root node proof
  | 0, _, _, _, _, _ => rfl
  | fuel + 1, h, root, node, proof, fallback => by
    unfold proofLoopTrace proofLoop
    by_cases hroot : node = root
    · simp [hroot, Except.map]
    · simp only [hroot, if_false, bind, Except.bind, pure, Except.pure]
      cases hn : load h node with
      | error e => rfl
      | ok n =>
        simp only []
        cases hp : load h n.Parent with
        | error e => rfl
        | ok p =>
          simp only []
          by_cases hs : (if node = p.Left then p.Right else p.Left) = none
          · simp only [hs, ne_eq, not_true_eq_false, if_false]
            exact proofLoopTrace_erase fuel h root n.Parent _ _
          · simp only [hs, ne_eq, not_false_eq_true, if_true]
            cases hl : load h (if node = p.Left then p.Right else p.Left) with
            | error e => rfl
            | ok s => exact proofLoopTrace_erase fuel h root n.Parent _ _

theorem proofLoopTrace_step {h : Heap} {a q : Nat} {sib : List Byte} (hs : StepOK h a q sib)
    (fuel : Nat) (root : Ptr) (proof : List (List Byte)) (fallback : List Bool)
    (hne : some a ≠ root) :
    proofLoopTrace (fuel + 1) h root (some a) proof fallback =
      proofLoopTrace fuel h root (some q) (proof ++ [sib]) (fallback ++ [false]) := by
  obtain ⟨n, pn, c, s, hn, hp, hpn, hc, hsn, hsib⟩ := hs
  simp [proofLoopTrace, hne, load, hn, hp, hpn, hc, hsn, hsib, bind, Except.bind, pure,
    Except.pure]

theorem StepOK.siblingPresent {h : Heap} {a q : Nat} {sib : List Byte}
    (hs : StepOK h a q sib) : SiblingPresent h (some a) := by
  obtain ⟨n, pn, c, s, hn, hp, hpn, hc, hsn, _⟩ := hs
  exact ⟨n, pn, c, s, load_ok hn, by rw [hp]; exact load_ok hpn, hc, load_ok hsn⟩

theorem Climb.visited_siblingPresent {h : Heap} {r a : Nat} (hc : Climb h r a) :
    ∀ fuel, ∀ v ∈ visited fuel h (some r) (some a), SiblingPresent h v := by
  induction hc with
  | root =>
    intro fuel v hv
    cases fuel <;> simp [visited] at hv
  | step a q sib hne hstep _ ih =>
    intro fuel v hv
    cases fuel with
    | zero => simp [visited] at hv
    | succ fuel =>
      obtain ⟨n, pn, c, s, hn, hp, _⟩ := id hstep
      have hne' : some a ≠ some r := fun e => hne (Option.some.inj e)
      simp only [visited, hne', if_false, load_ok hn, hp, List.mem_cons] at hv
      rcases hv with rfl | hv
      · exact hstep.siblingPresent
      · exact ih fuel v hv

theorem Climb.trace_all_false {h : Heap} {r a : Nat} (hc : Climb h r a) :
    ∀ (fuel : Nat) (proof : List (List Byte)) (fallback : List Bool)
      (res : List (List Byte) × List Bool),
      proofLoopTrace fuel h (some r) (some a) proof fallback = .ok res →
      (∀ b ∈ fallback, b = false) →
      (∀ b ∈ res.2, b = false) ∧ res.2.length + proof.length = res.1.length + fallback.length := by
  induction hc with
  | root =>
    intro fuel proof fallback res hrun hfb
    cases fuel with
    | zero => simp [proofLoopTrace] at hrun
    | succ fuel =>
      simp only [proofLoopTrace, if_true, Except.ok.injEq] at hrun
      subst hrun
      exact ⟨hfb, Nat.add_comm _ _⟩
  | step a q sib hne hstep _ ih =>
    intro fuel proof fallback res hrun hfb
    cases fuel with
    | zero => simp [proofLoopTrace] at hrun
    | succ fuel =>
      have hne' : some a ≠ some r := fun e => hne (Option.some.inj e)
      rw [proofLoopTrace_step hstep fuel (some r) proof fallback hne'] at hrun
      obtain ⟨h1, h2⟩ := ih fuel _ _ res hrun (by
        intro b hb
        rcases List.mem_append.mp hb with hb | hb
        · exact hfb b hb
        · simpa using hb)
      refine ⟨h1, ?_⟩
      simp only [List.length_append, List.length_singleton] at h2
      omega

theorem visited_ne_root :
    ∀ (fuel : Nat) (h : Heap) (root node : Ptr), ∀ v ∈ visited fuel h root node, v ≠ root
  | 0, _, _, _, v, hv => by simp [visited] at hv
  | fuel + 1, h, root, node, v, hv => by
    unfold visited at hv
    by_cases hroot : node = root
    · simp [hroot] at hv
    · simp only [hroot, if_false, List.mem_cons] at hv
      rcases hv with rfl | hv
      · exact hroot
      · cases hn : load h node with
        | error e => simp [hn] at hv
        | ok n =>
          rw [hn] at hv
          exact visited_ne_root fuel h root n.Parent v hv

/-- C17: for every reachable tree, every index in range and fuel at least the number
of leaves, the proof loop started at the leaf returns the proof of
`GenerateMerkleProof` without ever taking the defensive branch (one ghost flag per
proof entry, all false), and every non-root node it visits has an allocated parent
and a non-nil, allocated sibling. -/
theorem fallback_unreachable (S : Sum256) (h : Heap) (t : MerkleTree)
    (hr : Reachable S h t) (index : Int) (fuel : Nat)
    (hi0 : 0 ≤ index) (hi : index < t.LeafNodes.length) (hf : t.LeafNodes.length ≤ fuel) :
    ∃ proof fallback,
      GenerateMerkleProof fuel h t index = .ok (proof, none) ∧
      proofLoopTrace fuel h t.Root (t.LeafNodes.getD index.toNat none) [] [] =
        .ok (proof, fallback) ∧
      fallback.length = proof.length ∧
      (∀ b ∈ fallback, b = false) ∧
      ∀ fuel2, ∀ v ∈ visited fuel2 h t.Root (t.LeafNodes.getD index.toNat none),
        v ≠ t.Root ∧ SiblingPresent h v := by
  obtain ⟨_, _, _, hgen⟩ := hr.wellFormed.observe
  obtain ⟨ps, r, hleaves, hroot, _, _, _, _, hclimb⟩ := hr.shaped
  have hlen : t.LeafNodes.length = ps.length := by simp [hleaves]
  have hk : index.toNat < ps.length := by omega
  have hleaf : t.LeafNodes.getD index.toNat none = some ps[index.toNat] := by
    rw [hleaves, List.getD_eq_getElem _ _ (by simpa using hk)]
    simp
  have hg := hgen index hi0 hi fuel hf
  have hloop : proofLoop fuel h t.Root (t.LeafNodes.getD index.toNat none) [] =
      .ok (refProof (HashFunction128 S) (leafDigests h t) index.toNat) := by
    have hg2 := hg
    rw [GenerateMerkleProof_in_range fuel h t index (by omega)] at hg2
    obtain ⟨p, hp, hok⟩ := bind_eq_ok hg2
    simp only [Except.ok.injEq, Prod.mk.injEq, and_true] at hok
    rw [← hok]
    rw [← hp]
    congr 1
    rw [List.getD_eq_getElem _ _ (by omega)]
    rfl
  have hc := hclimb ps[index.toNat] (List.getElem_mem hk)
  have herase := proofLoopTrace_erase fuel h t.Root (t.LeafNodes.getD index.toNat none) [] []
  rw [hloop] at herase
  cases htr : proofLoopTrace fuel h t.Root (t.LeafNodes.getD index.toNat none) [] [] with
  | error e =>
    rw [htr] at herase
    simp [Except.map] at herase
  | ok res =>
    rw [htr] at herase
    simp only [Except.map, Except.ok.injEq] at herase
    have htr2 := htr
    rw [hroot, hleaf] at htr2
    obtain ⟨hall, hlens⟩ := hc.trace_all_false fuel [] [] res htr2 (by simp)
    refine ⟨_, res.2, hg, ?_, ?_, hall, ?_⟩
    · rw [← herase]
    · rw [← herase]
      simpa using hlens
    · intro fuel2 v hv
      refine ⟨visited_ne_root fuel2 h _ _ v hv, ?_⟩
      rw [hroot, hleaf] at hv
      exact hc.visited_siblingPresent fuel2 v hv

/-- Witness for C17: index 4 of the five-block tree under the stand-in hash, whose
leaf is the unpaired last node of its level. -/
theorem fallback_unreachable_witness :
    ∃ h2 t, NewMerkleTree paddedSum256 5 [] [[1], [2], [3], [4], [5]] = .ok (h2, t) ∧
      Reachable paddedSum256 h2 t ∧
      (0 : Int) ≤ 4 ∧ (4 : Int) < t.LeafNodes.length ∧ t.LeafNodes.length ≤ 5 ∧
      ∃ proof fallback,
        GenerateMerkleProof 5 h2 t 4 = .ok (proof, none) ∧
        proofLoopTrace 5 h2 t.Root (t.LeafNodes.getD (4 : Int).toNat none) [] [] =
          .ok (proof, fallback) ∧
        fallback.length = proof.length ∧
        (∀ b ∈ fallback, b = false) ∧
        ∀ fuel2, ∀ v ∈ visited fuel2 h2 t.Root (t.LeafNodes.getD (4 : Int).toNat none),
          v ≠ t.Root ∧ SiblingPresent h2 v :=
  have hreach : Reachable paddedSum256 _ _ :=
    Reachable.new 5 [] [[1], [2], [3], [4], [5]] _ _ (by decide) rfl
  ⟨_, _, rfl, hreach, by decide, by decide, by decide,
    fallback_unreachable paddedSum256 _ _ hreach 4 5 (by decide) (by decide) (by decide)⟩

/-! ## `VerifyMerkleProof` on slices in memory -/

theorem Slice.bytes_congr {m m' : Memory} {k : Nat} (s : Slice)
    (hm : m.take k = m'.take k) (hs : s.ptr + s.len ≤ k) : s.bytes m = s.bytes m' := by
  have e : ∀ x : Memory, s.bytes x = ((x.take k).drop s.ptr).take s.len := by
    intro x
    rw [Slice.bytes, List.drop_take, List.take_take, Nat.min_eq_left (by omega)]
  rw [e m, e m', hm]

theorem Slice.bytes_append_left (s : Slice) (m ys : Memory) (hs : s.ptr + s.len ≤ m.length) :
    s.bytes (m ++ ys) = s.bytes m :=
  s.bytes_congr (by rw [List.take_append_of_le_length (Nat.le_refl _)]) hs

theorem Slice.bytes_length (s : Slice) (m : Memory) (hs : s.ptr + s.len ≤ m.length) :
    (s.bytes m).length = s.len := by
  rw [Slice.bytes, List.length_take, List.length_drop]
  omega

theorem Slice.bytes_at_end (m ys : Memory) (n c : Nat) :
    ({ ptr := m.length, len := n, cap := c } : Slice).bytes (m ++ ys) = ys.take n := by
  rw [Slice.bytes]
  simp

theorem store_length (m : Memory) (a : Nat) (xs : List Byte) (ha : a + xs.length ≤ m.length) :
    (store m a xs).length = m.length := by
  simp only [store, List.length_append, List.length_take, List.length_drop]
  omega

theorem store_take (m : Memory) (a k : Nat) (xs : List Byte) (ha : a ≤ m.length)
    (hk : k ≤ a) : (store m a xs).take k = m.take k := by
  rw [store, List.append_assoc, List.take_append_of_le_length (by
    rw [List.length_take]; omega), List.take_take, Nat.min_eq_left hk]

theorem Slice.bytes_store_after (s : Slice) (m : Memory) (a : Nat) (xs : List Byte)
    (ha : a + xs.length ≤ m.length) (hs : a + xs.length ≤ s.ptr) :
    s.bytes (store m a xs) = s.bytes m := by
  have hl : (m.take a ++ xs).length = a + xs.length := by
    rw [List.length_append, List.length_take]; omega
  rw [Slice.bytes, Slice.bytes, store, List.drop_append_eq_append_drop,
    List.drop_eq_nil_of_le (by omega), List.nil_append, hl, List.drop_drop]
  congr 2
  omega

theorem Slice.bytes_store_extend (s : Slice) (m : Memory) (xs : List Byte) (c : Nat)
    (hs : s.ptr + s.len + xs.length ≤ m.length) :
    ({ ptr := s.ptr, len := s.len + xs.length, cap := c } : Slice).bytes
      (store m (s.ptr + s.len) xs) = s.bytes m ++ xs := by
  have h1 : (m.take (s.ptr + s.len)).drop s.ptr = s.bytes m := by
    rw [List.drop_take, Slice.bytes]
    congr 1
    omega
  have h2 : (s.bytes m ++ xs).length = s.len + xs.length := by
    rw [List.length_append, s.bytes_length m (by omega)]
  show ((store m (s.ptr + s.len) xs).drop s.ptr).take (s.len + xs.length) = _
  rw [store, List.append_assoc, List.drop_append_of_le_length (by
    rw [List.length_take]; omega), h1, ← List.append_assoc, List.take_left' h2]

/-- What `append` does to memory: the result shows the bytes of both arguments, the
memory below the end of the first argument is as before, and memory does not
shrink. -/
theorem InMemory.append_spec (m : Memory) (s t : Slice) (hsl : s.len ≤ s.cap)
    (hs : s.ptr + s.cap ≤ m.length) (ht : t.ptr + t.len ≤ m.length) :
    (InMemory.append m s t).2.bytes (InMemory.append m s t).1 = s.bytes m ++ t.bytes m ∧
      (∀ k, k ≤ s.ptr + s.len → (InMemory.append m s t).1.take k = m.take k) ∧
      m.length ≤ (InMemory.append m s t).1.length ∧
      (InMemory.append m s t).2.ptr + (InMemory.append m s t).2.len ≤
        (InMemory.append m s t).1.length := by
  have hlen := t.bytes_length m ht
  unfold InMemory.append
  split
  · next hfit =>
    refine ⟨?_, ?_, ?_, ?_⟩
    · have := s.bytes_store_extend m (t.bytes m) s.cap (by omega)
      rw [hlen] at this
      exact this
    · intro k hk
      exact store_take m _ k _ (by omega) hk
    · rw [store_length m _ _ (by omega)]
    · simp only []
      rw [store_length m _ _ (by omega)]
      omega
  · refine ⟨?_, ?_, ?_, ?_⟩
    · simp only []
      rw [Slice.bytes_at_end, List.take_of_length_le]
      rw [List.length_append, hlen, s.bytes_length m (by omega)]
    · intro k hk
      exact List.take_append_of_le_length (by omega)
    · simp
    · simp only [List.length_append]
      rw [hlen, s.bytes_length m (by omega)]

/-- From a slice that lies above the first `base` addresses, the loop of
`VerifyMerkleProof` leaves those addresses as they are, and it ends in the slice that
shows the fold of the contents of the remaining proof entries. -/
theorem InMemory.verifyLoop_private (S : Sum256) (base : Nat) :
    ∀ (rest : List Slice) (m : Memory) (cur : Slice), base ≤ cur.ptr → cur.len ≤ cur.cap →
      cur.ptr + cur.cap ≤ m.length → (∀ p ∈ rest, p.ptr + p.len ≤ base) →
      (InMemory.verifyLoop S m cur rest).1.take base = m.take base ∧
        (InMemory.verifyLoop S m cur rest).2.bytes (InMemory.verifyLoop S m cur rest).1 =
          (rest.map fun p => p.bytes m).foldl
            (fun acc sibling => Merkle.HashFunction128 S (acc ++ sibling)) (cur.bytes m)
  | [], m, cur, _, _, _, _ => ⟨rfl, rfl⟩
  | hash :: rest, m, cur, hb, hl, hc, hv => by
    have hhash : hash.ptr + hash.len ≤ base := hv hash (by simp)
    obtain ⟨a1, a2, a3, a4⟩ := InMemory.append_spec m cur hash hl hc (by omega)
    have ih := InMemory.verifyLoop_private S base rest
      (InMemory.HashFunction128 S (InMemory.append m cur hash).1
        (InMemory.append m cur hash).2).1
      (InMemory.HashFunction128 S (InMemory.append m cur hash).1
        (InMemory.append m cur hash).2).2
      (by simp only [InMemory.HashFunction128]; omega) (by simp [InMemory.HashFunction128])
      (by
        simp only [InMemory.HashFunction128, List.length_append]
        rw [(S _).property])
      (fun p hp => hv p (by simp [hp]))
    have hpre : (InMemory.HashFunction128 S (InMemory.append m cur hash).1
        (InMemory.append m cur hash).2).1.take base = m.take base := by
      simp only [InMemory.HashFunction128]
      rw [List.take_append_of_le_length (by omega)]
      exact a2 base (by omega)
    have hcur : (InMemory.HashFunction128 S (InMemory.append m cur hash).1
        (InMemory.append m cur hash).2).2.bytes
        (InMemory.HashFunction128 S (InMemory.append m cur hash).1
          (InMemory.append m cur hash).2).1 =
        Merkle.HashFunction128 S (cur.bytes m ++ hash.bytes m) := by
      simp only [InMemory.HashFunction128]
      rw [Slice.bytes_at_end, a1]
      rfl
    have hmap : (rest.map fun p => p.bytes (InMemory.HashFunction128 S
        (InMemory.append m cur hash).1 (InMemory.append m cur hash).2).1) =
        rest.map fun p => p.bytes m :=
      List.map_congr_left fun p hp => p.bytes_congr hpre (hv p (by simp [hp]))
    rw [hmap, hcur, hpre] at ih
    exact ih

/-- What `VerifyMerkleProof` computes on slices in memory: with a non-empty proof it
is the verifier on contents, where the first proof entry is read before the first
`append` and the root hash and the later proof entries are read after it. -/
theorem InMemory.VerifyMerkleProof_eq (S : Sum256) (m : Memory) (rootHash leafHash : Slice)
    (p0 : Slice) (rest : List Slice) (hll : leafHash.len ≤ leafHash.cap)
    (hl : leafHash.ptr + leafHash.cap ≤ m.length) (hr : rootHash.ptr + rootHash.len ≤ m.length)
    (hp0 : p0.ptr + p0.len ≤ m.length) (hv : ∀ p ∈ rest, p.ptr + p.len ≤ m.length) :
    (InMemory.VerifyMerkleProof S m rootHash leafHash (p0 :: rest)).1 =
      Merkle.VerifyMerkleProof S (rootHash.bytes (InMemory.append m leafHash p0).1)
        (leafHash.bytes m)
        (p0.bytes m :: rest.map fun p => p.bytes (InMemory.append m leafHash p0).1) := by
  obtain ⟨a1, _, a3, _⟩ := InMemory.append_spec m leafHash p0 hll hl hp0
  obtain ⟨b1, b2⟩ := InMemory.verifyLoop_private S (InMemory.append m leafHash p0).1.length rest
    (InMemory.HashFunction128 S (InMemory.append m leafHash p0).1
      (InMemory.append m leafHash p0).2).1
    (InMemory.HashFunction128 S (InMemory.append m leafHash p0).1
      (InMemory.append m leafHash p0).2).2
    (by simp [InMemory.HashFunction128]) (by simp [InMemory.HashFunction128])
    (by
      simp only [InMemory.HashFunction128, List.length_append]
      rw [(S _).property])
    (fun p hp => Nat.le_trans (hv p hp) a3)
  have hpre : (InMemory.HashFunction128 S (InMemory.append m leafHash p0).1
      (InMemory.append m leafHash p0).2).1.take (InMemory.append m leafHash p0).1.length =
      (InMemory.append m leafHash p0).1.take (InMemory.append m leafHash p0).1.length := by
    simp only [InMemory.HashFunction128]
    rw [List.take_append_of_le_length (Nat.le_refl _)]
  have hcur : (InMemory.HashFunction128 S (InMemory.append m leafHash p0).1
      (InMemory.append m leafHash p0).2).2.bytes
      (InMemory.HashFunction128 S (InMemory.append m leafHash p0).1
        (InMemory.append m leafHash p0).2).1 =
      Merkle.HashFunction128 S (leafHash.bytes m ++ p0.bytes m) := by
    simp only [InMemory.HashFunction128]
    rw [Slice.bytes_at_end, a1]
    rfl
  have hmap : (rest.map fun p => p.bytes (InMemory.HashFunction128 S
      (InMemory.append m leafHash p0).1 (InMemory.append m leafHash p0).2).1) =
      rest.map fun p => p.bytes (InMemory.append m leafHash p0).1 :=
    List.map_congr_left fun p hp => p.bytes_congr hpre (Nat.le_trans (hv p hp) a3)
  rw [hmap, hcur] at b2
  have hroot : rootHash.bytes (InMemory.verifyLoop S
      (InMemory.HashFunction128 S (InMemory.append m leafHash p0).1
        (InMemory.append m leafHash p0).2).1
      (InMemory.HashFunction128 S (InMemory.append m leafHash p0).1
        (InMemory.append m leafHash p0).2).2 rest).1 =
      rootHash.bytes (InMemory.append m leafHash p0).1 :=
    rootHash.bytes_congr (b1.trans hpre) (Nat.le_trans hr a3)
  have hstep : InMemory.verifyLoop S m leafHash (p0 :: rest) =
      InMemory.verifyLoop S
        (InMemory.HashFunction128 S (InMemory.append m leafHash p0).1
          (InMemory.append m leafHash p0).2).1
        (InMemory.HashFunction128 S (InMemory.append m leafHash p0).1
          (InMemory.append m leafHash p0).2).2 rest := rfl
  show (EncodeToString _ == EncodeToString _) = _
  rw [hstep, b2, hroot]
  rfl

theorem InMemory.VerifyMerkleProof_nil (S : Sum256) (m : Memory) (rootHash leafHash : Slice) :
    InMemory.VerifyMerkleProof S m rootHash leafHash [] =
      (Merkle.VerifyMerkleProof S (rootHash.bytes m) (leafHash.bytes m) [], m) := rfl

theorem Untouched.bytes_eq {leafHash p0 s : Slice} (hu : Untouched leafHash p0 s) (m : Memory)
    (hl : leafHash.ptr + leafHash.cap ≤ m.length) (hp0 : p0.ptr + p0.len ≤ m.length)
    (hs : s.ptr + s.len ≤ m.length) :
    s.bytes (InMemory.append m leafHash p0).1 = s.bytes m := by
  have hlen := p0.bytes_length m hp0
  unfold InMemory.append
  split
  · next hfit =>
    rcases hu with hu | hu | hu
    · omega
    · exact s.bytes_congr (store_take m _ _ _ (by omega) (Nat.le_refl _)) hu
    · exact s.bytes_store_after m _ _ (by omega) (by omega)
  · exact s.bytes_append_left m _ hs

/-- On slices in memory `VerifyMerkleProof` returns what the verifier on contents
returns, provided its first `append` leaves the bytes of `rootHash` and of the later
proof entries untouched. -/
theorem InMemory.VerifyMerkleProof_eq_of_untouched (S : Sum256) (m : Memory)
    (rootHash leafHash : Slice) (proof : List Slice) (hll : leafHash.len ≤ leafHash.cap)
    (hl : leafHash.ptr + leafHash.cap ≤ m.length) (hr : rootHash.ptr + rootHash.len ≤ m.length)
    (hv : ∀ p ∈ proof, p.ptr + p.len ≤ m.length)
    (hu : ∀ p0 rest, proof = p0 :: rest →
      Untouched leafHash p0 rootHash ∧ ∀ p ∈ rest, Untouched leafHash p0 p) :
    (InMemory.VerifyMerkleProof S m rootHash leafHash proof).1 =
      Merkle.VerifyMerkleProof S (rootHash.bytes m) (leafHash.bytes m)
        (proof.map fun p => p.bytes m) := by
  cases proof with
  | nil => rfl
  | cons p0 rest =>
    obtain ⟨hur, hurest⟩ := hu p0 rest rfl
    have hp0 : p0.ptr + p0.len ≤ m.length := hv p0 (by simp)
    rw [InMemory.VerifyMerkleProof_eq S m rootHash leafHash p0 rest hll hl hr hp0
      (fun p hp => hv p (by simp [hp])), hur.bytes_eq m hl hp0 hr]
    have hmap : (rest.map fun p => p.bytes (InMemory.append m leafHash p0).1) =
        rest.map fun p => p.bytes m :=
      List.map_congr_left fun p hp =>
        (hurest p hp).bytes_eq m hl hp0 (hv p (by simp [hp]))
    rw [hmap]
    rfl

/-- C3 fails on the code when `rootHash` lies in the spare capacity of `leafHash`:
in the memory `rootBehindLeaf`, with `leafHash` the first 16 bytes of the 32-byte
array (capacity 32), `rootHash` its last 16 bytes and the proof the single entry in
the other array, the left fold of the proof from `leafHash` equals `rootHash`, yet
`VerifyMerkleProof` returns false: its first `append` stores the proof entry over
the bytes of `rootHash`, which afterwards shows the proof entry. -/
theorem verify_rejects_root_behind_leaf :
    ([(⟨32, 16, 16⟩ : Slice)].map fun p => p.bytes rootBehindLeaf).foldl
        (fun acc sibling => HashFunction128 mixSum256 (acc ++ sibling))
        ((⟨0, 16, 32⟩ : Slice).bytes rootBehindLeaf) =
      (⟨16, 16, 16⟩ : Slice).bytes rootBehindLeaf ∧
    (InMemory.VerifyMerkleProof mixSum256 rootBehindLeaf ⟨16, 16, 16⟩ ⟨0, 16, 32⟩
      [⟨32, 16, 16⟩]).1 = false ∧
    (⟨16, 16, 16⟩ : Slice).bytes (InMemory.VerifyMerkleProof mixSum256 rootBehindLeaf
      ⟨16, 16, 16⟩ ⟨0, 16, 32⟩ [⟨32, 16, 16⟩]).2 = (⟨32, 16, 16⟩ : Slice).bytes rootBehindLeaf := by
  decide

set_option maxRecDepth 100000 in
/-- C4 fails on the code when the replaced proof entry lies in the spare capacity of
`leafHash`: in the memory `entryBehindLeaf`, with `leafHash` the first 16 bytes of
the 32-byte array (capacity 32), `VerifyMerkleProof` accepts the proof made of the
entry in the second array twice, and it also accepts the proof whose second entry is
replaced by the last 16 bytes of the first array, a different value: its first
`append` stores the first entry over the replaced one. No two different inputs
hashed while folding the two proofs have the same digest. -/
theorem verify_accepts_entry_behind_leaf :
    (InMemory.VerifyMerkleProof mixSum256 entryBehindLeaf ⟨48, 16, 16⟩ ⟨0, 16, 32⟩
      [⟨32, 16, 16⟩, ⟨32, 16, 16⟩]).1 = true ∧
    (⟨16, 16, 16⟩ : Slice).bytes entryBehindLeaf ≠ (⟨32, 16, 16⟩ : Slice).bytes entryBehindLeaf ∧
    ((⟨16, 16, 16⟩ : Slice).bytes entryBehindLeaf).length =
      ((⟨32, 16, 16⟩ : Slice).bytes entryBehindLeaf).length ∧
    CollisionFreeOn (HashFunction128 mixSum256)
      (foldInputs (HashFunction128 mixSum256) ((⟨0, 16, 32⟩ : Slice).bytes entryBehindLeaf)
          ([(⟨32, 16, 16⟩ : Slice), ⟨32, 16, 16⟩].map fun p => p.bytes entryBehindLeaf) ++
        foldInputs (HashFunction128 mixSum256) ((⟨0, 16, 32⟩ : Slice).bytes entryBehindLeaf)
          ([(⟨32, 16, 16⟩ : Slice), ⟨16, 16, 16⟩].map fun p => p.bytes entryBehindLeaf)) ∧
    (InMemory.VerifyMerkleProof mixSum256 entryBehindLeaf ⟨48, 16, 16⟩ ⟨0, 16, 32⟩
      [⟨32, 16, 16⟩, ⟨16, 16, 16⟩]).1 = true := by
  refine ⟨by decide, by decide, by decide, ?_, by decide⟩
  unfold CollisionFreeOn
  decide

/-- On slices in memory `VerifyMerkleProof` returns true exactly when the left fold
of the contents of the proof from the contents of `leafHash` equals the contents of
`rootHash`, provided its first `append` leaves the bytes of `rootHash` and of the
later proof entries untouched. -/
theorem InMemory.VerifyMerkleProof_iff_of_untouched (S : Sum256) (m : Memory)
    (rootHash leafHash : Slice) (proof : List Slice) (hll : leafHash.len ≤ leafHash.cap)
    (hl : leafHash.ptr + leafHash.cap ≤ m.length) (hr : rootHash.ptr + rootHash.len ≤ m.length)
    (hv : ∀ p ∈ proof, p.ptr + p.len ≤ m.length)
    (hu : ∀ p0 rest, proof = p0 :: rest →
      Untouched leafHash p0 rootHash ∧ ∀ p ∈ rest, Untouched leafHash p0 p) :
    (InMemory.VerifyMerkleProof S m rootHash leafHash proof).1 = true ↔
      (proof.map fun p => p.bytes m).foldl
        (fun acc sibling => Merkle.HashFunction128 S (acc ++ sibling)) (leafHash.bytes m) =
        rootHash.bytes m := by
  rw [InMemory.VerifyMerkleProof_eq_of_untouched S m rootHash leafHash proof hll hl hr hv hu,
    VerifyMerkleProof_iff]

end Merkle
